import Mathlib

/-!
Othello root-parallel MCTS player: board codec, move rules, expansion, rollout, backpropagation,
selection, merge of the per-thread trees and decision.

Shallow embedding of `src/player_root_parallel.cpp`.

Conventions of the embedding.

* A C++ `int` / `int64_t` value is a Lean `Int`.  The bitwise operators are interpreted on the
  two's-complement bit pattern of the stated width (`toBits` / `ofBits`), so `<<` wraps into the
  sign bit exactly as on the machine; `>>` on a signed value is the arithmetic shift (floor
  division by a power of two).
* Board coordinates stay within `[-1, 8]` and the disc counters within `[0, 64]`, so `+` and `-` on
  them are the mathematical operations.  In `backPropagation` the result `win` is any `int`: the
  negation `win = -win` and the two updates of the statistics are taken modulo `2 ^ 32`
  (`wrapInt`).  The merge loop adds statistics that are bounded by the number of search
  iterations.
* Pointers are indices into a heap (`List Node`); `nullptr` is `none`; `new` appends to the heap.
* Every `while` loop is a function with a fuel argument that returns `none` when the fuel is
  exhausted.  The walks over the board are run with `SIZE + 1` units of fuel; the lemmas
  `firstStop_fuel`, `isTerminalWalk_fuel`, `expansionWalk_fuel`, `rolloutWalk_fuel`,
  `flipBack_ray` and `flipWalk_fuel` prove that this is always enough.
* The generator `rand_r` of the C library is a parameter of `rollout`: a function from the seed to
  the value returned and the seed left behind.
* The type `double` is a parameter `D` of the selection loops, a linear order that stands for the
  values of type `double` that arise (finite, never NaN: the statistics are non-negative counts
  and the shared counter is at least 1 where `log` is taken); the rounded arithmetic and the
  library functions `sqrt` and `log` are the fields of `DoubleOps D`, and the expressions of the
  source are built from them term by term.  The initial `-infinity` of a maximum is `none`.
* An index outside `0..2` into `disc_count` is outside the array; `DiscCount.add` leaves the
  counters alone there.  On a board whose cells are in `{0, 1, 2}` a disc is flipped or placed
  only when `player` is 1 or 2 (`scan_slot`), so the case does not arise.
-/

namespace Othello

/-! ## Machine integers -/

/-- Bit pattern of `x` seen as a two's-complement integer of `w` bits. -/
def toBits (w : Nat) (x : Int) : Nat := (x % ((2 ^ w : Nat) : Int)).toNat

/-- Signed value of the `w`-bit pattern `n`. -/
def ofBits (w : Nat) (n : Nat) : Int :=
  if n % 2 ^ w < 2 ^ (w - 1) then ((n % 2 ^ w : Nat) : Int)
  else ((n % 2 ^ w : Nat) : Int) - ((2 ^ w : Nat) : Int)

/-- The operator `a & b` at width `w`. -/
def bitAnd (w : Nat) (a b : Int) : Int := ofBits w (toBits w a &&& toBits w b)

/-- The operator `a | b` at width `w`. -/
def bitOr (w : Nat) (a b : Int) : Int := ofBits w (toBits w a ||| toBits w b)

/-- The operator `a ^ b` at width `w`. -/
def bitXor (w : Nat) (a b : Int) : Int := ofBits w (toBits w a ^^^ toBits w b)

/-- The operator `~a` at width `w`. -/
def bitNot (w : Nat) (a : Int) : Int := ofBits w (2 ^ w - 1 - toBits w a)

/-- The operator `a << s` at width `w` (bits shifted past the top are lost). -/
def shl (w : Nat) (a s : Int) : Int := ofBits w (toBits w a <<< s.toNat)

/-- The operator `a >> s` on a signed value: arithmetic shift. -/
def sar (a s : Int) : Int := a / ((2 ^ s.toNat : Nat) : Int)

/-! ## Points, directions, board words -/

/-- The `struct Point`. -/
structure Point where
  x : Int
  y : Int
deriving DecidableEq

instance : Add Point := ⟨fun p q => ⟨p.x + q.x, p.y + q.y⟩⟩
instance : Sub Point := ⟨fun p q => ⟨p.x - q.x, p.y - q.y⟩⟩

def EMPTY : Int := 0
def BLACK : Int := 1
def WHITE : Int := 2
def SIZE : Nat := 8

/-- The table `directions[16]`. -/
def directions : List Int := [-1, -1, -1, 0, -1, 1, 0, -1, 0, 1, 1, -1, 1, 0, 1, 1]

/-- The point `Point(directions[d << 1], directions[(d << 1) + 1])`. -/
def dirOf (d : Nat) : Point :=
  ⟨directions.getD (d <<< 1) 0, directions.getD ((d <<< 1) + 1) 0⟩

/-- The array `int64_t board[2]`. -/
structure Board where
  w0 : Int
  w1 : Int
deriving DecidableEq

/-- Read `board[k]`. -/
def Board.word (b : Board) (k : Int) : Int := if k = 0 then b.w0 else b.w1

/-- Write `board[k] = v`. -/
def Board.setWord (b : Board) (k : Int) (v : Int) : Board :=
  if k = 0 then { b with w0 := v } else { b with w1 := v }

/-- The test `!(p.x & (~7)) && !(p.y & (~7))`. -/
def inBoard (p : Point) : Bool :=
  bitAnd 32 p.x (bitNot 32 7) == 0 && bitAnd 32 p.y (bitNot 32 7) == 0

/-- The shift amount `(((p.x & 3) << 3) + p.y) << 1`. -/
def cellShift (p : Point) : Int := shl 32 (shl 32 (bitAnd 32 p.x 3) 3 + p.y) 1

/-- The cell read `(board[p.x >> 2] >> ((((p.x & 3) << 3) + p.y) << 1)) & 3`. -/
def getCell (b : Board) (p : Point) : Int :=
  bitAnd 64 (sar (b.word (sar p.x 2)) (cellShift p)) 3

/-- The update `board[p.x >> 2] ^= (int64_t)3 << shift`. -/
def xorCell (b : Board) (p : Point) : Board :=
  b.setWord (sar p.x 2) (bitXor 64 (b.word (sar p.x 2)) (shl 64 3 (cellShift p)))

/-- The update `board[p.x >> 2] &= ~((int64_t)3 << shift)`. -/
def clearCell (b : Board) (p : Point) : Board :=
  b.setWord (sar p.x 2) (bitAnd 64 (b.word (sar p.x 2)) (bitNot 64 (shl 64 3 (cellShift p))))

/-- The update `board[p.x >> 2] |= (int64_t)v << shift`. -/
def orCell (b : Board) (p : Point) (v : Int) : Board :=
  b.setWord (sar p.x 2) (bitOr 64 (b.word (sar p.x 2)) (shl 64 v (cellShift p)))

/-- The array `int disc_count[3]`. -/
structure DiscCount where
  c0 : Int
  c1 : Int
  c2 : Int
deriving DecidableEq

/-- Read `disc_count[k]`. -/
def DiscCount.get (dc : DiscCount) (k : Int) : Int :=
  if k = 0 then dc.c0 else if k = 1 then dc.c1 else if k = 2 then dc.c2 else 0

/-- The update `disc_count[k] += delta` (an index outside `0..2` is outside the array). -/
def DiscCount.add (dc : DiscCount) (k : Int) (delta : Int) : DiscCount :=
  if k = 0 then { dc with c0 := dc.c0 + delta }
  else if k = 1 then { dc with c1 := dc.c1 + delta }
  else if k = 2 then { dc with c2 := dc.c2 + delta }
  else dc

/-- Sum `disc_count[0] + disc_count[1] + disc_count[2]`. -/
def DiscCount.total (dc : DiscCount) : Int := dc.c0 + dc.c1 + dc.c2

/-! ## Terminal test -/

/-- The `while` loop of `isTerminal` (lines 226-230).  `some true` is the `return false` taken
inside the loop, `some false` the normal loop exit. -/
def isTerminalWalk : Nat → Board → Int → Point → Point → Option Bool
  | 0, _, _, _, _ => none
  | fuel + 1, b, firstPly, p, dir =>
    if inBoard p && getCell b p != EMPTY then
      if getCell b p != firstPly then some true
      else isTerminalWalk fuel b firstPly (p + dir) dir
    else some false

/-- Body of the direction loop of `isTerminal` at cell `(i, j)` and direction `d`: `true` when
`return false` is taken. -/
def isTerminalDir (b : Board) (i j d : Nat) : Bool :=
  let dir := dirOf d
  let p := Point.mk i j + dir
  if inBoard p then
    (isTerminalWalk (SIZE + 1) b (getCell b p) p dir).getD false
  else false

/-- The function `isTerminal(int64_t board[2])`. -/
def isTerminal (b : Board) : Bool :=
  !(List.range SIZE).any fun (i : Nat) => (List.range SIZE).any fun (j : Nat) =>
    getCell b ⟨i, j⟩ == EMPTY && (List.range 8).any fun d => isTerminalDir b i j d

/-! ## Nodes and the heap -/

/-- The `struct Node`.  `total_games` points at the `partial_games` field of a node, so it is the
address of that node; `children` pairs a child pointer with the move coordinate. -/
structure Node where
  partial_wins : Int
  partial_games : Int
  total_games : Nat
  player : Int
  board : Board
  disc_count : DiscCount
  parent : Option Nat
  children : List (Option Nat × Point)
deriving DecidableEq

/-- The heap of allocated nodes: a pointer is an index. -/
abbrev Heap := List Node

/-- The 8x8 input grid `std::array<std::array<int, SIZE>, SIZE>`. -/
abbrev Grid := Nat → Nat → Int

/-- One iteration of the inner loop of the constructor (lines 72-73). -/
def encodeCell (g : Grid) (i j : Nat) (st : Board × DiscCount) : Board × DiscCount :=
  (orCell st.1 ⟨i, j⟩ (g i j), st.2.add (g i j) 1)

/-- The double loop of the constructor (lines 70-75). -/
def encodeGrid (g : Grid) : Board × DiscCount :=
  (List.range SIZE).foldl (fun st i => (List.range SIZE).foldl (fun st j => encodeCell g i j st) st)
    (⟨0, 0⟩, ⟨0, 0, 0⟩)

/-- The constructor `Node(board, player)`; `self` is the address of the node being built. -/
def Node.ofGrid (self : Nat) (g : Grid) (player : Int) : Node :=
  { partial_wins := 0
    partial_games := 0
    total_games := self
    player := player
    board := (encodeGrid g).1
    disc_count := (encodeGrid g).2
    parent := none
    children := [] }

/-- The constructor `Node(Node* node)`. -/
def Node.copy (node : Node) : Node :=
  { partial_wins := 0
    partial_games := 0
    total_games := node.total_games
    player := node.player
    board := node.board
    disc_count := node.disc_count
    parent := none
    children := [] }

/-- The function `isTerminal(Node* node)`. -/
def isTerminalNode (node : Node) : Bool :=
  if node.disc_count.get 0 = 0 then true else isTerminal node.board

/-! ## Expansion -/

/-- The `while` loop of the legality scan of `expansion` (lines 296-302): `some true` when the
loop breaks with `point_availible = true`. -/
def expansionWalk : Nat → Board → Int → Point → Point → Option Bool
  | 0, _, _, _, _ => none
  | fuel + 1, b, player, p, dir =>
    if inBoard p && getCell b p != EMPTY then
      if getCell b p == 3 - player then some true
      else expansionWalk fuel b player (p + dir) dir
    else some false

/-- Body of the direction loop of the legality scan (lines 290-303): `true` when this direction
sets `point_availible`. -/
def expansionDir (b : Board) (player : Int) (i j d : Nat) : Bool :=
  let dir := dirOf d
  let p := Point.mk i j + dir
  if inBoard p then
    if getCell b p != player then false
    else (expansionWalk (SIZE + 1) b player (p + dir) dir).getD false
  else false

/-- The direction loop of the legality scan (lines 288-304): final value of `point_availible`. -/
def pointAvailable (b : Board) (player : Int) (i j : Nat) : Bool :=
  (List.range 8).foldl (fun avail d => if expansionDir b player i j d then true else avail) false

/-- The legality scan of `expansion` (lines 285-310): the children list it leaves, every slot
holding `nullptr`. -/
def expansionScan (b : Board) (player : Int) : List (Option Nat × Point) :=
  (List.range SIZE).foldl (fun ch (i : Nat) => (List.range SIZE).foldl (fun ch (j : Nat) =>
    if getCell b ⟨i, j⟩ == EMPTY then
      if pointAvailable b player i j then ch ++ [(none, Point.mk i j)] else ch
    else ch) ch) []

/-- The inner `while (p != dest)` loop of the flip (lines 328-333). -/
def flipBack : Nat → Int → Point → Point → Board × DiscCount → Point → Option (Board × DiscCount)
  | 0, _, _, _, _, _ => none
  | fuel + 1, cplayer, dest, dir, st, p =>
    if p != dest then
      flipBack fuel cplayer dest dir
        (xorCell st.1 p, (st.2.add (3 - cplayer) 1).add cplayer (-1)) (p - dir)
    else some st

/-- The outer `while` loop of the flip (lines 325-337): it scans the board `nb` of the parent with
the parent's `player` and flips on the child state `st` with the child's `cplayer`. -/
def flipWalk : Nat → Board → Int → Int → Point → Point → Board × DiscCount → Point →
    Option (Board × DiscCount)
  | 0, _, _, _, _, _, _, _ => none
  | fuel + 1, nb, player, cplayer, dest, dir, st, p =>
    if inBoard p && getCell nb p != EMPTY then
      if getCell nb p == 3 - player then flipBack (SIZE + 1) cplayer dest dir st (p - dir)
      else flipWalk fuel nb player cplayer dest dir st (p + dir)
    else some st

/-- The direction loop of the flip (lines 321-338). -/
def flipAll (nb : Board) (player cplayer : Int) (dest : Point) (st : Board × DiscCount) :
    Board × DiscCount :=
  (List.range 8).foldl (fun st d =>
    (flipWalk (SIZE + 1) nb player cplayer dest (dirOf d) st (dest + dirOf d)).getD st) st

/-- The placement of the disc (lines 339-343). -/
def placeDisc (cplayer : Int) (dest : Point) (st : Board × DiscCount) : Board × DiscCount :=
  (orCell (clearCell st.1 dest) dest (3 - cplayer), (st.2.add 0 (-1)).add (3 - cplayer) 1)

/-- The child node built for the slot with coordinate `dest` (lines 320-345); `self` is the
address of the expanded node. -/
def moveChild (node : Node) (self : Nat) (dest : Point) : Node :=
  let child := Node.copy node
  let st := placeDisc child.player dest
    (flipAll node.board node.player child.player dest (child.board, child.disc_count))
  { child with board := st.1, disc_count := st.2, player := 3 - child.player, parent := some self }

/-- The pass child (lines 313-315). -/
def passChild (node : Node) (self : Nat) : Node :=
  let child := Node.copy node
  { child with player := 3 - child.player, parent := some self }

/-- One iteration of the loop over the child slots (lines 319-347). -/
def buildChild (h : Heap) (n idx : Nat) : Heap :=
  match h[n]? with
  | none => h
  | some node =>
    match node.children[idx]? with
    | some (none, dest) =>
      (h ++ [moveChild node n dest]).set n
        { node with children := node.children.set idx (some h.length, dest) }
    | _ => h

/-- The function `expansion(Node* node)`, `n` being the address of `node`. -/
def expansion (h : Heap) (n : Nat) : Heap :=
  match h[n]? with
  | none => h
  | some node =>
    if !node.children.isEmpty then h
    else
      let scanned := expansionScan node.board node.player
      if scanned.isEmpty then
        (h ++ [passChild node n]).set n { node with children := [(some h.length, ⟨-1, -1⟩)] }
      else
        (List.range scanned.length).foldl (fun h idx => buildChild h n idx)
          (h.set n { node with children := scanned })

/-- The guarded call `if (!isTerminal(node)) expansion(node)` of `main` (lines 130-131). -/
def expandIfLive (h : Heap) (n : Nat) : Heap :=
  match h[n]? with
  | none => h
  | some node => if !isTerminalNode node then expansion h n else h

/-- The guarded expansion of `monte_carlo_tree_search` (lines 253-256):
`if (!isTerminal(curnode) && curnode->partial_games != 0) { expansion(curnode); curnode =
curnode->children[0].first; }`.  The result is the heap and the new `curnode`. -/
def expandIfVisited (h : Heap) (curnode : Nat) : Heap × Option Nat :=
  match h[curnode]? with
  | none => (h, some curnode)
  | some node =>
    if !isTerminalNode node && node.partial_games != 0 then
      let h1 := expansion h curnode
      match h1[curnode]? with
      | some node1 =>
        match node1.children[0]? with
        | some child => (h1, child.1)
        | none => (h1, none)
      | none => (h1, none)
    else (h, some curnode)

/-! ## Rollout -/

/-- The scratch variables of `rollout`: `player`, `curboard`, `disc_count`. -/
structure RolloutState where
  player : Int
  curboard : Board
  disc_count : DiscCount
deriving DecidableEq

/-- The `while` loop of the legality scan of `rollout` (lines 374-380). -/
def rolloutWalk : Nat → Board → Int → Point → Point → Option Bool
  | 0, _, _, _, _ => none
  | fuel + 1, b, player, p, dir =>
    if inBoard p && getCell b p != EMPTY then
      if getCell b p == 3 - player then some true
      else rolloutWalk fuel b player (p + dir) dir
    else some false

/-- Body of the direction loop of the legality scan of `rollout` (lines 368-381). -/
def rolloutDir (b : Board) (player : Int) (i j d : Nat) : Bool :=
  let dir := dirOf d
  let p := Point.mk i j + dir
  if inBoard p then
    if getCell b p != player then false
    else (rolloutWalk (SIZE + 1) b player (p + dir) dir).getD false
  else false

/-- The direction loop of `rollout` (lines 366-382), guarded by `!point_availible`. -/
def rolloutAvailable (b : Board) (player : Int) (i j : Nat) : Bool :=
  (List.range 8).foldl (fun avail d =>
    if !avail then (if rolloutDir b player i j d then true else avail) else avail) false

/-- The list `next_spots` of `rollout` (lines 362-388). -/
def rolloutSpots (b : Board) (player : Int) : List Point :=
  (List.range SIZE).foldl (fun spots (i : Nat) => (List.range SIZE).foldl (fun spots (j : Nat) =>
    if getCell b ⟨i, j⟩ == EMPTY then
      if rolloutAvailable b player i j then spots ++ [Point.mk i j] else spots
    else spots) spots) []

/-- The inner `while (p != next_spots[idx])` loop of `rollout` (lines 399-404). -/
def rolloutFlipBack : Nat → Int → Point → Point → Board × DiscCount → Point →
    Option (Board × DiscCount)
  | 0, _, _, _, _, _ => none
  | fuel + 1, player, dest, dir, st, p =>
    if p != dest then
      rolloutFlipBack fuel player dest dir
        (xorCell st.1 p, (st.2.add (3 - player) 1).add player (-1)) (p - dir)
    else some st

/-- The outer `while` loop of the flip of `rollout` (lines 396-408): it scans the scratch board it
is mutating. -/
def rolloutFlipWalk : Nat → Int → Point → Point → Board × DiscCount → Point →
    Option (Board × DiscCount)
  | 0, _, _, _, _, _ => none
  | fuel + 1, player, dest, dir, st, p =>
    if inBoard p && getCell st.1 p != EMPTY then
      if getCell st.1 p == 3 - player then rolloutFlipBack (SIZE + 1) player dest dir st (p - dir)
      else rolloutFlipWalk fuel player dest dir st (p + dir)
    else some st

/-- The move application of `rollout` (lines 392-414) at `dest = next_spots[idx]`. -/
def rolloutMove (player : Int) (dest : Point) (st : Board × DiscCount) : Board × DiscCount :=
  let st := (List.range 8).foldl (fun st d =>
    (rolloutFlipWalk (SIZE + 1) player dest (dirOf d) st (dest + dirOf d)).getD st) st
  (orCell (clearCell st.1 dest) dest (3 - player), (st.2.add 0 (-1)).add (3 - player) 1)

/-- The loop condition of `rollout` (line 361). -/
def rolloutCond (st : RolloutState) : Bool :=
  st.disc_count.get 0 != 0 && !isTerminal st.curboard

/-- One iteration of the loop of `rollout` (lines 362-416); `r` is the value `rand_r(&seed)`
returns when it is called. -/
def rolloutBody (r : Nat) (st : RolloutState) : RolloutState :=
  let next_spots := rolloutSpots st.curboard st.player
  if !next_spots.isEmpty then
    let idx := r % next_spots.length
    let moved := rolloutMove st.player (next_spots.getD idx ⟨0, 0⟩) (st.curboard, st.disc_count)
    { player := 3 - st.player, curboard := moved.1, disc_count := moved.2 }
  else { st with player := 3 - st.player }

/-- The scratch state at the entry of the loop of `rollout` (lines 353-360). -/
def rolloutInit (node : Node) : RolloutState :=
  { player := node.player, curboard := node.board, disc_count := node.disc_count }

/-- The scratch state after the loop has run over the random values `rs`, one per iteration,
stopping early when the loop condition fails. -/
def rolloutIter : List Nat → RolloutState → RolloutState
  | [], st => st
  | r :: rs, st => if rolloutCond st then rolloutIter rs (rolloutBody r st) else st

/-- The `while` loop of `rollout` (lines 361-417).  The generator `rand_r` maps the seed to the
value it returns and the seed it leaves; it is called only when `next_spots` is not empty.
`none` when the fuel is exhausted. -/
def rolloutLoop (rand_r : Nat → Nat × Nat) : Nat → Nat → RolloutState → Option (Nat × RolloutState)
  | 0, _, _ => none
  | fuel + 1, seed, st =>
    if rolloutCond st then
      let rs := if !(rolloutSpots st.curboard st.player).isEmpty then rand_r seed else (0, seed)
      rolloutLoop rand_r fuel rs.2 (rolloutBody rs.1 st)
    else some (seed, st)

/-- The function `rollout(unsigned int& seed, Node* node, int& win)`: the seed and the value of
`win` at the return; `none` when the loop does not exit within the fuel. -/
def rollout (rand_r : Nat → Nat × Nat) (fuel seed : Nat) (node : Node) (win : Int) :
    Option (Nat × Int) :=
  match rolloutLoop rand_r fuel seed (rolloutInit node) with
  | none => none
  | some (seed1, st) =>
    let val := st.disc_count.get node.player - st.disc_count.get (3 - node.player)
    some (seed1, if val > 0 then win + 1 else if val < 0 then win - 1 else win)

/-! ## Backpropagation -/

/-- The value an `int` holds after an arithmetic result `x`: the low 32 bits of `x` read as a
two's-complement number (the compiled program wraps on signed overflow). -/
def wrapInt (x : Int) : Int := ofBits 32 (toBits 32 x)

/-- The two updates `curnode->partial_wins += win; curnode->partial_games++` (lines 429-430), on
32-bit `int` fields. -/
def Node.addResult (node : Node) (win : Int) : Node :=
  { node with partial_wins := wrapInt (node.partial_wins + win),
              partial_games := wrapInt (node.partial_games + 1) }

/-- The function `backPropagation(Node* node, int win)`; `none` when the fuel is exhausted or a
pointer dangles.  The statement `win = -win` is a negation of a 32-bit `int`. -/
def backPropagation : Nat → Heap → Option Nat → Int → Option Heap
  | 0, _, _, _ => none
  | fuel + 1, h, curnode, win =>
    match curnode with
    | none => some h
    | some c =>
      match h[c]? with
      | none => none
      | some node =>
        backPropagation fuel (h.set c (node.addResult win)) node.parent (wrapInt (-win))

/-! ## Selection: `traversal` and the decision of `main` -/

/-- The operations on `double` that the program uses.  `D` stands for the values of type
`double` that arise (finite, no NaN), compared with the order of `D`; the library functions
`sqrt` and `log` and the rounded arithmetic are the fields. -/
structure DoubleOps (D : Type) where
  ofInt : Int → D
  add : D → D → D
  mul : D → D → D
  div : D → D → D
  sqrt : D → D
  log : D → D
  DIV_DELTA : D

/-- The comparison `tmp > max` of the selection loops; `none` is the initial value
`-std::numeric_limits<double>::infinity()`, below every value of `D`. -/
def gtMax {D : Type} [LinearOrder D] (tmp : D) (max : Option D) : Bool :=
  match max with
  | none => true
  | some m => decide (m < tmp)

/-- The expression `(double)partial_wins / (partial_games + DIV_DELTA)` (lines 161 and 270). -/
def winRate {D : Type} (ops : DoubleOps D) (partial_wins partial_games : Int) : D :=
  ops.div (ops.ofInt partial_wins) (ops.add (ops.ofInt partial_games) ops.DIV_DELTA)

/-- The expression of line 270 for a child with statistics `partial_wins`, `partial_games` whose
`total_games` pointer reads `total`:
`wins / (games + DIV_DELTA) + sqrt(2 * log(total) / (games + DIV_DELTA))`. -/
def uctValue {D : Type} (ops : DoubleOps D) (partial_wins partial_games total : Int) : D :=
  ops.add (winRate ops partial_wins partial_games)
    (ops.sqrt (ops.div (ops.mul (ops.ofInt 2) (ops.log (ops.ofInt total)))
      (ops.add (ops.ofInt partial_games) ops.DIV_DELTA)))

/-- The value `tmp` of line 270 for the slot `child`: it dereferences `child.first` and
`child.first->total_games`; `none` when a pointer is null or dangling. -/
def traversalEval {D : Type} (ops : DoubleOps D) (h : Heap) (child : Option Nat × Point) :
    Option D :=
  match child.1 with
  | none => none
  | some c =>
    match h[c]? with
    | none => none
    | some cn =>
      match h[cn.total_games]? with
      | none => none
      | some counter => some (uctValue ops cn.partial_wins cn.partial_games counter.partial_games)

/-- The `for` loop of `traversal` (lines 269-275) over the remaining children, from the current
`(max_UCT, tmpnode)`. -/
def traversalPick {D : Type} [LinearOrder D] (ops : DoubleOps D) (h : Heap) :
    List (Option Nat × Point) → Option D × Option Nat → Option (Option D × Option Nat)
  | [], acc => some acc
  | child :: rest, acc =>
    match traversalEval ops h child with
    | none => none
    | some tmp =>
      if gtMax tmp acc.1 then traversalPick ops h rest (some tmp, child.1)
      else traversalPick ops h rest acc

/-- The function `traversal(Node* root, Node*& target)`: the final `target`; `none` when the
fuel is exhausted or a pointer is null or dangling. -/
def traversal {D : Type} [LinearOrder D] (ops : DoubleOps D) : Nat → Heap → Nat → Option Nat
  | 0, _, _ => none
  | fuel + 1, h, target =>
    match h[target]? with
    | none => none
    | some node =>
      match node.children with
      | [] => some target
      | first :: rest =>
        match traversalPick ops h (first :: rest) (none, first.1) with
        | some (_, some tmpnode) => traversal ops fuel h tmpnode
        | _ => none

/-- The value `val` of line 161 for the slot `child`; `none` when the pointer is null or
dangling. -/
def decisionEval {D : Type} (ops : DoubleOps D) (h : Heap) (child : Option Nat × Point) :
    Option D :=
  match child.1 with
  | none => none
  | some c =>
    match h[c]? with
    | none => none
    | some cn => some (winRate ops cn.partial_wins cn.partial_games)

/-- The `for` loop of the decision of `main` (lines 160-166), from the current `(max_val, p)`. -/
def decisionPick {D : Type} [LinearOrder D] (ops : DoubleOps D) (h : Heap) :
    List (Option Nat × Point) → Option D × Point → Option (Option D × Point)
  | [], acc => some acc
  | child :: rest, acc =>
    match decisionEval ops h child with
    | none => none
    | some val =>
      if gtMax val acc.1 then decisionPick ops h rest (some val, child.2)
      else decisionPick ops h rest acc

/-- The decision of `main` (lines 158-167): the point `p` written to the output; `none` when
`root[0]` has no child (`children[0]` does not exist) or a pointer is null or dangling. -/
def decision {D : Type} [LinearOrder D] (ops : DoubleOps D) (h : Heap) (root0 : Nat) :
    Option Point :=
  match h[root0]? with
  | none => none
  | some root =>
    match root.children with
    | [] => none
    | first :: rest => (decisionPick ops h (first :: rest) (none, first.2)).map Prod.snd

/-! ## The merge loop of `main` -/

/-- The two statements of the body of the merge loop (lines 147-148) for the thread root `rt`
and the index `i`: `partial_wins` is added first, then `partial_games`, each statement reading
the heap as the previous one left it.  `none` when a pointer is null or dangling or an index is
past the end of a children list. -/
def mergeChild (h : Heap) (r0 rt i : Nat) : Option Heap :=
  match h[r0]?, h[rt]? with
  | some root0, some roott =>
    match root0.children[i]?, roott.children[i]? with
    | some slot0, some slott =>
      match slot0.1, slott.1 with
      | some c0, some ct =>
        match h[c0]?, h[ct]? with
        | some n0, some nt =>
          let h1 := h.set c0 { n0 with partial_wins := n0.partial_wins + nt.partial_wins }
          match h1[c0]?, h1[ct]? with
          | some n1, some nt1 =>
            some (h1.set c0 { n1 with partial_games := n1.partial_games + nt1.partial_games })
          | _, _ => none
        | _, _ => none
      | _, _ => none
    | _, _ => none
  | _, _ => none

/-- The inner loop of the merge (lines 146-149) from index `i`; the bound
`root[t]->children.size()` is read at every iteration.  `none` when the fuel is exhausted. -/
def mergeThread (r0 rt : Nat) : Nat → Nat → Heap → Option Heap
  | 0, _, _ => none
  | fuel + 1, i, h =>
    match h[rt]? with
    | none => none
    | some roott =>
      if i < roott.children.length then
        match mergeChild h r0 rt i with
        | none => none
        | some h1 => mergeThread r0 rt fuel (i + 1) h1
      else some h

/-- The outer loop of the merge (lines 145-150) over the roots `root[1], root[2], ...`. -/
def mergeThreads (fuel r0 : Nat) : List Nat → Heap → Option Heap
  | [], h => some h
  | rt :: rest, h =>
    match mergeThread r0 rt fuel 0 h with
    | none => none
    | some h1 => mergeThreads fuel r0 rest h1

/-- The merge loop of `main` on the array `root` of per-thread roots. -/
def mergeLoop (fuel : Nat) (h : Heap) (root : List Nat) : Option Heap :=
  match root with
  | [] => some h
  | r0 :: others => mergeThreads fuel r0 others h

/-! ## Notions used to state the properties -/

/-- The point lies on the 8x8 board. -/
def onBoard (p : Point) : Prop := 0 ≤ p.x ∧ p.x < 8 ∧ 0 ≤ p.y ∧ p.y < 8

instance (p : Point) : Decidable (onBoard p) := by unfold onBoard; infer_instance

/-- The point is on the board or one step outside it. -/
def nearBoard (p : Point) : Prop := -1 ≤ p.x ∧ p.x ≤ 8 ∧ -1 ≤ p.y ∧ p.y ≤ 8

/-- Index of the 2-bit field of the cell `p` inside its word. -/
def slotOf (p : Point) : Nat := (p.x.toNat % 4) * 8 + p.y.toNat

/-- The 2-bit field number `k` of a bit pattern. -/
def digit (n k : Nat) : Nat := (n >>> (2 * k)) &&& 3

/-- The 2-bit field number `k` of the word `w`, read as the code reads a cell. -/
def cellOf (w : Int) (k : Nat) : Int := bitAnd 64 (sar w ((2 * k : Nat) : Int)) 3


/-- The point reached from `p` after `t` steps in direction `dir`. -/
def ray (p dir : Point) (t : Nat) : Point := ⟨p.x + t * dir.x, p.y + t * dir.y⟩

/-- The vector is one step in one of the 8 compass directions. -/
def isStep (dir : Point) : Prop :=
  -1 ≤ dir.x ∧ dir.x ≤ 1 ∧ -1 ≤ dir.y ∧ dir.y ≤ 1 ∧ (dir.x ≠ 0 ∨ dir.y ≠ 0)

/-- The common shape of the board walks: step from `p` in direction `dir` while the cell is on the
board and not empty, and stop at the first cell whose value satisfies `stop`.  The result is
`some (some m)` when the walk stops after `m` steps, `some none` when it leaves the run of discs
first, and `none` when the fuel is exhausted. -/
def firstStop (stop : Int → Bool) : Nat → Board → Point → Point → Option (Option Nat)
  | 0, _, _, _ => none
  | fuel + 1, b, p, dir =>
    if inBoard p && getCell b p != EMPTY then
      if stop (getCell b p) then some (some 0)
      else (firstStop stop fuel b (p + dir) dir).map (Option.map (· + 1))
    else some none

/-- The walk from `p` in direction `dir` stops exactly at step `m`: the cells before are on the
board, not empty and do not satisfy `stop`; the cell at step `m` is on the board, not empty and
satisfies `stop`. -/
def StopAt (stop : Int → Bool) (b : Board) (p dir : Point) (m : Nat) : Prop :=
  (∀ t < m, onBoard (ray p dir t) ∧ getCell b (ray p dir t) ≠ EMPTY ∧
    stop (getCell b (ray p dir t)) = false) ∧
  onBoard (ray p dir m) ∧ getCell b (ray p dir m) ≠ EMPTY ∧ stop (getCell b (ray p dir m)) = true

/-- The 64 cells of the board in row-major order. -/
def allCells : List Point :=
  ((List.range SIZE).map fun (i : Nat) => (List.range SIZE).map fun (j : Nat) => Point.mk i j).flatten

/-- Every cell of the board decodes to a value in `{0, 1, 2}`. -/
def validBoard (b : Board) : Prop :=
  ∀ p ∈ allCells, getCell b p = 0 ∨ getCell b p = 1 ∨ getCell b p = 2

instance (b : Board) : Decidable (validBoard b) := by unfold validBoard; infer_instance

/-- Direction `dir` qualifies at cell `p` for colour `c`: the adjacent cell holds the other colour
`3 - c` and, continuing in that direction, a cell of colour `c` is reached before an empty cell or
the edge. -/
def Qualifies (b : Board) (c : Int) (p dir : Point) : Prop :=
  onBoard (ray p dir 1) ∧ getCell b (ray p dir 1) = 3 - c ∧
  ∃ m < SIZE, 2 ≤ m ∧ onBoard (ray p dir m) ∧ getCell b (ray p dir m) = c ∧
    ∀ t < m, 1 ≤ t → onBoard (ray p dir t) ∧ getCell b (ray p dir t) ≠ EMPTY ∧
      getCell b (ray p dir t) ≠ c

instance (b : Board) (c : Int) (p dir : Point) : Decidable (Qualifies b c p dir) := by
  unfold Qualifies; infer_instance

/-- The cell `p` is a legal destination for colour `c`: it is empty and at least one of the 8
directions qualifies. -/
def LegalDest (b : Board) (c : Int) (p : Point) : Prop :=
  getCell b p = EMPTY ∧ ∃ d < 8, Qualifies b c p (dirOf d)

instance (b : Board) (c : Int) (p : Point) : Decidable (LegalDest b c p) := by
  unfold LegalDest; infer_instance

/-- The legal destinations of colour `c` in row-major order. -/
def legalDestinations (b : Board) (c : Int) : List Point :=
  allCells.filter fun p => decide (LegalDest b c p)

/-- The standard opening position: `(3,3)` and `(4,4)` hold colour 2, `(3,4)` and `(4,3)` hold
colour 1. -/
def openingGrid : Grid := fun i j =>
  if (i = 3 ∧ j = 3) ∨ (i = 4 ∧ j = 4) then 2
  else if (i = 3 ∧ j = 4) ∨ (i = 4 ∧ j = 3) then 1
  else 0

/-- The board of the standard opening, as the constructor packs it. -/
def openingBoard : Board := (encodeGrid openingGrid).1

/-- A board filled with discs of colour 2. -/
def fullBoard : Board := (encodeGrid fun _ _ => 2).1

/-- Number of cells of the board that decode to `v`. -/
def cellCount (b : Board) (v : Int) : Nat := allCells.countP fun p => getCell b p == v

/-- The grid holds a value of `{0, 1, 2}` in each of its 64 entries. -/
def validGrid (g : Grid) : Prop := ∀ i < SIZE, ∀ j < SIZE, g i j = 0 ∨ g i j = 1 ∨ g i j = 2

instance (g : Grid) : Decidable (validGrid g) := by unfold validGrid; infer_instance

/-- Well-formedness of a board with its counters: every cell decodes to a value of `{0, 1, 2}` and
`disc_count[v]` is the number of cells that decode to `v`. -/
def wellFormed (b : Board) (dc : DiscCount) : Prop :=
  validBoard b ∧ dc.c0 = cellCount b 0 ∧ dc.c1 = cellCount b 1 ∧ dc.c2 = cellCount b 2

instance (b : Board) (dc : DiscCount) : Decidable (wellFormed b dc) := by
  unfold wellFormed; infer_instance

/-- The state after the cells at steps `k, k - 1, ..., 1` from `dest` in direction `dir` have been
flipped, as the inner flip loop does when it walks back from step `k`. -/
def flipRun (cp : Int) (dest dir : Point) : Nat → Board × DiscCount → Board × DiscCount
  | 0, st => st
  | k + 1, st =>
    flipRun cp dest dir k
      (xorCell st.1 (ray dest dir (k + 1)), (st.2.add (3 - cp) 1).add cp (-1))

/-- The cell `q` lies strictly between `dest` and the first cell of colour `c` reached from
`dest` in direction `dir` through a contiguous run of discs of the other colour `3 - c`. -/
def CapturedDir (b : Board) (c : Int) (dest dir q : Point) : Prop :=
  ∃ m < SIZE, ∃ t < m, 1 ≤ t ∧ q = ray dest dir t ∧
    onBoard (ray dest dir m) ∧ getCell b (ray dest dir m) = c ∧
    ∀ s < m, 1 ≤ s → onBoard (ray dest dir s) ∧ getCell b (ray dest dir s) = 3 - c

instance (b : Board) (c : Int) (dest dir q : Point) : Decidable (CapturedDir b c dest dir q) := by
  unfold CapturedDir; infer_instance

/-- The cell `q` is captured by a disc of colour `c` placed at `dest`: it is captured in one of
the 8 directions. -/
def Captured (b : Board) (c : Int) (dest q : Point) : Prop :=
  ∃ d < 8, CapturedDir b c dest (dirOf d) q

instance (b : Board) (c : Int) (dest q : Point) : Decidable (Captured b c dest q) := by
  unfold Captured; infer_instance

/-- The row-major index `i * 8 + j` of a cell. -/
def cellIndex (p : Point) : Int := p.x * 8 + p.y

/-- A position where colour 2 has no legal destination while colour 1 has one: `(0,0)` holds
colour 1, `(0,1)` holds colour 2, every other cell is empty. -/
def passGrid : Grid := fun i j => if i = 0 ∧ j = 0 then 1 else if i = 0 ∧ j = 1 then 2 else 0

/-- The node reached from `n` by following `k` parent links, when all of them exist. -/
def climb : Nat → Heap → Nat → Option Nat
  | 0, h, n => if h[n]?.isSome then some n else none
  | k + 1, h, n =>
    match h[n]? with
    | some node =>
      match node.parent with
      | some p => climb k h p
      | none => none
    | none => none

/-- The node `n` is at depth `d`: following `d` parent links from `n` reaches a node without
parent, the root. -/
def atDepth (h : Heap) (n d : Nat) : Prop :=
  ∃ r node, climb d h n = some r ∧ h[r]? = some node ∧ node.parent = none

/-- A full board of colour 2 under a node whose player is 1. -/
def fullNode : Node := Node.ofGrid 0 (fun _ _ => 2) 1

/-- The node of `passGrid` whose mover, colour 2, has no legal destination. -/
def passNode : Node := Node.ofGrid 0 passGrid 1

/-- The heap after the root of the standard opening (player 2) has been expanded: the root at
address 0 and its four children at addresses 1 to 4. -/
def openingHeap : Heap := expansion [Node.ofGrid 0 openingGrid 2] 0

/-- Every child slot of every node of the heap holds the address of an allocated node. -/
def slotsAllocated (h : Heap) : Prop :=
  ∀ (a : Nat) (node : Node), h[a]? = some node →
    ∀ slot ∈ node.children, ∃ c child, slot.1 = some c ∧ h[c]? = some child

/-- The invariant of the loop of `rollout`: the scratch board and counters are well formed and
the scratch player is one of the two colours. -/
def rolloutInv (st : RolloutState) : Prop :=
  wellFormed st.curboard st.disc_count ∧ (st.player = 1 ∨ st.player = 2)

/-- Bound on the number of remaining iterations of the loop of `rollout`. -/
def rolloutMeasure (st : RolloutState) : Nat :=
  2 * (st.disc_count.get 0).toNat + (if (rolloutSpots st.curboard st.player).isEmpty then 1 else 0)

/-- A selection loop in general: `f` evaluates a slot, `g` is what is remembered for it. -/
def pickLoop {D σ α : Type} [LinearOrder D] (f : σ → Option D) (g : σ → α) :
    List σ → Option D × α → Option (Option D × α)
  | [], acc => some acc
  | s :: rest, acc =>
    match f s with
    | none => none
    | some v => if gtMax v acc.1 then pickLoop f g rest (some v, g s) else pickLoop f g rest acc

/-- The subtree below `n` has height at most `k`: the nodes are allocated, their `total_games`
pointer is valid, and every child slot holds the address of such a subtree of height at most
`k - 1`. -/
def treeBelow (h : Heap) : Nat → Nat → Bool
  | 0, n =>
    match h[n]? with
    | none => false
    | some node => node.children.isEmpty && (h[node.total_games]?).isSome
  | k + 1, n =>
    match h[n]? with
    | none => false
    | some node =>
      (h[node.total_games]?).isSome && node.children.all fun slot =>
        match slot.1 with
        | none => false
        | some c => treeBelow h k c

/-- The node `t` is `n` or is reached from `n` by following child edges only. -/
inductive Descends (h : Heap) : Nat → Nat → Prop
  | here (n : Nat) : Descends h n n
  | child (n c t : Nat) (node : Node) (slot : Option Nat × Point) :
      h[n]? = some node → slot ∈ node.children → slot.1 = some c → Descends h c t →
      Descends h n t

/-- Every node of the heap reads the playout counter of the node at address `root`. -/
def sharedCounter (h : Heap) (root : Nat) : Prop :=
  ∀ (a : Nat) (node : Node), h[a]? = some node → node.total_games = root

instance (h : Heap) (root : Nat) : Decidable (sharedCounter h root) :=
  decidable_of_iff (∀ node ∈ h, node.total_games = root) (by
    unfold sharedCounter
    constructor
    · intro hall a node ha
      exact hall node (List.getElem?_mem ha)
    · intro hall node hmem
      obtain ⟨i, hi, hget⟩ := List.getElem_of_mem hmem
      exact hall i node (by rw [List.getElem?_eq_getElem hi, hget]))

/-- The slot holds the address of an allocated node. -/
def slotAllocated (h : Heap) (slot : Option Nat × Point) : Bool :=
  match slot.1 with
  | none => false
  | some c => (h[c]?).isSome

/-- Search of the integer square root of `n` upwards from `k`. -/
def isqrtFrom (n : Nat) : Nat → Nat → Nat
  | 0, k => k
  | fuel + 1, k => if (k + 1) * (k + 1) ≤ n then isqrtFrom n fuel (k + 1) else k

/-- Integer square root, by search. -/
def isqrt (n : Nat) : Nat := isqrtFrom n n 0

/-- Sample `double` operations, to evaluate the selection loops: fixed-point numbers counted in
hundredths, with `DIV_DELTA` one hundredth and the first-order logarithm `x - 1`. -/
def sampleOps : DoubleOps Int :=
  { ofInt := fun x => 100 * x
    add := fun a b => a + b
    mul := fun a b => a * b / 100
    div := fun a b => a * 100 / b
    sqrt := fun a => isqrt (Int.toNat (a * 100))
    log := fun a => a - 100
    DIV_DELTA := 1 }

/-- A heap for the selection loops: the opening heap after one result `+1` has been propagated
from the child at address 2. -/
def playedHeap : Heap := (backPropagation 3 openingHeap (some 2) 1).getD openingHeap

/-- A heap of depth 2 for the selection loops: from the opening heap, results are propagated from
the children at addresses 1 and 2, the child at address 1 is expanded (its children are at
addresses 5, 6 and 7) and a result is propagated from the grandchild at address 5.  The root has
3 playouts, the node at address 1 has 2. -/
def deepHeap : Heap :=
  let h1 := (backPropagation 3 openingHeap (some 1) 1).getD openingHeap
  let h2 := (backPropagation 3 h1 (some 2) (-1)).getD h1
  let h3 := expansion h2 1
  (backPropagation 4 h3 (some 5) 1).getD h3

/-- The node held by child slot `k` of the node at address `r`. -/
def childAt (h : Heap) (r k : Nat) : Option Node :=
  match h[r]? with
  | none => none
  | some root =>
    match root.children[k]? with
    | none => none
    | some slot =>
      match slot.1 with
      | none => none
      | some c => h[c]?

/-- The thread root `rt` can be merged into `root0`: its children list has the length of that
of `root0`, its slots hold allocated nodes, and these are not children of `root0` (the trees of
two threads share no node). -/
def threadReady (h : Heap) (root0 : Node) (rt : Nat) : Bool :=
  match h[rt]? with
  | none => false
  | some roott =>
    decide (roott.children.length = root0.children.length) &&
    roott.children.all fun slot =>
      slotAllocated h slot && decide (slot.1 ∉ root0.children.map Prod.fst)

/-- Sum over the roots `roots` of the field `stat` of child `k` (zero for a missing child). -/
def sumStat (stat : Node → Int) (h : Heap) (roots : List Nat) (k : Nat) : Int :=
  (roots.map fun r => ((childAt h r k).map stat).getD 0).sum

/-- The node `n0` after the statistics of `nt` have been added to it. -/
def Node.addStats (n0 nt : Node) : Node :=
  { n0 with partial_wins := n0.partial_wins + nt.partial_wins,
            partial_games := n0.partial_games + nt.partial_games }

/-- The heap `hc` is the heap `e` after the children `0 .. i - 1` of the thread root have been
merged: `A` and `B` are the child pointers of `root[0]` and of the thread root. -/
def mergeInv (e : Heap) (A B : List (Option Nat)) (i : Nat) (hc : Heap) : Prop :=
  hc.length = e.length ∧
  (∀ (a : Nat) (node : Node), e[a]? = some node →
    ∃ node1 : Node, hc[a]? = some node1 ∧ node1.children = node.children) ∧
  (∀ a : Nat, (∀ k < i, A[k]? ≠ some (some a)) → hc[a]? = e[a]?) ∧
  (∀ (k a b : Nat) (n0 nt : Node), k < i → A[k]? = some (some a) → B[k]? = some (some b) →
    e[a]? = some n0 → e[b]? = some nt → hc[a]? = some (n0.addStats nt))

/-- Two per-thread trees of one move each: the child of the first root has
`(wins, playouts) = (3, 5)`, the child of the second has `(-1, 4)`. -/
def mergeSample : Heap :=
  [ { Node.ofGrid 0 openingGrid 2 with children := [(some 2, ⟨2, 3⟩)] },
    { Node.ofGrid 1 openingGrid 2 with children := [(some 3, ⟨2, 3⟩)] },
    { moveChild (Node.ofGrid 0 openingGrid 2) 0 ⟨2, 3⟩ with
      partial_wins := 3, partial_games := 5 },
    { moveChild (Node.ofGrid 1 openingGrid 2) 1 ⟨2, 3⟩ with
      partial_wins := -1, partial_games := 4 } ]


/-! ## Machine integers: bit fields -/

theorem toBits_lt (w : Nat) (x : Int) : toBits w x < 2 ^ w := by
  unfold toBits
  have h : (0 : Int) < ((2 ^ w : Nat) : Int) := by positivity
  have h1 := Int.emod_lt_of_pos x h
  have h2 := Int.emod_nonneg x (ne_of_gt h)
  omega

theorem toBits_ofBits (w : Nat) (n : Nat) (hn : n < 2 ^ w) : toBits w (ofBits w n) = n := by
  unfold toBits ofBits
  rw [Nat.mod_eq_of_lt hn]
  split
  · have : ((n : Int) % ((2 ^ w : Nat) : Int)) = n := Int.emod_eq_of_lt (by omega) (by exact_mod_cast hn)
    rw [this]; simp
  · have : (((n : Int) - ((2 ^ w : Nat) : Int)) % ((2 ^ w : Nat) : Int)) = n := by
      rw [Int.sub_emod, Int.emod_self, sub_zero, Int.emod_emod]
      exact Int.emod_eq_of_lt (by omega) (by exact_mod_cast hn)
    rw [this]; simp

theorem toBits_of_nonneg (w : Nat) (x : Int) (h0 : 0 ≤ x) (h1 : x < 2 ^ w) : toBits w x = x.toNat := by
  unfold toBits
  rw [Int.emod_eq_of_lt h0 (by exact_mod_cast h1)]

theorem digit_lt (n k : Nat) : digit n k < 4 := by
  unfold digit
  exact Nat.lt_of_le_of_lt Nat.and_le_right (by norm_num)

theorem testBit_three (i : Nat) : Nat.testBit 3 i = decide (i < 2) := by
  have := Nat.testBit_two_pow_sub_one 2 i
  simpa using this

theorem digit_xor (n k k' : Nat) :
    digit (n ^^^ (3 <<< (2 * k))) k' = if k' = k then digit n k ^^^ 3 else digit n k' := by
  unfold digit
  apply Nat.eq_of_testBit_eq
  intro i
  split
  · subst_vars
    simp [Nat.testBit_and, Nat.testBit_shiftRight, Nat.testBit_xor, Nat.testBit_shiftLeft, testBit_three]
    by_cases hi : i < 2 <;> simp [hi]
  · rename_i hk
    simp [Nat.testBit_and, Nat.testBit_shiftRight, Nat.testBit_xor, Nat.testBit_shiftLeft, testBit_three]
    by_cases hi : i < 2
    · have hm : (decide (2 * k ≤ 2 * k' + i) && decide (2 * k' + i - 2 * k < 2)) = false := by
        simp; omega
      simp [hi, hm]
    · simp [hi]

theorem digit_or (n v k k' : Nat) (hv : v < 4) :
    digit (n ||| (v <<< (2 * k))) k' = if k' = k then digit n k ||| v else digit n k' := by
  unfold digit
  apply Nat.eq_of_testBit_eq
  intro i
  have hvi : ∀ j, 2 ≤ j → v.testBit j = false := fun j hj =>
    Nat.testBit_lt_two_pow (Nat.lt_of_lt_of_le hv (by
      calc 4 = 2 ^ 2 := by norm_num
        _ ≤ 2 ^ j := Nat.pow_le_pow_right (by norm_num) hj))
  split
  · subst_vars
    simp [Nat.testBit_and, Nat.testBit_shiftRight, Nat.testBit_or, Nat.testBit_shiftLeft, testBit_three]
    by_cases hi : i < 2
    · simp [hi]
    · simp [hi, hvi i (by omega)]
  · rename_i hk
    simp [Nat.testBit_and, Nat.testBit_shiftRight, Nat.testBit_or, Nat.testBit_shiftLeft, testBit_three]
    by_cases hi : i < 2
    · have hm : (decide (2 * k ≤ 2 * k' + i) && v.testBit (2 * k' + i - 2 * k)) = false := by
        by_cases hle : 2 * k ≤ 2 * k' + i
        · simp [hle]; exact hvi _ (by omega)
        · simp [hle]
      simp [hi, hm]
    · simp [hi]

theorem testBit_mask (k j : Nat) (hk : k < 32) :
    (2 ^ 64 - 1 - 3 <<< (2 * k)).testBit j = (decide (j < 64) && !(decide (2 * k ≤ j) && decide (j - 2 * k < 2))) := by
  have h3 : 3 <<< (2 * k) < 2 ^ 64 := by
    rw [Nat.shiftLeft_eq]
    calc 3 * 2 ^ (2 * k) < 4 * 2 ^ (2 * k) := by
          have : 0 < 2 ^ (2 * k) := by positivity
          omega
      _ = 2 ^ (2 * k + 2) := by ring
      _ ≤ 2 ^ 64 := Nat.pow_le_pow_right (by norm_num) (by omega)
  have he : 2 ^ 64 - 1 - 3 <<< (2 * k) = 2 ^ 64 - (3 <<< (2 * k) + 1) := by omega
  rw [he, Nat.testBit_two_pow_sub_succ h3]
  simp [Nat.testBit_shiftLeft, testBit_three]

theorem digit_clear (n k k' : Nat) (hk : k < 32) (hk' : k' < 32) :
    digit (n &&& (2 ^ 64 - 1 - 3 <<< (2 * k))) k' = if k' = k then 0 else digit n k' := by
  unfold digit
  apply Nat.eq_of_testBit_eq
  intro i
  rw [Nat.testBit_and, Nat.testBit_shiftRight, Nat.testBit_and, testBit_mask k _ hk, testBit_three]
  split
  · subst_vars
    by_cases hi : i < 2
    · simp [hi]
    · simp [hi]
  · rename_i hne
    by_cases hi : i < 2
    · have hm : (decide (2 * k ≤ 2 * k' + i) && decide (2 * k' + i - 2 * k < 2)) = false := by
        simp; omega
      have h64 : 2 * k' + i < 64 := by omega
      simp [hi, hm, h64, Nat.testBit_and, Nat.testBit_shiftRight, testBit_three]
    · simp [hi, Nat.testBit_and, testBit_three]

theorem toBits_three : toBits 64 3 = 3 := by decide

theorem ofBits_small (n : Nat) (h : n < 4) : ofBits 64 n = n := by
  unfold ofBits
  have h1 : n % 2 ^ 64 = n := Nat.mod_eq_of_lt (by omega)
  rw [h1, if_pos (by omega)]

theorem toBits_sar (w : Int) (k : Nat) (hk : k < 32) :
    toBits 64 (w / ((2 ^ (2 * k) : Nat) : Int)) % 4 = (toBits 64 w / 2 ^ (2 * k)) % 4 := by
  unfold toBits
  interval_cases k <;> simp <;> omega


theorem cellOf_eq_digit (w : Int) (k : Nat) (hk : k < 32) :
    cellOf w k = ((digit (toBits 64 w) k : Nat) : Int) := by
  unfold cellOf bitAnd sar digit
  rw [toBits_three, Int.toNat_ofNat]
  have e1 : ∀ x : Nat, x &&& 3 = x % 4 := fun x => Nat.and_pow_two_sub_one_eq_mod x 2
  rw [e1, e1, Nat.shiftRight_eq_div_pow, toBits_sar w k hk]
  exact ofBits_small _ (Nat.mod_lt _ (by norm_num))

theorem cellOf_nonneg (w : Int) (k : Nat) (hk : k < 32) : 0 ≤ cellOf w k := by
  rw [cellOf_eq_digit w k hk]; exact Int.ofNat_nonneg _

theorem cellOf_le (w : Int) (k : Nat) (hk : k < 32) : cellOf w k ≤ 3 := by
  rw [cellOf_eq_digit w k hk]
  have := digit_lt (toBits 64 w) k
  omega

theorem toBits_bitXor (a b : Int) : toBits 64 (bitXor 64 a b) = toBits 64 a ^^^ toBits 64 b :=
  toBits_ofBits 64 _ (Nat.xor_lt_two_pow (toBits_lt 64 a) (toBits_lt 64 b))

theorem toBits_bitAnd (a b : Int) : toBits 64 (bitAnd 64 a b) = toBits 64 a &&& toBits 64 b :=
  toBits_ofBits 64 _ (Nat.and_lt_two_pow _ (toBits_lt 64 b))

theorem toBits_bitOr (a b : Int) : toBits 64 (bitOr 64 a b) = toBits 64 a ||| toBits 64 b :=
  toBits_ofBits 64 _ (Nat.or_lt_two_pow (toBits_lt 64 a) (toBits_lt 64 b))

theorem toBits_bitNot (a : Int) : toBits 64 (bitNot 64 a) = 2 ^ 64 - 1 - toBits 64 a :=
  toBits_ofBits 64 _ (by have := toBits_lt 64 a; omega)

theorem shift_lt (v k : Nat) (hv : v < 4) (hk : k < 32) : v <<< (2 * k) < 2 ^ 64 := by
  rw [Nat.shiftLeft_eq]
  calc v * 2 ^ (2 * k) < 4 * 2 ^ (2 * k) := by
        have : 0 < 2 ^ (2 * k) := by positivity
        exact Nat.mul_lt_mul_of_pos_right hv this
    _ = 2 ^ (2 * k + 2) := by ring
    _ ≤ 2 ^ 64 := Nat.pow_le_pow_right (by norm_num) (by omega)

theorem toBits_shl (v k : Nat) (hv : v < 4) (hk : k < 32) :
    toBits 64 (shl 64 (v : Int) ((2 * k : Nat) : Int)) = v <<< (2 * k) := by
  unfold shl
  rw [Int.toNat_ofNat, toBits_of_nonneg 64 v (by omega) (by omega), Int.toNat_ofNat]
  exact toBits_ofBits 64 _ (shift_lt v k hv hk)

theorem cellOf_xor (w : Int) (k k' : Nat) (hk : k < 32) (hk' : k' < 32) :
    cellOf (bitXor 64 w (shl 64 3 ((2 * k : Nat) : Int))) k' =
      if k' = k then 3 - cellOf w k else cellOf w k' := by
  rw [cellOf_eq_digit _ _ hk', cellOf_eq_digit _ _ hk', cellOf_eq_digit _ _ hk, toBits_bitXor]
  have := toBits_shl 3 k (by norm_num) hk
  simp only [Nat.cast_ofNat] at this
  rw [this, digit_xor]
  split
  · have hd := digit_lt (toBits 64 w) k
    have : ∀ d : Nat, d < 4 → d ^^^ 3 = 3 - d := by decide
    rw [this _ hd]
    omega
  · rfl

theorem cellOf_clear (w : Int) (k k' : Nat) (hk : k < 32) (hk' : k' < 32) :
    cellOf (bitAnd 64 w (bitNot 64 (shl 64 3 ((2 * k : Nat) : Int)))) k' =
      if k' = k then 0 else cellOf w k' := by
  rw [cellOf_eq_digit _ _ hk', cellOf_eq_digit _ _ hk', toBits_bitAnd, toBits_bitNot]
  have := toBits_shl 3 k (by norm_num) hk
  simp only [Nat.cast_ofNat] at this
  rw [this, digit_clear _ _ _ hk hk']
  split <;> rfl

theorem cellOf_or (w v : Int) (k k' : Nat) (hk : k < 32) (hk' : k' < 32) (hv0 : 0 ≤ v)
    (hv3 : v ≤ 3) (hz : cellOf w k = 0) :
    cellOf (bitOr 64 w (shl 64 v ((2 * k : Nat) : Int))) k' =
      if k' = k then v else cellOf w k' := by
  obtain ⟨n, rfl⟩ := Int.eq_ofNat_of_zero_le hv0
  rw [cellOf_eq_digit _ _ hk] at hz
  rw [cellOf_eq_digit _ _ hk', cellOf_eq_digit _ _ hk', toBits_bitOr,
    toBits_shl n k (by omega) hk, digit_or _ _ _ _ (by omega)]
  split
  · have : digit (toBits 64 w) k = 0 := by exact_mod_cast hz
    rw [this]; simp
  · rfl

theorem cellOf_zero (k : Nat) (hk : k < 32) : cellOf 0 k = 0 := by
  rw [cellOf_eq_digit _ _ hk]
  have : toBits 64 0 = 0 := by decide
  rw [this]; unfold digit; simp


theorem coord_test (x : Int) (h0 : -1 ≤ x) (h1 : x ≤ 8) :
    (bitAnd 32 x (bitNot 32 7) == 0) = decide (0 ≤ x ∧ x < 8) := by
  interval_cases x <;> decide

theorem inBoard_iff (p : Point) (h : nearBoard p) : inBoard p = true ↔ onBoard p := by
  obtain ⟨hx0, hx1, hy0, hy1⟩ := h
  unfold inBoard onBoard
  rw [coord_test p.x hx0 hx1, coord_test p.y hy0 hy1]
  simp
  tauto

theorem onBoard_near {p : Point} (h : onBoard p) : nearBoard p := by
  unfold onBoard at h; unfold nearBoard; omega

theorem inBoard_of_onBoard {p : Point} (h : onBoard p) : inBoard p = true :=
  (inBoard_iff p (onBoard_near h)).2 h

theorem slotOf_lt {p : Point} (h : onBoard p) : slotOf p < 32 := by
  unfold onBoard at h; unfold slotOf; omega

theorem sar_two (x : Int) : sar x 2 = x / 4 := by
  unfold sar; rfl

theorem cellShift_eq {p : Point} (h : onBoard p) : cellShift p = ((2 * slotOf p : Nat) : Int) := by
  obtain ⟨x, y⟩ := p
  obtain ⟨h1, h2, h3, h4⟩ := h
  simp only at h1 h2 h3 h4
  interval_cases x <;> interval_cases y <;> decide

theorem getCell_eq (b : Board) {p : Point} (h : onBoard p) :
    getCell b p = cellOf (b.word (p.x / 4)) (slotOf p) := by
  unfold getCell cellOf
  rw [sar_two, cellShift_eq h]

theorem slot_inj {p q : Point} (hp : onBoard p) (hq : onBoard q) (hw : p.x / 4 = q.x / 4)
    (hs : slotOf p = slotOf q) : p = q := by
  obtain ⟨px, py⟩ := p
  obtain ⟨qx, qy⟩ := q
  unfold onBoard at hp hq
  unfold slotOf at hs
  simp only at hp hq hw hs
  have : px = qx ∧ py = qy := by omega
  rw [this.1, this.2]

theorem word_setWord (b : Board) (k k' v : Int) (hk : k = 0 ∨ k = 1) (hk' : k' = 0 ∨ k' = 1) :
    (b.setWord k v).word k' = if k' = k then v else b.word k' := by
  unfold Board.setWord Board.word
  rcases hk with rfl | rfl <;> rcases hk' with rfl | rfl <;> simp

theorem wordIdx_cases {p : Point} (h : onBoard p) : p.x / 4 = 0 ∨ p.x / 4 = 1 := by
  unfold onBoard at h; omega

theorem getCell_nonneg (b : Board) {p : Point} (h : onBoard p) : 0 ≤ getCell b p := by
  rw [getCell_eq b h]; exact cellOf_nonneg _ _ (slotOf_lt h)

theorem getCell_le (b : Board) {p : Point} (h : onBoard p) : getCell b p ≤ 3 := by
  rw [getCell_eq b h]; exact cellOf_le _ _ (slotOf_lt h)

theorem getCell_xorCell (b : Board) {p q : Point} (hp : onBoard p) (hq : onBoard q) :
    getCell (xorCell b p) q = if q = p then 3 - getCell b p else getCell b q := by
  rw [getCell_eq _ hq, getCell_eq _ hq, getCell_eq _ hp]
  unfold xorCell
  rw [sar_two, cellShift_eq hp, word_setWord _ _ _ _ (wordIdx_cases hp) (wordIdx_cases hq)]
  by_cases hw : q.x / 4 = p.x / 4
  · rw [if_pos hw, cellOf_xor _ _ _ (slotOf_lt hp) (slotOf_lt hq)]
    by_cases hs : slotOf q = slotOf p
    · have := slot_inj hq hp hw hs
      subst this
      simp
    · have hne : q ≠ p := fun e => hs (by rw [e])
      rw [if_neg hs, if_neg hne, hw]
  · have hne : q ≠ p := fun e => hw (by rw [e])
    rw [if_neg hw, if_neg hne]

theorem getCell_clearCell (b : Board) {p q : Point} (hp : onBoard p) (hq : onBoard q) :
    getCell (clearCell b p) q = if q = p then 0 else getCell b q := by
  rw [getCell_eq _ hq, getCell_eq _ hq]
  unfold clearCell
  rw [sar_two, cellShift_eq hp, word_setWord _ _ _ _ (wordIdx_cases hp) (wordIdx_cases hq)]
  by_cases hw : q.x / 4 = p.x / 4
  · rw [if_pos hw, cellOf_clear _ _ _ (slotOf_lt hp) (slotOf_lt hq)]
    by_cases hs : slotOf q = slotOf p
    · have := slot_inj hq hp hw hs
      subst this
      simp
    · have hne : q ≠ p := fun e => hs (by rw [e])
      rw [if_neg hs, if_neg hne, hw]
  · have hne : q ≠ p := fun e => hw (by rw [e])
    rw [if_neg hw, if_neg hne]

theorem getCell_orCell (b : Board) {p q : Point} (v : Int) (hp : onBoard p) (hq : onBoard q)
    (hv0 : 0 ≤ v) (hv3 : v ≤ 3) (hz : getCell b p = 0) :
    getCell (orCell b p v) q = if q = p then v else getCell b q := by
  rw [getCell_eq _ hp] at hz
  rw [getCell_eq _ hq, getCell_eq _ hq]
  unfold orCell
  rw [sar_two, cellShift_eq hp, word_setWord _ _ _ _ (wordIdx_cases hp) (wordIdx_cases hq)]
  by_cases hw : q.x / 4 = p.x / 4
  · rw [if_pos hw, cellOf_or _ _ _ _ (slotOf_lt hp) (slotOf_lt hq) hv0 hv3 hz]
    by_cases hs : slotOf q = slotOf p
    · have := slot_inj hq hp hw hs
      subst this
      simp
    · have hne : q ≠ p := fun e => hs (by rw [e])
      rw [if_neg hs, if_neg hne, hw]
  · have hne : q ≠ p := fun e => hw (by rw [e])
    rw [if_neg hw, if_neg hne]

theorem getCell_place (b : Board) {p q : Point} (v : Int) (hp : onBoard p) (hq : onBoard q)
    (hv0 : 0 ≤ v) (hv3 : v ≤ 3) :
    getCell (orCell (clearCell b p) p v) q = if q = p then v else getCell b q := by
  rw [getCell_orCell _ v hp hq hv0 hv3 (by rw [getCell_clearCell b hp hp]; simp),
    getCell_clearCell b hp hq]
  split <;> simp_all

theorem getCell_zero {p : Point} (h : onBoard p) : getCell ⟨0, 0⟩ p = 0 := by
  rw [getCell_eq _ h]
  have : (Board.mk 0 0).word (p.x / 4) = 0 := by unfold Board.word; split <;> rfl
  rw [this]
  exact cellOf_zero _ (slotOf_lt h)

/-! ## Geometry of the walks -/

theorem add_x (p q : Point) : (p + q).x = p.x + q.x := rfl
theorem add_y (p q : Point) : (p + q).y = p.y + q.y := rfl
theorem sub_x (p q : Point) : (p - q).x = p.x - q.x := rfl
theorem sub_y (p q : Point) : (p - q).y = p.y - q.y := rfl

theorem point_ext {p q : Point} (hx : p.x = q.x) (hy : p.y = q.y) : p = q := by
  cases p; cases q; simp_all

theorem ray_zero (p dir : Point) : ray p dir 0 = p := by
  apply point_ext <;> simp [ray]

theorem ray_one (p dir : Point) : ray p dir 1 = p + dir := by
  apply point_ext <;> simp [ray, add_x, add_y]

theorem ray_succ (p dir : Point) (t : Nat) : ray p dir (t + 1) = ray (p + dir) dir t := by
  apply point_ext <;> simp [ray, add_x, add_y] <;> ring

theorem ray_succ_add (p dir : Point) (t : Nat) : ray p dir (t + 1) = ray p dir t + dir := by
  apply point_ext <;> simp [ray, add_x, add_y] <;> ring

theorem ray_succ_sub (p dir : Point) (t : Nat) : ray p dir (t + 1) - dir = ray p dir t := by
  apply point_ext <;> simp [ray, sub_x, sub_y] <;> ring

theorem dirOf_isStep (d : Nat) (hd : d < 8) : isStep (dirOf d) := by
  interval_cases d <;> (unfold isStep; decide)

theorem near_add {p dir : Point} (hp : onBoard p) (hd : isStep dir) : nearBoard (p + dir) := by
  unfold onBoard at hp; unfold isStep at hd; unfold nearBoard
  rw [add_x, add_y]; omega

theorem ray_ne_start {p dir : Point} (hd : isStep dir) (t : Nat) (ht : 1 ≤ t) : ray p dir t ≠ p := by
  intro h
  have hx : p.x + (t : Int) * dir.x = p.x := congrArg Point.x h
  have hy : p.y + (t : Int) * dir.y = p.y := congrArg Point.y h
  have hx' : (t : Int) * dir.x = 0 := by omega
  have hy' : (t : Int) * dir.y = 0 := by omega
  have ht' : (t : Int) ≠ 0 := by omega
  rcases hd.2.2.2.2 with h0 | h0
  · exact h0 ((mul_eq_zero.1 hx').resolve_left ht')
  · exact h0 ((mul_eq_zero.1 hy').resolve_left ht')

theorem ray_inj {p dir : Point} (hd : isStep dir) {s t : Nat} (h : ray p dir s = ray p dir t) :
    s = t := by
  have hx : p.x + (s : Int) * dir.x = p.x + (t : Int) * dir.x := congrArg Point.x h
  have hy : p.y + (s : Int) * dir.y = p.y + (t : Int) * dir.y := congrArg Point.y h
  obtain ⟨h1, h2, h3, h4, h5⟩ := hd
  rcases h5 with h0 | h0
  · have : dir.x = 1 ∨ dir.x = -1 := by omega
    rcases this with e | e <;> rw [e] at hx <;> omega
  · have : dir.y = 1 ∨ dir.y = -1 := by omega
    rcases this with e | e <;> rw [e] at hy <;> omega

/-- Two on-board points of one ray are fewer than 8 steps apart. -/
theorem ray_span {p dir : Point} (hd : isStep dir) {s t : Nat} (hs : onBoard (ray p dir s))
    (ht : onBoard (ray p dir t)) : t < s + 8 := by
  obtain ⟨h1, h2, h3, h4, h5⟩ := hd
  unfold onBoard ray at hs ht
  simp only at hs ht
  rcases h5 with h0 | h0
  · have : dir.x = 1 ∨ dir.x = -1 := by omega
    rcases this with e | e <;> rw [e] at hs ht <;> omega
  · have : dir.y = 1 ∨ dir.y = -1 := by omega
    rcases this with e | e <;> rw [e] at hs ht <;> omega

/-! ## The walks: specification and fuel -/

theorem stopAt_zero (stop : Int → Bool) (b : Board) (p dir : Point) :
    StopAt stop b p dir 0 ↔ onBoard p ∧ getCell b p ≠ EMPTY ∧ stop (getCell b p) = true := by
  unfold StopAt
  rw [ray_zero]
  simp

theorem stopAt_succ (stop : Int → Bool) (b : Board) (p dir : Point) (m : Nat) :
    StopAt stop b p dir (m + 1) ↔
      (onBoard p ∧ getCell b p ≠ EMPTY ∧ stop (getCell b p) = false) ∧
        StopAt stop b (p + dir) dir m := by
  unfold StopAt
  constructor
  · rintro ⟨h1, h2⟩
    refine ⟨by simpa [ray_zero] using h1 0 (by omega), fun t ht => ?_, ?_⟩
    · rw [← ray_succ]; exact h1 (t + 1) (by omega)
    · rw [← ray_succ]; exact h2
  · rintro ⟨h0, h1, h2⟩
    refine ⟨fun t ht => ?_, ?_⟩
    · cases t with
      | zero => simpa [ray_zero] using h0
      | succ t => rw [ray_succ]; exact h1 t (by omega)
    · rw [ray_succ]; exact h2

theorem firstStop_some (stop : Int → Bool) (b : Board) (dir : Point) (hd : isStep dir) :
    ∀ (n : Nat) (p : Point) (m : Nat), nearBoard p →
      (firstStop stop n b p dir = some (some m) ↔ m < n ∧ StopAt stop b p dir m) := by
  intro n
  induction n with
  | zero => intro p m _; simp [firstStop]
  | succ n ih =>
    intro p m hp
    unfold firstStop
    by_cases hc : (inBoard p && getCell b p != EMPTY) = true
    · rw [if_pos hc]
      simp only [Bool.and_eq_true, bne_iff_ne, ne_eq] at hc
      have hon : onBoard p := (inBoard_iff p hp).1 hc.1
      by_cases hs : stop (getCell b p) = true
      · rw [if_pos hs]
        cases m with
        | zero => simp [stopAt_zero, hon, hc.2, hs]
        | succ m => simp [stopAt_succ, hs]
      · rw [if_neg hs]
        have hs' : stop (getCell b p) = false := by simpa using hs
        cases m with
        | zero => simp [stopAt_zero, hs']
        | succ m =>
          have := ih (p + dir) m (near_add hon hd)
          simp only [Option.map_eq_some', stopAt_succ]
          constructor
          · rintro ⟨r, hr, k, hk, hm⟩
            subst hk
            have hkm : k = m := by omega
            subst hkm
            have := (ih (p + dir) k (near_add hon hd)).1 hr
            exact ⟨by omega, ⟨hon, hc.2, hs'⟩, this.2⟩
          · rintro ⟨hlt, _, hst⟩
            exact ⟨some m, (ih (p + dir) m (near_add hon hd)).2 ⟨by omega, hst⟩, m, rfl, rfl⟩
    · rw [if_neg hc]
      have hno : ¬ (onBoard p ∧ getCell b p ≠ EMPTY) := by
        intro h
        apply hc
        simp only [Bool.and_eq_true, bne_iff_ne, ne_eq]
        exact ⟨inBoard_of_onBoard h.1, h.2⟩
      cases m with
      | zero =>
        simp only [stopAt_zero]
        constructor
        · intro h; simp at h
        · rintro ⟨_, h1, h2, _⟩; exact absurd ⟨h1, h2⟩ hno
      | succ m =>
        simp only [stopAt_succ]
        constructor
        · intro h; simp at h
        · rintro ⟨_, ⟨h1, h2, _⟩, _⟩; exact absurd ⟨h1, h2⟩ hno

theorem firstStop_none (stop : Int → Bool) (b : Board) (dir : Point) (hd : isStep dir) :
    ∀ (n : Nat) (p : Point), nearBoard p → firstStop stop n b p dir = none →
      ∀ t < n, onBoard (ray p dir t) := by
  intro n
  induction n with
  | zero => intro p _ _ t ht; omega
  | succ n ih =>
    intro p hp h t ht
    unfold firstStop at h
    by_cases hc : (inBoard p && getCell b p != EMPTY) = true
    · rw [if_pos hc] at h
      simp only [Bool.and_eq_true, bne_iff_ne, ne_eq] at hc
      have hon : onBoard p := (inBoard_iff p hp).1 hc.1
      by_cases hs : stop (getCell b p) = true
      · rw [if_pos hs] at h; simp at h
      · rw [if_neg hs] at h
        simp only [Option.map_eq_none'] at h
        cases t with
        | zero => rw [ray_zero]; exact hon
        | succ t => rw [ray_succ]; exact ih (p + dir) (near_add hon hd) h t (by omega)
    · rw [if_neg hc] at h; simp at h

/-- Fuel: a walk over the board never needs more than `SIZE + 1` units. -/
theorem firstStop_fuel (stop : Int → Bool) (b : Board) (p dir : Point) (hd : isStep dir)
    (hp : nearBoard p) (n : Nat) (hn : SIZE + 1 ≤ n) : firstStop stop n b p dir ≠ none := by
  intro h
  have h0 := firstStop_none stop b dir hd n p hp h 0 (by unfold SIZE at hn; omega)
  have h8 := firstStop_none stop b dir hd n p hp h 8 (by unfold SIZE at hn; omega)
  have := ray_span hd h0 h8
  omega

theorem stopAt_lt {stop : Int → Bool} {b : Board} {p dir : Point} (hd : isStep dir) {m : Nat}
    (h : StopAt stop b p dir m) : m < 8 := by
  cases m with
  | zero => omega
  | succ m =>
    have h0 := (h.1 0 (by omega)).1
    have := ray_span hd h0 h.2.1
    omega

theorem stopAt_unique {stop : Int → Bool} {b : Board} {p dir : Point} {m m' : Nat}
    (h : StopAt stop b p dir m) (h' : StopAt stop b p dir m') : m = m' := by
  rcases Nat.lt_trichotomy m m' with hlt | heq | hgt
  · have := (h'.1 m hlt).2.2
    rw [h.2.2.2] at this; simp at this
  · exact heq
  · have := (h.1 m' hgt).2.2
    rw [h'.2.2.2] at this; simp at this

/-- With `SIZE + 1` units of fuel the walk returns, and it returns the stopping step if there is
one. -/
theorem firstStop_spec (stop : Int → Bool) (b : Board) (p dir : Point) (hd : isStep dir)
    (hp : nearBoard p) :
    (∃ m, StopAt stop b p dir m ∧ firstStop stop (SIZE + 1) b p dir = some (some m)) ∨
    ((¬ ∃ m, StopAt stop b p dir m) ∧ firstStop stop (SIZE + 1) b p dir = some none) := by
  have hf := firstStop_fuel stop b p dir hd hp (SIZE + 1) (le_refl _)
  cases hr : firstStop stop (SIZE + 1) b p dir with
  | none => exact absurd hr hf
  | some r =>
    cases r with
    | some m =>
      left
      exact ⟨m, ((firstStop_some stop b dir hd _ p m hp).1 hr).2, rfl⟩
    | none =>
      right
      refine ⟨?_, rfl⟩
      rintro ⟨m, hm⟩
      have := (firstStop_some stop b dir hd (SIZE + 1) p m hp).2
        ⟨by have := stopAt_lt hd hm; unfold SIZE; omega, hm⟩
      rw [hr] at this; simp at this

theorem isTerminalWalk_eq (b : Board) (f : Int) (dir : Point) : ∀ (n : Nat) (p : Point),
    isTerminalWalk n b f p dir = (firstStop (fun v => v != f) n b p dir).map Option.isSome := by
  intro n
  induction n with
  | zero => intro p; rfl
  | succ n ih =>
    intro p
    unfold isTerminalWalk firstStop
    split
    · split
      · rfl
      · rw [ih]; cases firstStop (fun v => v != f) n b (p + dir) dir with
        | none => rfl
        | some r => cases r <;> rfl
    · rfl

theorem expansionWalk_eq (b : Board) (pl : Int) (dir : Point) : ∀ (n : Nat) (p : Point),
    expansionWalk n b pl p dir = (firstStop (fun v => v == 3 - pl) n b p dir).map Option.isSome := by
  intro n
  induction n with
  | zero => intro p; rfl
  | succ n ih =>
    intro p
    unfold expansionWalk firstStop
    split
    · split
      · rfl
      · rw [ih]; cases firstStop (fun v => v == 3 - pl) n b (p + dir) dir with
        | none => rfl
        | some r => cases r <;> rfl
    · rfl

theorem rolloutWalk_eq (b : Board) (pl : Int) (dir : Point) : ∀ (n : Nat) (p : Point),
    rolloutWalk n b pl p dir = (firstStop (fun v => v == 3 - pl) n b p dir).map Option.isSome := by
  intro n
  induction n with
  | zero => intro p; rfl
  | succ n ih =>
    intro p
    unfold rolloutWalk firstStop
    split
    · split
      · rfl
      · rw [ih]; cases firstStop (fun v => v == 3 - pl) n b (p + dir) dir with
        | none => rfl
        | some r => cases r <;> rfl
    · rfl

/-- With `SIZE + 1` units of fuel the legality walk of `expansion` returns. -/
theorem expansionWalk_fuel (b : Board) (pl : Int) (p dir : Point) (hd : isStep dir)
    (hp : nearBoard p) : ∃ r, expansionWalk (SIZE + 1) b pl p dir = some r := by
  rw [expansionWalk_eq]
  rcases firstStop_spec (fun v => v == 3 - pl) b p dir hd hp with ⟨m, _, h⟩ | ⟨_, h⟩ <;>
    rw [h] <;> exact ⟨_, rfl⟩

/-- With `SIZE + 1` units of fuel the walk of `isTerminal` returns. -/
theorem isTerminalWalk_fuel (b : Board) (f : Int) (p dir : Point) (hd : isStep dir)
    (hp : nearBoard p) : ∃ r, isTerminalWalk (SIZE + 1) b f p dir = some r := by
  rw [isTerminalWalk_eq]
  rcases firstStop_spec (fun v => v != f) b p dir hd hp with ⟨m, _, h⟩ | ⟨_, h⟩ <;>
    rw [h] <;> exact ⟨_, rfl⟩

/-- With `SIZE + 1` units of fuel the legality walk of `rollout` returns. -/
theorem rolloutWalk_fuel (b : Board) (pl : Int) (p dir : Point) (hd : isStep dir)
    (hp : nearBoard p) : ∃ r, rolloutWalk (SIZE + 1) b pl p dir = some r := by
  rw [rolloutWalk_eq]
  rcases firstStop_spec (fun v => v == 3 - pl) b p dir hd hp with ⟨m, _, h⟩ | ⟨_, h⟩ <;>
    rw [h] <;> exact ⟨_, rfl⟩

theorem walk_found_iff (stop : Int → Bool) (b : Board) (p dir : Point) (hd : isStep dir)
    (hp : nearBoard p) :
    (((firstStop stop (SIZE + 1) b p dir).map Option.isSome).getD false = true) ↔
      ∃ m, StopAt stop b p dir m := by
  rcases firstStop_spec stop b p dir hd hp with ⟨m, hm, h⟩ | ⟨hno, h⟩
  · rw [h]; simp; exact ⟨m, hm⟩
  · rw [h]; simp; exact fun m hm => hno ⟨m, hm⟩

/-! ## The cells of the board -/

theorem mem_allCells (p : Point) : p ∈ allCells ↔ onBoard p := by
  unfold allCells onBoard SIZE
  simp only [List.mem_flatten, List.mem_map, List.mem_range]
  constructor
  · rintro ⟨l, ⟨i, hi, rfl⟩, hp⟩
    simp only [List.mem_map, List.mem_range] at hp
    obtain ⟨j, hj, rfl⟩ := hp
    simp only
    omega
  · rintro ⟨h1, h2, h3, h4⟩
    refine ⟨_, ⟨p.x.toNat, by omega, rfl⟩, ?_⟩
    simp only [List.mem_map, List.mem_range]
    refine ⟨p.y.toNat, by omega, ?_⟩
    apply point_ext <;> simp <;> omega

theorem valid_cell {b : Board} (hv : validBoard b) {p : Point} (hp : onBoard p) :
    getCell b p = 0 ∨ getCell b p = 1 ∨ getCell b p = 2 :=
  hv p ((mem_allCells p).2 hp)

theorem onBoard_mk (i j : Nat) (hi : i < 8) (hj : j < 8) : onBoard (Point.mk i j) := by
  unfold onBoard; simp only; omega

/-! ## Legal destinations: the code against the wording -/

theorem stopAt_shift (stop : Int → Bool) (b : Board) (p dir : Point) (k m : Nat) :
    StopAt stop b (ray p dir k) dir m ↔
      (∀ t < m, onBoard (ray p dir (t + k)) ∧ getCell b (ray p dir (t + k)) ≠ EMPTY ∧
        stop (getCell b (ray p dir (t + k))) = false) ∧
      onBoard (ray p dir (m + k)) ∧ getCell b (ray p dir (m + k)) ≠ EMPTY ∧
        stop (getCell b (ray p dir (m + k))) = true := by
  have e : ∀ t, ray (ray p dir k) dir t = ray p dir (t + k) := by
    intro t; apply point_ext <;> simp [ray] <;> ring
  unfold StopAt
  simp only [e]

theorem expansionDir_iff (b : Board) (hv : validBoard b) (pl : Int) (i j d : Nat) (hi : i < 8)
    (hj : j < 8) (hd : d < 8) :
    expansionDir b pl i j d = true ↔ Qualifies b (3 - pl) ⟨i, j⟩ (dirOf d) := by
  have hstep := dirOf_isStep d hd
  have hp0 : onBoard (Point.mk i j) := onBoard_mk i j hi hj
  have hnear : nearBoard (Point.mk i j + dirOf d) := near_add hp0 hstep
  unfold expansionDir Qualifies
  simp only
  rw [ray_one]
  by_cases h1 : onBoard (Point.mk i j + dirOf d)
  swap
  · have : inBoard (Point.mk i j + dirOf d) = false := by
      rw [← Bool.not_eq_true, inBoard_iff _ hnear]; exact h1
    simp [this, h1]
  rw [if_pos (inBoard_of_onBoard h1)]
  by_cases h2 : getCell b (Point.mk i j + dirOf d) = pl
  swap
  · have h2' : getCell b (Point.mk i j + dirOf d) ≠ 3 - (3 - pl) := by
      intro h; apply h2; rw [h]; ring
    simp [h2, h2']
  have h2' : getCell b (Point.mk i j + dirOf d) = 3 - (3 - pl) := by rw [h2]; ring
  have hne : (getCell b (Point.mk i j + dirOf d) != pl) = false := by simp [h2]
  rw [hne]
  simp only [Bool.false_eq_true, if_false]
  rw [expansionWalk_eq, walk_found_iff _ _ _ _ hstep (near_add h1 hstep)]
  simp only [h1, h2', true_and]
  have e2 : Point.mk (i : Int) j + dirOf d + dirOf d = ray ⟨i, j⟩ (dirOf d) 2 := by
    apply point_ext <;> simp [ray, add_x, add_y] <;> ring
  rw [e2]
  simp only [stopAt_shift, beq_iff_eq, beq_eq_false_iff_ne, ne_eq]
  have hcell1 : getCell b (ray ⟨i, j⟩ (dirOf d) 1) = pl := by rw [ray_one]; exact h2
  have hon1 : onBoard (ray ⟨i, j⟩ (dirOf d) 1) := by rw [ray_one]; exact h1
  constructor
  · rintro ⟨m, hbefore, hon, hne0, hc⟩
    have hlt : m + 2 < 0 + 8 := ray_span hstep (by rw [ray_zero]; exact hp0) hon
    have hplc : pl = 1 ∨ pl = 2 := by
      have := valid_cell hv hon
      unfold EMPTY at hne0
      omega
    refine ⟨m + 2, by unfold SIZE; omega, by omega, hon, hc, ?_⟩
    intro t ht ht1
    rcases Nat.lt_or_ge t 2 with h | h
    · have : t = 1 := by omega
      subst this
      refine ⟨hon1, ?_, ?_⟩
      · rw [hcell1]; unfold EMPTY; omega
      · rw [hcell1]; omega
    · obtain ⟨k, rfl⟩ : ∃ k, t = k + 2 := ⟨t - 2, by omega⟩
      exact hbefore k (by omega)
  · rintro ⟨m, hm8, hm2, hon, hc, hbefore⟩
    obtain ⟨k, rfl⟩ : ∃ k, m = k + 2 := ⟨m - 2, by omega⟩
    have h1' := (hbefore 1 (by omega) (le_refl _)).2.1
    rw [hcell1] at h1'
    have hplc : 3 - pl ≠ EMPTY := by
      have := valid_cell hv hon
      have := valid_cell hv hon1
      unfold EMPTY at h1' ⊢
      omega
    refine ⟨k, fun t ht => hbefore (t + 2) (by omega) (by omega), hon, ?_, hc⟩
    rw [hc]; exact hplc

theorem isTerminalDir_iff (b : Board) (hv : validBoard b) (i j d : Nat) (hi : i < 8)
    (hj : j < 8) (hd : d < 8) :
    isTerminalDir b i j d = true ↔
      Qualifies b 1 ⟨i, j⟩ (dirOf d) ∨ Qualifies b 2 ⟨i, j⟩ (dirOf d) := by
  have hstep := dirOf_isStep d hd
  have hp0 : onBoard (Point.mk i j) := onBoard_mk i j hi hj
  have hnear : nearBoard (Point.mk i j + dirOf d) := near_add hp0 hstep
  have e1 : Point.mk (i : Int) j + dirOf d = ray ⟨i, j⟩ (dirOf d) 1 := (ray_one _ _).symm
  unfold isTerminalDir Qualifies
  simp only
  by_cases h1 : onBoard (Point.mk i j + dirOf d)
  swap
  · have : inBoard (Point.mk i j + dirOf d) = false := by
      rw [← Bool.not_eq_true, inBoard_iff _ hnear]; exact h1
    rw [← e1]
    simp [this, h1]
  rw [if_pos (inBoard_of_onBoard h1), isTerminalWalk_eq, walk_found_iff _ _ _ _ hstep hnear, e1]
  rw [e1] at h1
  simp only [stopAt_shift, bne_iff_ne, ne_eq, h1, true_and]
  have hF : ∀ v w : Int, ((v != w) = false) ↔ v = w := by intro v w; simp
  simp only [hF]
  constructor
  · rintro ⟨m, hbefore, hon, hne0, hne⟩
    have hlt : m + 1 < 0 + 8 := ray_span hstep (by rw [ray_zero]; exact hp0) hon
    have hm : 1 ≤ m := by
      rcases Nat.eq_zero_or_pos m with h | h
      · subst h; exact absurd rfl hne
      · exact h
    have hf0 := (hbefore 0 hm).2.1
    simp only [Nat.zero_add] at hf0
    have hfv := valid_cell hv h1
    have hmv := valid_cell hv hon
    unfold EMPTY at hf0 hne0
    have key : ∀ c : Int, getCell b (ray ⟨i, j⟩ (dirOf d) (m + 1)) = c →
        getCell b (ray ⟨i, j⟩ (dirOf d) 1) = 3 - c →
        (getCell b (ray ⟨i, j⟩ (dirOf d) 1) = 3 - c ∧
          ∃ m < SIZE, 2 ≤ m ∧ onBoard (ray ⟨i, j⟩ (dirOf d) m) ∧
            getCell b (ray ⟨i, j⟩ (dirOf d) m) = c ∧
            ∀ t < m, 1 ≤ t → onBoard (ray ⟨i, j⟩ (dirOf d) t) ∧
              ¬ getCell b (ray ⟨i, j⟩ (dirOf d) t) = EMPTY ∧
              ¬ getCell b (ray ⟨i, j⟩ (dirOf d) t) = c) := by
      intro c hc hf
      refine ⟨hf, m + 1, by unfold SIZE; omega, by omega, hon, hc, ?_⟩
      intro t ht ht1
      obtain ⟨k, rfl⟩ : ∃ k, t = k + 1 := ⟨t - 1, by omega⟩
      have := hbefore k (by omega)
      refine ⟨this.1, this.2.1, ?_⟩
      rw [this.2.2, hf]
      rw [hf] at hne
      intro h
      apply hne
      rw [hc]; omega
    rcases hmv with h | h | h
    · exact absurd h hne0
    · left; exact key 1 h (by omega)
    · right; exact key 2 h (by omega)
  · have key : ∀ c : Int, (c = 1 ∨ c = 2) →
        (getCell b (ray ⟨i, j⟩ (dirOf d) 1) = 3 - c ∧
          ∃ m < SIZE, 2 ≤ m ∧ onBoard (ray ⟨i, j⟩ (dirOf d) m) ∧
            getCell b (ray ⟨i, j⟩ (dirOf d) m) = c ∧
            ∀ t < m, 1 ≤ t → onBoard (ray ⟨i, j⟩ (dirOf d) t) ∧
              ¬ getCell b (ray ⟨i, j⟩ (dirOf d) t) = EMPTY ∧
              ¬ getCell b (ray ⟨i, j⟩ (dirOf d) t) = c) →
        ∃ m, (∀ t < m, onBoard (ray ⟨i, j⟩ (dirOf d) (t + 1)) ∧
              ¬ getCell b (ray ⟨i, j⟩ (dirOf d) (t + 1)) = EMPTY ∧
              getCell b (ray ⟨i, j⟩ (dirOf d) (t + 1)) = getCell b (ray ⟨i, j⟩ (dirOf d) 1)) ∧
          onBoard (ray ⟨i, j⟩ (dirOf d) (m + 1)) ∧
          ¬ getCell b (ray ⟨i, j⟩ (dirOf d) (m + 1)) = EMPTY ∧
          ¬ getCell b (ray ⟨i, j⟩ (dirOf d) (m + 1)) = getCell b (ray ⟨i, j⟩ (dirOf d) 1) := by
      rintro c hc ⟨hf, m, _, hm2, hon, hcm, hbefore⟩
      obtain ⟨k, rfl⟩ : ∃ k, m = k + 1 := ⟨m - 1, by omega⟩
      refine ⟨k, ?_, hon, ?_, ?_⟩
      · intro t ht
        have := hbefore (t + 1) (by omega) (by omega)
        refine ⟨this.1, this.2.1, ?_⟩
        have hvt := valid_cell hv this.1
        have h0 := this.2.1
        have hc' := this.2.2
        unfold EMPTY at h0
        rw [hf]
        omega
      · rw [hcm]; unfold EMPTY; omega
      · rw [hcm, hf]; omega
    rintro (h | h)
    · exact key 1 (Or.inl rfl) h
    · exact key 2 (Or.inr rfl) h

/-! ## The scans as filters -/

theorem foldl_flag (l : List Nat) (f : Nat → Bool) (init : Bool) :
    l.foldl (fun avail d => if f d then true else avail) init = (init || l.any f) := by
  induction l generalizing init with
  | nil => simp
  | cons a l ih =>
    rw [List.foldl_cons, ih]
    cases h : f a <;> cases init <;> simp [h]

theorem foldl_guarded_flag (l : List Nat) (f : Nat → Bool) (init : Bool) :
    l.foldl (fun avail d => if !avail then (if f d then true else avail) else avail) init =
      (init || l.any f) := by
  induction l generalizing init with
  | nil => simp
  | cons a l ih =>
    rw [List.foldl_cons, ih]
    cases h : f a <;> cases init <;> simp [h]

theorem foldl_push {α β : Type} (l : List α) (c1 c2 : α → Bool) (x : α → β) (init : List β) :
    l.foldl (fun acc a => if c1 a = true then (if c2 a = true then acc ++ [x a] else acc) else acc)
      init = init ++ (l.filter fun a => c1 a && c2 a).map x := by
  induction l generalizing init with
  | nil => simp
  | cons a l ih =>
    rw [List.foldl_cons, ih]
    cases h1 : c1 a <;> cases h2 : c2 a <;> simp [h1, h2]

theorem foldl_rows {α β : Type} (l : List α) (F : α → List β) (init : List β) :
    l.foldl (fun acc a => acc ++ F a) init = init ++ (l.map F).flatten := by
  induction l generalizing init with
  | nil => simp
  | cons a l ih => rw [List.foldl_cons, ih]; simp

theorem filter_allCells (P : Point → Bool) :
    allCells.filter P =
      ((List.range SIZE).map fun (i : Nat) =>
        ((List.range SIZE).filter fun (j : Nat) => P ⟨i, j⟩).map fun (j : Nat) =>
          Point.mk i j).flatten := by
  unfold allCells
  rw [List.filter_flatten, List.map_map]
  congr 1
  apply List.map_congr_left
  intro i _
  simp only [Function.comp]
  rw [List.filter_map]
  rfl

theorem pointAvailable_eq (b : Board) (pl : Int) (i j : Nat) :
    pointAvailable b pl i j = (List.range 8).any fun d => expansionDir b pl i j d := by
  unfold pointAvailable
  rw [foldl_flag]; simp

theorem rolloutAvailable_eq (b : Board) (pl : Int) (i j : Nat) :
    rolloutAvailable b pl i j = (List.range 8).any fun d => rolloutDir b pl i j d := by
  unfold rolloutAvailable
  rw [foldl_guarded_flag]; simp

theorem expansionScan_eq (b : Board) (pl : Int) :
    expansionScan b pl =
      (allCells.filter fun p =>
        getCell b p == EMPTY && pointAvailable b pl p.x.toNat p.y.toNat).map fun p => (none, p) := by
  unfold expansionScan
  rw [filter_allCells, List.map_flatten, List.map_map]
  have inner : ∀ (i : Nat) (ch : List (Option Nat × Point)),
      (List.range SIZE).foldl (fun ch (j : Nat) =>
        if (getCell b ⟨i, j⟩ == EMPTY) = true then
          if pointAvailable b pl i j = true then ch ++ [(none, Point.mk i j)] else ch
        else ch) ch =
      ch ++ ((List.range SIZE).filter fun (j : Nat) =>
        getCell b ⟨i, j⟩ == EMPTY && pointAvailable b pl i j).map fun (j : Nat) =>
          ((none : Option Nat), Point.mk i j) := by
    intro i ch
    exact foldl_push (List.range SIZE) (fun (j : Nat) => getCell b ⟨i, j⟩ == EMPTY)
      (fun j => pointAvailable b pl i j) (fun (j : Nat) => ((none : Option Nat), Point.mk i j)) ch
  simp only [inner]
  rw [foldl_rows, List.nil_append]
  simp only [Int.toNat_ofNat]
  congr 1
  apply List.map_congr_left
  intro i _
  simp only [Function.comp, List.map_map]
  rfl

theorem pointAvailable_iff (b : Board) (hv : validBoard b) (pl : Int) (i j : Nat) (hi : i < 8)
    (hj : j < 8) :
    pointAvailable b pl i j = true ↔ ∃ d < 8, Qualifies b (3 - pl) ⟨i, j⟩ (dirOf d) := by
  rw [pointAvailable_eq]
  simp only [List.any_eq_true, List.mem_range]
  constructor
  · rintro ⟨d, hd, h⟩
    exact ⟨d, hd, (expansionDir_iff b hv pl i j d hi hj hd).1 h⟩
  · rintro ⟨d, hd, h⟩
    exact ⟨d, hd, (expansionDir_iff b hv pl i j d hi hj hd).2 h⟩

theorem point_toNat {p : Point} (hp : onBoard p) : Point.mk (p.x.toNat : Int) (p.y.toNat : Int) = p := by
  unfold onBoard at hp
  apply point_ext <;> simp <;> omega

theorem legalB_iff (b : Board) (hv : validBoard b) (pl : Int) (p : Point) (hp : onBoard p) :
    (getCell b p == EMPTY && pointAvailable b pl p.x.toNat p.y.toNat) = true ↔
      LegalDest b (3 - pl) p := by
  have hx : p.x.toNat < 8 := by unfold onBoard at hp; omega
  have hy : p.y.toNat < 8 := by unfold onBoard at hp; omega
  unfold LegalDest
  rw [Bool.and_eq_true, beq_iff_eq, pointAvailable_iff b hv pl _ _ hx hy, point_toNat hp]

/-- The legality scan of `expansion` lists the legal destinations of colour `3 - player`. -/
theorem expansionScan_legal (b : Board) (hv : validBoard b) (pl : Int) :
    expansionScan b pl = (legalDestinations b (3 - pl)).map fun p => (none, p) := by
  rw [expansionScan_eq]
  unfold legalDestinations
  congr 1
  apply List.filter_congr
  intro p hp
  have hp' := (mem_allCells p).1 hp
  rw [Bool.eq_iff_iff, legalB_iff b hv pl p hp']
  simp

theorem isTerminal_eq_true_iff (b : Board) (hv : validBoard b) :
    isTerminal b = true ↔ ∀ p ∈ allCells, ¬ LegalDest b 1 p ∧ ¬ LegalDest b 2 p := by
  unfold isTerminal
  simp only [Bool.not_eq_true', List.any_eq_false, List.mem_range, Bool.and_eq_true, beq_iff_eq,
    List.any_eq_true, not_and, not_exists, SIZE]
  constructor
  · intro h p hp
    have hp' := (mem_allCells p).1 hp
    have hx : p.x.toNat < 8 := by unfold onBoard at hp'; omega
    have hy : p.y.toNat < 8 := by unfold onBoard at hp'; omega
    have := h p.x.toNat hx p.y.toNat hy
    rw [point_toNat hp'] at this
    unfold LegalDest
    constructor
    · rintro ⟨he, d, hd, hq⟩
      exact this he d hd ((isTerminalDir_iff b hv _ _ d hx hy hd).2 (by
        rw [point_toNat hp']; exact Or.inl hq))
    · rintro ⟨he, d, hd, hq⟩
      exact this he d hd ((isTerminalDir_iff b hv _ _ d hx hy hd).2 (by
        rw [point_toNat hp']; exact Or.inr hq))
  · intro h i hi j hj he d hd hdir
    have hp := (mem_allCells ⟨i, j⟩).2 (onBoard_mk i j hi hj)
    have := h _ hp
    unfold LegalDest at this
    rcases (isTerminalDir_iff b hv i j d hi hj hd).1 hdir with hq | hq
    · exact this.1 ⟨he, d, hd, hq⟩
    · exact this.2 ⟨he, d, hd, hq⟩

theorem legalDestinations_eq_nil (b : Board) (c : Int) :
    legalDestinations b c = [] ↔ ∀ p ∈ allCells, ¬ LegalDest b c p := by
  unfold legalDestinations
  simp [List.filter_eq_nil_iff]

/-! ## The constructor: encoding of the grid -/

set_option maxRecDepth 100000 in
theorem allCells_nodup : allCells.Nodup := by decide

theorem encodeGrid_eq (g : Grid) :
    encodeGrid g =
      allCells.foldl (fun st p => encodeCell g p.x.toNat p.y.toNat st) (⟨0, 0⟩, ⟨0, 0, 0⟩) := by
  unfold encodeGrid allCells
  rw [List.foldl_flatten, List.foldl_map]
  congr 1

theorem dc_add_get (dc : DiscCount) (k delta v : Int) (hk : k = 0 ∨ k = 1 ∨ k = 2)
    (hv : v = 0 ∨ v = 1 ∨ v = 2) :
    (dc.add k delta).get v = if v = k then dc.get v + delta else dc.get v := by
  unfold DiscCount.add DiscCount.get
  rcases hk with rfl | rfl | rfl <;> rcases hv with rfl | rfl | rfl <;> simp

theorem encode_fold (g : Grid) (hg : validGrid g) :
    ∀ (l : List Point) (st : Board × DiscCount), l.Nodup → (∀ p ∈ l, onBoard p) →
      (∀ p ∈ l, getCell st.1 p = 0) →
      (∀ q, onBoard q →
        getCell (l.foldl (fun st p => encodeCell g p.x.toNat p.y.toNat st) st).1 q =
          if q ∈ l then g q.x.toNat q.y.toNat else getCell st.1 q) ∧
      (∀ v : Int, (v = 0 ∨ v = 1 ∨ v = 2) →
        (l.foldl (fun st p => encodeCell g p.x.toNat p.y.toNat st) st).2.get v =
          st.2.get v + (l.countP fun p => g p.x.toNat p.y.toNat == v)) := by
  intro l
  induction l with
  | nil => intro st _ _ _; simp
  | cons p l ih =>
    intro st hnd hon hz
    have hp : onBoard p := hon p (List.mem_cons_self _ _)
    have hgp : g p.x.toNat p.y.toNat = 0 ∨ g p.x.toNat p.y.toNat = 1 ∨ g p.x.toNat p.y.toNat = 2 := by
      unfold onBoard at hp
      exact hg _ (by unfold SIZE; omega) _ (by unfold SIZE; omega)
    have hpz := hz p (List.mem_cons_self _ _)
    rw [List.nodup_cons] at hnd
    have hcell : ∀ q, onBoard q → getCell (encodeCell g p.x.toNat p.y.toNat st).1 q =
        if q = p then g p.x.toNat p.y.toNat else getCell st.1 q := by
      intro q hq
      unfold encodeCell
      simp only
      rw [point_toNat hp]
      exact getCell_orCell st.1 _ hp hq (by omega) (by omega) hpz
    have hrest : ∀ p' ∈ l, getCell (encodeCell g p.x.toNat p.y.toNat st).1 p' = 0 := by
      intro p' hp'
      rw [hcell p' (hon p' (List.mem_cons_of_mem _ hp'))]
      have : p' ≠ p := fun e => hnd.1 (e ▸ hp')
      rw [if_neg this]
      exact hz p' (List.mem_cons_of_mem _ hp')
    obtain ⟨ih1, ih2⟩ := ih (encodeCell g p.x.toNat p.y.toNat st) hnd.2
      (fun p' hp' => hon p' (List.mem_cons_of_mem _ hp')) hrest
    rw [List.foldl_cons]
    constructor
    · intro q hq
      rw [ih1 q hq, hcell q hq]
      by_cases hql : q ∈ l
      · have : q ≠ p := fun e => hnd.1 (e ▸ hql)
        simp [hql]
      · by_cases hqp : q = p
        · subst hqp; simp
        · simp [hql, hqp]
    · intro v hv
      rw [ih2 v hv, List.countP_cons]
      have : (encodeCell g p.x.toNat p.y.toNat st).2 = st.2.add (g p.x.toNat p.y.toNat) 1 := rfl
      rw [this, dc_add_get _ _ _ _ hgp hv]
      by_cases hvg : v = g p.x.toNat p.y.toNat
      · have : (g p.x.toNat p.y.toNat == v) = true := by simp [hvg]
        rw [if_pos hvg, this]
        simp only [if_true, Nat.cast_add, Nat.cast_one]
        ring
      · have : (g p.x.toNat p.y.toNat == v) = false := by
          simp; exact fun e => hvg e.symm
        rw [if_neg hvg, this]
        simp

/-- Decoding the board packed by the constructor gives back the grid. -/
theorem getCell_encodeGrid (g : Grid) (hg : validGrid g) (q : Point) (hq : onBoard q) :
    getCell (encodeGrid g).1 q = g q.x.toNat q.y.toNat := by
  rw [encodeGrid_eq]
  have := (encode_fold g hg allCells (⟨0, 0⟩, ⟨0, 0, 0⟩) allCells_nodup
    (fun p hp => (mem_allCells p).1 hp) (fun p hp => getCell_zero ((mem_allCells p).1 hp))).1 q hq
  rw [this, if_pos ((mem_allCells q).2 hq)]

theorem validBoard_encodeGrid (g : Grid) (hg : validGrid g) : validBoard (encodeGrid g).1 := by
  intro p hp
  have hp' := (mem_allCells p).1 hp
  rw [getCell_encodeGrid g hg p hp']
  unfold onBoard at hp'
  exact hg _ (by unfold SIZE; omega) _ (by unfold SIZE; omega)

theorem wellFormed_encodeGrid (g : Grid) (hg : validGrid g) :
    wellFormed (encodeGrid g).1 (encodeGrid g).2 := by
  have hcount : ∀ v : Int, (v = 0 ∨ v = 1 ∨ v = 2) →
      (encodeGrid g).2.get v = cellCount (encodeGrid g).1 v := by
    intro v hv
    have h2 := (encode_fold g hg allCells (⟨0, 0⟩, ⟨0, 0, 0⟩) allCells_nodup
      (fun p hp => (mem_allCells p).1 hp)
      (fun p hp => getCell_zero ((mem_allCells p).1 hp))).2 v hv
    rw [← encodeGrid_eq] at h2
    rw [h2]
    have hz : (DiscCount.mk 0 0 0).get v = 0 := by
      unfold DiscCount.get; rcases hv with rfl | rfl | rfl <;> simp
    simp only [hz, zero_add]
    unfold cellCount
    congr 1
    apply List.countP_congr
    intro p hp
    rw [getCell_encodeGrid g hg p ((mem_allCells p).1 hp)]
  refine ⟨validBoard_encodeGrid g hg, ?_, ?_, ?_⟩
  · exact hcount 0 (Or.inl rfl)
  · exact hcount 1 (Or.inr (Or.inl rfl))
  · exact hcount 2 (Or.inr (Or.inr rfl))

/-- The word is a value of `int64_t`. -/
theorem ofBits_range (n : Nat) :
    -9223372036854775808 ≤ ofBits 64 n ∧ ofBits 64 n < 9223372036854775808 := by
  unfold ofBits
  have h : n % 2 ^ 64 < 2 ^ 64 := Nat.mod_lt _ (by norm_num)
  split <;> rename_i hlt <;> norm_num at hlt h ⊢ <;> omega

theorem orCell_range (b : Board) (p : Point) (v : Int)
    (h0 : -9223372036854775808 ≤ b.w0 ∧ b.w0 < 9223372036854775808)
    (h1 : -9223372036854775808 ≤ b.w1 ∧ b.w1 < 9223372036854775808) :
    (-9223372036854775808 ≤ (orCell b p v).w0 ∧ (orCell b p v).w0 < 9223372036854775808) ∧
    (-9223372036854775808 ≤ (orCell b p v).w1 ∧ (orCell b p v).w1 < 9223372036854775808) := by
  unfold orCell Board.setWord bitOr
  split
  · exact ⟨ofBits_range _, h1⟩
  · exact ⟨h0, ofBits_range _⟩

theorem encodeGrid_range (g : Grid) :
    (-9223372036854775808 ≤ (encodeGrid g).1.w0 ∧ (encodeGrid g).1.w0 < 9223372036854775808) ∧
    (-9223372036854775808 ≤ (encodeGrid g).1.w1 ∧ (encodeGrid g).1.w1 < 9223372036854775808) := by
  rw [encodeGrid_eq]
  have key : ∀ (l : List Point) (st : Board × DiscCount),
      ((-9223372036854775808 ≤ st.1.w0 ∧ st.1.w0 < 9223372036854775808) ∧
        (-9223372036854775808 ≤ st.1.w1 ∧ st.1.w1 < 9223372036854775808)) →
      ((-9223372036854775808 ≤
          (l.foldl (fun st p => encodeCell g p.x.toNat p.y.toNat st) st).1.w0 ∧
        (l.foldl (fun st p => encodeCell g p.x.toNat p.y.toNat st) st).1.w0 <
          9223372036854775808) ∧
       (-9223372036854775808 ≤
          (l.foldl (fun st p => encodeCell g p.x.toNat p.y.toNat st) st).1.w1 ∧
        (l.foldl (fun st p => encodeCell g p.x.toNat p.y.toNat st) st).1.w1 <
          9223372036854775808)) := by
    intro l
    induction l with
    | nil => intro st h; exact h
    | cons p l ih =>
      intro st h
      rw [List.foldl_cons]
      apply ih
      exact orCell_range st.1 _ _ h.1 h.2
  exact key allCells _ (by norm_num)

/-- A word whose top 2-bit field holds 2 or 3 is negative: the field covers the sign bit. -/
theorem top_field_sign (w : Int) (h0 : -9223372036854775808 ≤ w) (h1 : w < 9223372036854775808)
    (h : cellOf w 31 = 2) : w < 0 := by
  rw [cellOf_eq_digit w 31 (by norm_num)] at h
  unfold digit toBits at h
  have e1 : ∀ x : Nat, x &&& 3 = x % 4 := fun x => Nat.and_pow_two_sub_one_eq_mod x 2
  rw [e1, Nat.shiftRight_eq_div_pow] at h
  norm_num at h
  omega

/-! ## The flip loops -/

theorem flipBack_ray (cp : Int) (dest dir : Point) (hd : isStep dir) :
    ∀ (k n : Nat) (st : Board × DiscCount), k < n →
      flipBack n cp dest dir st (ray dest dir k) = some (flipRun cp dest dir k st) := by
  intro k
  induction k with
  | zero =>
    intro n st hn
    obtain ⟨n, rfl⟩ : ∃ m, n = m + 1 := ⟨n - 1, by omega⟩
    unfold flipBack flipRun
    rw [ray_zero]; simp
  | succ k ih =>
    intro n st hn
    obtain ⟨n, rfl⟩ : ∃ m, n = m + 1 := ⟨n - 1, by omega⟩
    unfold flipBack flipRun
    have hne : (ray dest dir (k + 1) != dest) = true := by
      simp only [bne_iff_ne, ne_eq]; exact ray_ne_start hd (k + 1) (by omega)
    rw [if_pos hne, ray_succ_sub]
    exact ih n _ (by omega)

theorem rolloutFlipBack_eq (cp : Int) (dest dir : Point) : ∀ (n : Nat) (st : Board × DiscCount)
    (p : Point), rolloutFlipBack n cp dest dir st p = flipBack n cp dest dir st p := by
  intro n
  induction n with
  | zero => intro st p; rfl
  | succ n ih =>
    intro st p
    unfold rolloutFlipBack flipBack
    split
    · rw [ih]
    · rfl

theorem flipWalk_eq (nb : Board) (pl cp : Int) (dest dir : Point) (st : Board × DiscCount) :
    ∀ (n : Nat) (p : Point),
      flipWalk n nb pl cp dest dir st p =
        (firstStop (fun v => v == 3 - pl) n nb p dir).bind fun r =>
          match r with
          | none => some st
          | some m => flipBack (SIZE + 1) cp dest dir st (ray p dir m - dir) := by
  intro n
  induction n with
  | zero => intro p; rfl
  | succ n ih =>
    intro p
    unfold flipWalk firstStop
    split
    · split
      · simp only [Option.some_bind, ray_zero]
      · rw [ih]
        cases firstStop (fun v => v == 3 - pl) n nb (p + dir) dir with
        | none => simp only [Option.map_none', Option.none_bind]
        | some r =>
          cases r with
          | none => simp only [Option.map_some', Option.map_none', Option.some_bind]
          | some m => simp only [Option.map_some', Option.some_bind, ray_succ]
    · simp only [Option.some_bind]

theorem rolloutFlipWalk_eq (pl : Int) (dest dir : Point) (st : Board × DiscCount) :
    ∀ (n : Nat) (p : Point),
      rolloutFlipWalk n pl dest dir st p = flipWalk n st.1 pl pl dest dir st p := by
  intro n
  induction n with
  | zero => intro p; rfl
  | succ n ih =>
    intro p
    unfold rolloutFlipWalk flipWalk
    split
    · split
      · rw [rolloutFlipBack_eq]
      · rw [ih]
    · rfl

/-- The flip in one direction, when the walk stops at step `m` after the adjacent cell. -/
theorem flipWalk_stop (nb : Board) (pl cp : Int) (dest dir : Point) (st : Board × DiscCount)
    (hd : isStep dir) (hdest : onBoard dest) (m : Nat)
    (hm : StopAt (fun v => v == 3 - pl) nb (dest + dir) dir m) :
    flipWalk (SIZE + 1) nb pl cp dest dir st (dest + dir) = some (flipRun cp dest dir m st) := by
  rw [flipWalk_eq]
  have hlt := stopAt_lt hd hm
  have h := (firstStop_some (fun v => v == 3 - pl) nb dir hd (SIZE + 1) (dest + dir) m
    (near_add hdest hd)).2 ⟨by unfold SIZE; omega, hm⟩
  rw [h]
  simp only [Option.some_bind]
  have e : ray (dest + dir) dir m - dir = ray dest dir m := by
    rw [← ray_succ, ray_succ_sub]
  rw [e]
  exact flipBack_ray cp dest dir hd m (SIZE + 1) st (by unfold SIZE; omega)

/-- The flip in one direction, when the walk does not reach a disc of the mover. -/
theorem flipWalk_nostop (nb : Board) (pl cp : Int) (dest dir : Point) (st : Board × DiscCount)
    (hd : isStep dir) (hdest : onBoard dest)
    (hm : ¬ ∃ m, StopAt (fun v => v == 3 - pl) nb (dest + dir) dir m) :
    flipWalk (SIZE + 1) nb pl cp dest dir st (dest + dir) = some st := by
  rw [flipWalk_eq]
  rcases firstStop_spec (fun v => v == 3 - pl) nb (dest + dir) dir hd (near_add hdest hd) with
    ⟨m, h, _⟩ | ⟨_, h⟩
  · exact absurd ⟨m, h⟩ hm
  · rw [h]; rfl

/-- With `SIZE + 1` units of fuel the flip walk of `expansion` returns. -/
theorem flipWalk_fuel (nb : Board) (pl cp : Int) (dest dir : Point) (st : Board × DiscCount)
    (hd : isStep dir) (hdest : onBoard dest) :
    ∃ r, flipWalk (SIZE + 1) nb pl cp dest dir st (dest + dir) = some r := by
  by_cases h : ∃ m, StopAt (fun v => v == 3 - pl) nb (dest + dir) dir m
  · obtain ⟨m, hm⟩ := h
    exact ⟨_, flipWalk_stop nb pl cp dest dir st hd hdest m hm⟩
  · exact ⟨_, flipWalk_nostop nb pl cp dest dir st hd hdest h⟩

theorem flipRun_cells (cp : Int) (dest dir : Point) (hd : isStep dir) :
    ∀ (k : Nat) (st : Board × DiscCount), (∀ t, 1 ≤ t → t ≤ k → onBoard (ray dest dir t)) →
      (∀ t, 1 ≤ t → t ≤ k →
        getCell (flipRun cp dest dir k st).1 (ray dest dir t) =
          3 - getCell st.1 (ray dest dir t)) ∧
      (∀ q, onBoard q → (∀ t, 1 ≤ t → t ≤ k → q ≠ ray dest dir t) →
        getCell (flipRun cp dest dir k st).1 q = getCell st.1 q) := by
  intro k
  induction k with
  | zero =>
    intro st _
    exact ⟨fun t h1 h2 => by omega, fun q _ _ => rfl⟩
  | succ k ih =>
    intro st hon
    have hk1 := hon (k + 1) (by omega) (le_refl _)
    obtain ⟨ih1, ih2⟩ := ih (xorCell st.1 (ray dest dir (k + 1)),
      (st.2.add (3 - cp) 1).add cp (-1)) (fun t h1 h2 => hon t h1 (by omega))
    constructor
    · intro t h1 h2
      unfold flipRun
      rcases Nat.lt_or_ge t (k + 1) with h | h
      · rw [ih1 t h1 (by omega)]
        simp only
        rw [getCell_xorCell st.1 hk1 (hon t h1 h2)]
        have : ray dest dir t ≠ ray dest dir (k + 1) := fun e => by
          have := ray_inj hd e; omega
        rw [if_neg this]
      · have : t = k + 1 := by omega
        subst this
        rw [ih2 _ hk1 (fun t h1 h2 e => by have := ray_inj hd e; omega)]
        simp only
        rw [getCell_xorCell st.1 hk1 hk1, if_pos rfl]
    · intro q hq hne
      unfold flipRun
      rw [ih2 q hq (fun t h1 h2 => hne t h1 (by omega))]
      simp only
      rw [getCell_xorCell st.1 hk1 hq, if_neg (hne (k + 1) (by omega) (le_refl _))]

/-! ## Counting cells -/

theorem countP_update {α : Type} [DecidableEq α] (f f' : α → Bool) (p : α) :
    ∀ (l : List α), l.Nodup → p ∈ l → (∀ q ∈ l, q ≠ p → f' q = f q) →
      l.countP f' + (if f p then 1 else 0) = l.countP f + (if f' p then 1 else 0) := by
  intro l
  induction l with
  | nil => intro _ h _; simp at h
  | cons a l ih =>
    intro hnd hp hag
    rw [List.nodup_cons] at hnd
    rw [List.countP_cons, List.countP_cons]
    by_cases hap : a = p
    · subst hap
      have hrest : l.countP f' = l.countP f := by
        apply List.countP_congr
        intro q hq
        have : q ≠ a := fun e => hnd.1 (e ▸ hq)
        rw [hag q (List.mem_cons_of_mem _ hq) this]
      rw [hrest]
      cases f a <;> cases f' a <;> simp
    · have hp' : p ∈ l := by
        rcases List.mem_cons.1 hp with h | h
        · exact absurd h.symm hap
        · exact h
      have := ih hnd.2 hp' (fun q hq hne => hag q (List.mem_cons_of_mem _ hq) hne)
      rw [hag a (List.mem_cons_self _ _) hap]
      omega

/-- Changing one cell of the board moves one unit between the counts of its old and new value. -/
theorem cellCount_update (b b' : Board) (p : Point) (hp : onBoard p)
    (hframe : ∀ q, onBoard q → q ≠ p → getCell b' q = getCell b q) (v : Int) :
    (cellCount b' v : Int) + (if getCell b p = v then 1 else 0) =
      cellCount b v + (if getCell b' p = v then 1 else 0) := by
  unfold cellCount
  have := countP_update (fun q => getCell b q == v) (fun q => getCell b' q == v) p allCells
    allCells_nodup ((mem_allCells p).2 hp) (fun q hq hne => by
      simp only
      rw [hframe q ((mem_allCells q).1 hq) hne])
  simp only [beq_iff_eq] at this
  have h1 : ((if getCell b p = v then (1 : Nat) else 0 : Nat) : Int) =
      if getCell b p = v then 1 else 0 := by split <;> rfl
  have h2 : ((if getCell b' p = v then (1 : Nat) else 0 : Nat) : Int) =
      if getCell b' p = v then 1 else 0 := by split <;> rfl
  rw [← h1, ← h2]
  exact_mod_cast this

/-- Changing the value of one cell from `a` to `a'`, both in `{0, 1, 2}`, and moving one unit from
`disc_count[a]` to `disc_count[a']` preserves well-formedness. -/
theorem wellFormed_update (b b' : Board) (dc : DiscCount) (p : Point) (a a' : Int)
    (hwf : wellFormed b dc) (hp : onBoard p)
    (hframe : ∀ q, onBoard q → q ≠ p → getCell b' q = getCell b q)
    (ha : getCell b p = a) (ha' : getCell b' p = a')
    (hav : a = 0 ∨ a = 1 ∨ a = 2) (hav' : a' = 0 ∨ a' = 1 ∨ a' = 2) :
    wellFormed b' ((dc.add a' 1).add a (-1)) ∧ wellFormed b' ((dc.add a (-1)).add a' 1) := by
  obtain ⟨hv, h0, h1, h2⟩ := hwf
  have hv' : validBoard b' := by
    intro q hq
    have hq' := (mem_allCells q).1 hq
    by_cases hqp : q = p
    · subst hqp; rw [ha']; exact hav'
    · rw [hframe q hq' hqp]; exact hv q hq
  have u0 := cellCount_update b b' p hp hframe 0
  have u1 := cellCount_update b b' p hp hframe 1
  have u2 := cellCount_update b b' p hp hframe 2
  rw [ha, ha'] at u0 u1 u2
  unfold wellFormed
  refine ⟨⟨hv', ?_⟩, ⟨hv', ?_⟩⟩
  · unfold DiscCount.add
    rcases hav with rfl | rfl | rfl <;> rcases hav' with rfl | rfl | rfl <;>
      simp at u0 u1 u2 ⊢ <;> (refine ⟨?_, ?_, ?_⟩ <;> omega)
  · unfold DiscCount.add
    rcases hav with rfl | rfl | rfl <;> rcases hav' with rfl | rfl | rfl <;>
      simp at u0 u1 u2 ⊢ <;> (refine ⟨?_, ?_, ?_⟩ <;> omega)

/-! ## The eight rays from a destination are disjoint -/

theorem dirOf_table :
    dirOf 0 = ⟨-1, -1⟩ ∧ dirOf 1 = ⟨-1, 0⟩ ∧ dirOf 2 = ⟨-1, 1⟩ ∧ dirOf 3 = ⟨0, -1⟩ ∧
    dirOf 4 = ⟨0, 1⟩ ∧ dirOf 5 = ⟨1, -1⟩ ∧ dirOf 6 = ⟨1, 0⟩ ∧ dirOf 7 = ⟨1, 1⟩ := by
  decide

theorem ray_disjoint (dest : Point) (d d' : Nat) (hd : d < 8) (hd' : d' < 8) (hne : d ≠ d')
    (t t' : Nat) (ht : 1 ≤ t) (ht' : 1 ≤ t') :
    ray dest (dirOf d) t ≠ ray dest (dirOf d') t' := by
  intro h
  have hx : dest.x + (t : Int) * (dirOf d).x = dest.x + (t' : Int) * (dirOf d').x :=
    congrArg Point.x h
  have hy : dest.y + (t : Int) * (dirOf d).y = dest.y + (t' : Int) * (dirOf d').y :=
    congrArg Point.y h
  obtain ⟨e0, e1, e2, e3, e4, e5, e6, e7⟩ := dirOf_table
  interval_cases d <;> interval_cases d' <;>
    simp only [e0, e1, e2, e3, e4, e5, e6, e7] at hx hy <;> omega

/-! ## Captured cells and the flip of one direction -/

theorem add_eq_ray_one (p dir : Point) : p + dir = ray p dir 1 := (ray_one p dir).symm

/-- On a valid board, the cells flipped in a direction where the walk stops are the cells captured
in that direction. -/
theorem capturedDir_iff (nb : Board) (hv : validBoard nb) (pl : Int) (hpl : pl = 1 ∨ pl = 2)
    (dest dir q : Point) (hd : isStep dir) (hdest : onBoard dest) :
    CapturedDir nb (3 - pl) dest dir q ↔
      ∃ m, StopAt (fun v => v == 3 - pl) nb (dest + dir) dir m ∧
        ∃ t, 1 ≤ t ∧ t ≤ m ∧ q = ray dest dir t := by
  unfold CapturedDir
  rw [add_eq_ray_one]
  simp only [stopAt_shift, beq_iff_eq, beq_eq_false_iff_ne, ne_eq, EMPTY]
  have e : (3 : Int) - (3 - pl) = pl := by ring
  rw [e]
  constructor
  · rintro ⟨m, _, t, htm, ht1, hq, hon, hc, hrun⟩
    obtain ⟨k, rfl⟩ : ∃ k, m = k + 1 := ⟨m - 1, by omega⟩
    refine ⟨k, ⟨fun s hs => ?_, hon, ?_, hc⟩, t, ht1, by omega, hq⟩
    · have := hrun (s + 1) (by omega) (by omega)
      refine ⟨this.1, ?_, ?_⟩ <;> rw [this.2] <;> omega
    · rw [hc]; omega
  · rintro ⟨m, ⟨hrun, hon, hne0, hc⟩, t, ht1, htm, hq⟩
    have hlt : m + 1 < 0 + 8 := ray_span hd (by rw [ray_zero]; exact hdest) hon
    refine ⟨m + 1, by unfold SIZE; omega, t, by omega, ht1, hq, hon, hc, fun s hs hs1 => ?_⟩
    obtain ⟨k, rfl⟩ : ∃ k, s = k + 1 := ⟨s - 1, by omega⟩
    have := hrun k (by omega)
    refine ⟨this.1, ?_⟩
    have hvc := valid_cell hv this.1
    have h0 := this.2.1
    have hcne := this.2.2
    omega

theorem foldl_range_succ {β : Type} (f : β → Nat → β) (s : β) (d : Nat) :
    (List.range (d + 1)).foldl f s = f ((List.range d).foldl f s) d := by
  rw [List.range_succ, List.foldl_append]; rfl

theorem flipRun_wf (pl : Int) (hpl : pl = 1 ∨ pl = 2) (dest dir : Point) (hd : isStep dir) :
    ∀ (k : Nat) (st : Board × DiscCount), wellFormed st.1 st.2 →
      (∀ t, 1 ≤ t → t ≤ k → onBoard (ray dest dir t) ∧ getCell st.1 (ray dest dir t) = pl) →
      wellFormed (flipRun pl dest dir k st).1 (flipRun pl dest dir k st).2 := by
  intro k
  induction k with
  | zero => intro st h _; exact h
  | succ k ih =>
    intro st hwf hrun
    unfold flipRun
    have hk := hrun (k + 1) (by omega) (le_refl _)
    apply ih
    · simp only
      refine (wellFormed_update st.1 (xorCell st.1 (ray dest dir (k + 1))) st.2
        (ray dest dir (k + 1)) pl (3 - pl) hwf hk.1 (fun q hq hne => ?_) hk.2 ?_
        (by omega) (by omega)).1
      · rw [getCell_xorCell st.1 hk.1 hq, if_neg hne]
      · rw [getCell_xorCell st.1 hk.1 hk.1, if_pos rfl, hk.2]
    · intro t h1 h2
      have ht := hrun t h1 (by omega)
      refine ⟨ht.1, ?_⟩
      simp only
      rw [getCell_xorCell st.1 hk.1 ht.1]
      have : ray dest dir t ≠ ray dest dir (k + 1) := fun e => by
        have := ray_inj hd e; omega
      rw [if_neg this]
      exact ht.2

/-- The flip of one direction of `expansion`, from a child state whose cells on this ray still
hold the values of the parent's board: the captured cells of the direction take the mover's
colour, every other cell keeps its value, and well-formedness is preserved. -/
theorem flipStep_spec (nb : Board) (hv : validBoard nb) (pl : Int) (hpl : pl = 1 ∨ pl = 2)
    (dest : Point) (hdest : onBoard dest) (d : Nat) (hd : d < 8) (st : Board × DiscCount)
    (hray : ∀ t, 1 ≤ t → onBoard (ray dest (dirOf d) t) →
      getCell st.1 (ray dest (dirOf d) t) = getCell nb (ray dest (dirOf d) t)) :
    (∀ q, onBoard q →
      getCell ((flipWalk (SIZE + 1) nb pl pl dest (dirOf d) st (dest + dirOf d)).getD st).1 q =
        if CapturedDir nb (3 - pl) dest (dirOf d) q then 3 - pl else getCell st.1 q) ∧
    (wellFormed st.1 st.2 →
      wellFormed ((flipWalk (SIZE + 1) nb pl pl dest (dirOf d) st (dest + dirOf d)).getD st).1
        ((flipWalk (SIZE + 1) nb pl pl dest (dirOf d) st (dest + dirOf d)).getD st).2) := by
  have hstep := dirOf_isStep d hd
  by_cases hstop : ∃ m, StopAt (fun v => v == 3 - pl) nb (dest + dirOf d) (dirOf d) m
  · obtain ⟨m, hm⟩ := hstop
    rw [flipWalk_stop nb pl pl dest (dirOf d) st hstep hdest m hm]
    simp only [Option.getD_some]
    have hm' := hm
    rw [add_eq_ray_one, stopAt_shift] at hm'
    simp only [beq_iff_eq, beq_eq_false_iff_ne, ne_eq, EMPTY] at hm'
    have hcells : ∀ t, 1 ≤ t → t ≤ m →
        onBoard (ray dest (dirOf d) t) ∧ getCell st.1 (ray dest (dirOf d) t) = pl := by
      intro t h1 h2
      obtain ⟨k, rfl⟩ : ∃ k, t = k + 1 := ⟨t - 1, by omega⟩
      have := hm'.1 k (by omega)
      refine ⟨this.1, ?_⟩
      rw [hray _ h1 this.1]
      have hvc := valid_cell hv this.1
      have h0 := this.2.1
      have hc := this.2.2
      omega
    obtain ⟨hf1, hf2⟩ := flipRun_cells pl dest (dirOf d) hstep m st (fun t h1 h2 => (hcells t h1 h2).1)
    constructor
    · intro q hq
      by_cases hcap : CapturedDir nb (3 - pl) dest (dirOf d) q
      · rw [if_pos hcap]
        obtain ⟨m2, hm2, t, h1, h2, rfl⟩ :=
          (capturedDir_iff nb hv pl hpl dest (dirOf d) q hstep hdest).1 hcap
        have := stopAt_unique hm hm2
        subst this
        rw [hf1 t h1 h2, (hcells t h1 h2).2]
      · rw [if_neg hcap]
        apply hf2 q hq
        intro t h1 h2 e
        exact hcap ((capturedDir_iff nb hv pl hpl dest (dirOf d) q hstep hdest).2
          ⟨m, hm, t, h1, h2, e⟩)
    · intro hwf
      exact flipRun_wf pl hpl dest (dirOf d) hstep m st hwf hcells
  · rw [flipWalk_nostop nb pl pl dest (dirOf d) st hstep hdest hstop]
    simp only [Option.getD_some]
    refine ⟨fun q _ => ?_, fun h => h⟩
    have : ¬ CapturedDir nb (3 - pl) dest (dirOf d) q := by
      intro hcap
      obtain ⟨m2, hm2, _⟩ := (capturedDir_iff nb hv pl hpl dest (dirOf d) q hstep hdest).1 hcap
      exact hstop ⟨m2, hm2⟩
    rw [if_neg this]

theorem capturedDir_on_ray {b : Board} {c : Int} {dest dir q : Point}
    (h : CapturedDir b c dest dir q) : ∃ t, 1 ≤ t ∧ q = ray dest dir t := by
  obtain ⟨m, _, t, _, h1, hq, _⟩ := h
  exact ⟨t, h1, hq⟩

/-- The direction loop of the flip of `expansion`, run over the first `d` directions. -/
theorem flipUpTo_spec (nb : Board) (hv : validBoard nb) (pl : Int) (hpl : pl = 1 ∨ pl = 2)
    (dest : Point) (hdest : onBoard dest) (dc : DiscCount) :
    ∀ d, d ≤ 8 →
      (∀ q, onBoard q →
        getCell ((List.range d).foldl (fun st d =>
          (flipWalk (SIZE + 1) nb pl pl dest (dirOf d) st (dest + dirOf d)).getD st) (nb, dc)).1 q =
          if (∃ d' < d, CapturedDir nb (3 - pl) dest (dirOf d') q) then 3 - pl
          else getCell nb q) ∧
      (wellFormed nb dc →
        wellFormed ((List.range d).foldl (fun st d =>
          (flipWalk (SIZE + 1) nb pl pl dest (dirOf d) st (dest + dirOf d)).getD st) (nb, dc)).1
          ((List.range d).foldl (fun st d =>
          (flipWalk (SIZE + 1) nb pl pl dest (dirOf d) st (dest + dirOf d)).getD st) (nb, dc)).2) := by
  intro d
  induction d with
  | zero =>
    intro _
    refine ⟨fun q _ => ?_, fun h => h⟩
    have : ¬ ∃ d' < 0, CapturedDir nb (3 - pl) dest (dirOf d') q := by
      rintro ⟨d', h, _⟩; omega
    rw [if_neg this]; rfl
  | succ d ih =>
    intro hd
    obtain ⟨ih1, ih2⟩ := ih (by omega)
    rw [foldl_range_succ]
    generalize hst : (List.range d).foldl (fun st d =>
      (flipWalk (SIZE + 1) nb pl pl dest (dirOf d) st (dest + dirOf d)).getD st) (nb, dc) = st
      at ih1 ih2
    have hray : ∀ t, 1 ≤ t → onBoard (ray dest (dirOf d) t) →
        getCell st.1 (ray dest (dirOf d) t) = getCell nb (ray dest (dirOf d) t) := by
      intro t h1 hon
      rw [ih1 _ hon]
      have : ¬ ∃ d' < d, CapturedDir nb (3 - pl) dest (dirOf d') (ray dest (dirOf d) t) := by
        rintro ⟨d', hd', hcap⟩
        obtain ⟨t', ht', e⟩ := capturedDir_on_ray hcap
        exact ray_disjoint dest d d' (by omega) (by omega) (by omega) t t' h1 ht' e
      rw [if_neg this]
    obtain ⟨s1, s2⟩ := flipStep_spec nb hv pl hpl dest hdest d (by omega) st hray
    refine ⟨fun q hq => ?_, fun hwf => s2 (ih2 hwf)⟩
    rw [s1 q hq, ih1 q hq]
    by_cases hcap : CapturedDir nb (3 - pl) dest (dirOf d) q
    · have : ∃ d' < d + 1, CapturedDir nb (3 - pl) dest (dirOf d') q := ⟨d, by omega, hcap⟩
      rw [if_pos hcap, if_pos this]
    · rw [if_neg hcap]
      by_cases hprev : ∃ d' < d, CapturedDir nb (3 - pl) dest (dirOf d') q
      · have : ∃ d' < d + 1, CapturedDir nb (3 - pl) dest (dirOf d') q := by
          obtain ⟨d', h1, h2⟩ := hprev; exact ⟨d', by omega, h2⟩
        rw [if_pos hprev, if_pos this]
      · have : ¬ ∃ d' < d + 1, CapturedDir nb (3 - pl) dest (dirOf d') q := by
          rintro ⟨d', h1, h2⟩
          rcases Nat.lt_or_ge d' d with h | h
          · exact hprev ⟨d', h, h2⟩
          · have : d' = d := by omega
            subst this; exact hcap h2
        rw [if_neg hprev, if_neg this]

/-- The child built by `expansion` for a destination `dest`: its cells. -/
theorem moveChild_cells (node : Node) (self : Nat) (dest : Point)
    (hv : validBoard node.board) (hpl : node.player = 1 ∨ node.player = 2)
    (hdest : onBoard dest) (q : Point) (hq : onBoard q) :
    getCell (moveChild node self dest).board q =
      if q = dest then 3 - node.player
      else if Captured node.board (3 - node.player) dest q then 3 - node.player
      else getCell node.board q := by
  unfold moveChild placeDisc flipAll Node.copy
  simp only
  rw [getCell_place _ _ hdest hq (by omega) (by omega)]
  by_cases hqd : q = dest
  · rw [if_pos hqd, if_pos hqd]
  · rw [if_neg hqd, if_neg hqd]
    exact (flipUpTo_spec node.board hv node.player hpl dest hdest node.disc_count 8
      (le_refl _)).1 q hq

theorem dest_not_captured (b : Board) (c : Int) (dest : Point) : ¬ Captured b c dest dest := by
  rintro ⟨d, hd, hcap⟩
  obtain ⟨t, ht, e⟩ := capturedDir_on_ray hcap
  exact ray_ne_start (dirOf_isStep d hd) t ht e.symm

/-- The child built by `expansion` for an empty destination is well formed when the parent is. -/
theorem moveChild_wf (node : Node) (self : Nat) (dest : Point)
    (hwf : wellFormed node.board node.disc_count) (hpl : node.player = 1 ∨ node.player = 2)
    (hdest : onBoard dest) (hempty : getCell node.board dest = EMPTY) :
    wellFormed (moveChild node self dest).board (moveChild node self dest).disc_count := by
  have hv := hwf.1
  obtain ⟨f1, f2⟩ := flipUpTo_spec node.board hv node.player hpl dest hdest node.disc_count 8
    (le_refl _)
  have hflip := f2 hwf
  unfold moveChild placeDisc flipAll Node.copy
  simp only
  generalize hst : (List.range 8).foldl (fun st d =>
      (flipWalk (SIZE + 1) node.board node.player node.player dest (dirOf d) st
        (dest + dirOf d)).getD st) (node.board, node.disc_count) = st at f1 hflip
  have hd0 : getCell st.1 dest = 0 := by
    rw [f1 dest hdest]
    have : ¬ ∃ d' < 8, CapturedDir node.board (3 - node.player) dest (dirOf d') dest :=
      dest_not_captured node.board (3 - node.player) dest
    rw [if_neg this]
    exact hempty
  refine (wellFormed_update st.1 (orCell (clearCell st.1 dest) dest (3 - node.player)) st.2 dest
    0 (3 - node.player) hflip hdest (fun q hq hne => ?_) hd0 ?_ (Or.inl rfl) (by omega)).2
  · rw [getCell_place _ _ hdest hq (by omega) (by omega), if_neg hne]
  · rw [getCell_place _ _ hdest hdest (by omega) (by omega), if_pos rfl]

/-! ## Expansion on the heap -/

theorem expansionScan_fst (b : Board) (pl : Int) (s : Option Nat × Point)
    (hs : s ∈ expansionScan b pl) : s.1 = none := by
  rw [expansionScan_eq] at hs
  simp only [List.mem_map] at hs
  obtain ⟨p, _, rfl⟩ := hs
  rfl

theorem moveChild_children (node : Node) (C : List (Option Nat × Point)) (self : Nat)
    (dest : Point) : moveChild { node with children := C } self dest = moveChild node self dest :=
  rfl

/-- The loop of `expansion` over the child slots, after `k` iterations. -/
theorem buildChild_loop (h : Heap) (n : Nat) (node : Node) (hn : h[n]? = some node)
    (scanned : List (Option Nat × Point)) (hnone : ∀ s ∈ scanned, s.1 = none) :
    ∀ k, k ≤ scanned.length →
      ∃ C : List (Option Nat × Point),
        ((List.range k).foldl (fun h idx => buildChild h n idx)
          (h.set n { node with children := scanned }))[n]? = some { node with children := C } ∧
        ((List.range k).foldl (fun h idx => buildChild h n idx)
          (h.set n { node with children := scanned })).length = h.length + k ∧
        C.length = scanned.length ∧
        (∀ a, a < h.length → a ≠ n →
          ((List.range k).foldl (fun h idx => buildChild h n idx)
            (h.set n { node with children := scanned }))[a]? = h[a]?) ∧
        (∀ i, k ≤ i → C[i]? = scanned[i]?) ∧
        (∀ i s, i < k → scanned[i]? = some s →
          C[i]? = some (some (h.length + i), s.2) ∧
          ((List.range k).foldl (fun h idx => buildChild h n idx)
            (h.set n { node with children := scanned }))[h.length + i]? =
              some (moveChild node n s.2)) := by
  have hnlt : n < h.length := by
    rcases Nat.lt_or_ge n h.length with hlt | hge
    · exact hlt
    · rw [List.getElem?_eq_none hge] at hn; simp at hn
  intro k
  induction k with
  | zero =>
    intro _
    refine ⟨scanned, ?_, ?_, rfl, ?_, fun i _ => rfl, fun i s hi _ => by omega⟩
    · simp [List.getElem?_set, hnlt]
    · simp
    · intro a ha hne
      simp [List.getElem?_set, Ne.symm hne]
  | succ k ih =>
    intro hk
    obtain ⟨C, hC, hlen, hClen, hold, hrest, hdone⟩ := ih (by omega)
    rw [foldl_range_succ]
    generalize (List.range k).foldl (fun h idx => buildChild h n idx)
      (h.set n { node with children := scanned }) = H at hC hlen hold hdone
    obtain ⟨s, hsk⟩ : ∃ s, scanned[k]? = some s :=
      ⟨scanned[k], List.getElem?_eq_getElem (by omega)⟩
    have hs1 : s.1 = none := hnone s (List.getElem?_mem hsk)
    obtain ⟨s1, dest⟩ := s
    simp only at hs1
    subst hs1
    have hCk : C[k]? = some (none, dest) := by rw [hrest k (le_refl _), hsk]
    have hb : buildChild H n k =
        (H ++ [moveChild node n dest]).set n
          { node with children := C.set k (some H.length, dest) } := by
      unfold buildChild
      rw [hC]
      simp only [hCk]
      rfl
    rw [hb]
    have hnH : n < H.length := by omega
    refine ⟨C.set k (some H.length, dest), ?_, ?_, ?_, ?_, ?_, ?_⟩
    · rw [List.getElem?_set, if_pos rfl, if_pos (by rw [List.length_append]; omega)]
    · rw [List.length_set, List.length_append, hlen]; rfl
    · rw [List.length_set, hClen]
    · intro a ha hne
      rw [List.getElem?_set, if_neg (Ne.symm hne), List.getElem?_append_left (by omega)]
      exact hold a ha hne
    · intro i hi
      rw [List.getElem?_set, if_neg (by omega)]
      exact hrest i (by omega)
    · intro i s hi hsi
      rcases Nat.lt_or_ge i k with hlt | hge
      · obtain ⟨h1, h2⟩ := hdone i s hlt hsi
        constructor
        · rw [List.getElem?_set, if_neg (by omega)]
          exact h1
        · rw [List.getElem?_set, if_neg (by omega), List.getElem?_append_left (by omega)]
          exact h2
      · have : i = k := by omega
        subst this
        rw [hsk] at hsi
        injection hsi with hsi
        subst hsi
        constructor
        · rw [List.getElem?_set, if_pos rfl, if_pos (by omega), hlen]
        · rw [List.getElem?_set, if_neg (by omega), ← hlen,
            List.getElem?_append_right (le_refl _), Nat.sub_self]
          rfl

theorem expansion_of_children (h : Heap) (n : Nat) (node : Node) (hn : h[n]? = some node)
    (hc : node.children ≠ []) : expansion h n = h := by
  unfold expansion
  rw [hn]
  simp only
  have : (!node.children.isEmpty) = true := by
    cases hch : node.children with
    | nil => exact absurd hch hc
    | cons a l => rfl
  rw [if_pos this]

theorem expansion_of_dangling (h : Heap) (n : Nat) (hn : h[n]? = none) : expansion h n = h := by
  unfold expansion
  rw [hn]

theorem expansion_pass (h : Heap) (n : Nat) (node : Node) (hn : h[n]? = some node)
    (hc : node.children = []) (hs : expansionScan node.board node.player = []) :
    expansion h n =
      (h ++ [passChild node n]).set n { node with children := [(some h.length, ⟨-1, -1⟩)] } := by
  unfold expansion
  rw [hn]
  simp only [hc, hs, List.isEmpty_nil, Bool.not_true, Bool.false_eq_true, if_false, if_true]

theorem expansion_move (h : Heap) (n : Nat) (node : Node) (hn : h[n]? = some node)
    (hc : node.children = []) (hs : expansionScan node.board node.player ≠ []) :
    expansion h n =
      (List.range (expansionScan node.board node.player).length).foldl
        (fun h idx => buildChild h n idx)
        (h.set n { node with children := expansionScan node.board node.player }) := by
  unfold expansion
  rw [hn]
  have : (expansionScan node.board node.player).isEmpty = false := by
    cases hsc : expansionScan node.board node.player with
    | nil => exact absurd hsc hs
    | cons a l => rfl
  simp only [hc, this, List.isEmpty_nil, Bool.not_true, Bool.false_eq_true, if_false]

/-- The heap after `expansion` on a childless node whose mover has a legal destination: one child
per scanned slot, allocated in order after the old nodes, which are unchanged. -/
theorem expansion_move_spec (h : Heap) (n : Nat) (node : Node) (hn : h[n]? = some node)
    (hc : node.children = []) (hs : expansionScan node.board node.player ≠ []) :
    ∃ C : List (Option Nat × Point),
      (expansion h n)[n]? = some { node with children := C } ∧
      (expansion h n).length = h.length + (expansionScan node.board node.player).length ∧
      C.length = (expansionScan node.board node.player).length ∧
      (∀ a, a < h.length → a ≠ n → (expansion h n)[a]? = h[a]?) ∧
      (∀ i s, (expansionScan node.board node.player)[i]? = some s →
        C[i]? = some (some (h.length + i), s.2) ∧
        (expansion h n)[h.length + i]? = some (moveChild node n s.2)) := by
  rw [expansion_move h n node hn hc hs]
  obtain ⟨C, h1, h2, h3, h4, _, h6⟩ := buildChild_loop h n node hn
    (expansionScan node.board node.player) (expansionScan_fst node.board node.player)
    (expansionScan node.board node.player).length (le_refl _)
  refine ⟨C, h1, h2, h3, h4, fun i s hi => h6 i s ?_ hi⟩
  rcases Nat.lt_or_ge i (expansionScan node.board node.player).length with hlt | hge
  · exact hlt
  · rw [List.getElem?_eq_none hge] at hi; simp at hi

theorem heap_lt_of_some {h : Heap} {n : Nat} {node : Node} (hn : h[n]? = some node) :
    n < h.length := by
  rcases Nat.lt_or_ge n h.length with hlt | hge
  · exact hlt
  · rw [List.getElem?_eq_none hge] at hn; simp at hn

/-- The heap after `expansion` on a childless node whose mover has no legal destination. -/
theorem expansion_pass_spec (h : Heap) (n : Nat) (node : Node) (hn : h[n]? = some node)
    (hc : node.children = []) (hs : expansionScan node.board node.player = []) :
    (expansion h n)[n]? = some { node with children := [(some h.length, ⟨-1, -1⟩)] } ∧
    (expansion h n).length = h.length + 1 ∧
    (∀ a, a < h.length → a ≠ n → (expansion h n)[a]? = h[a]?) ∧
    (expansion h n)[h.length]? = some (passChild node n) := by
  have hlt := heap_lt_of_some hn
  rw [expansion_pass h n node hn hc hs]
  refine ⟨?_, ?_, ?_, ?_⟩
  · rw [List.getElem?_set, if_pos rfl, if_pos (by rw [List.length_append]; omega)]
  · rw [List.length_set, List.length_append]; rfl
  · intro a ha hne
    rw [List.getElem?_set, if_neg (Ne.symm hne), List.getElem?_append_left ha]
  · rw [List.getElem?_set, if_neg (by omega), List.getElem?_append_right (le_refl _),
      Nat.sub_self]
    rfl

/-! ## Legal destinations force the colours -/

theorem qualifies_colour (b : Board) (hv : validBoard b) (c : Int) (p dir : Point)
    (h : Qualifies b c p dir) : c = 1 ∨ c = 2 := by
  obtain ⟨hon1, hc1, m, _, hm2, honm, hcm, hrun⟩ := h
  have h1 := valid_cell hv hon1
  have h2 := valid_cell hv honm
  have h3 := (hrun 1 (by omega) (le_refl _)).2.1
  unfold EMPTY at h3
  omega

theorem legal_colour (b : Board) (hv : validBoard b) (c : Int) (p : Point)
    (h : LegalDest b c p) : c = 1 ∨ c = 2 := by
  obtain ⟨_, d, _, hq⟩ := h
  exact qualifies_colour b hv c p (dirOf d) hq

theorem mem_legalDestinations (b : Board) (c : Int) (p : Point) :
    p ∈ legalDestinations b c ↔ onBoard p ∧ LegalDest b c p := by
  unfold legalDestinations
  rw [List.mem_filter, mem_allCells]
  simp

/-- A slot of the scan of `expansion` on a valid board: the destination is an empty cell of the
board and the player of the node is one of the two colours. -/
theorem scan_slot (b : Board) (hv : validBoard b) (pl : Int) (i : Nat) (s : Option Nat × Point)
    (hs : (expansionScan b pl)[i]? = some s) :
    onBoard s.2 ∧ getCell b s.2 = EMPTY ∧ (pl = 1 ∨ pl = 2) ∧ LegalDest b (3 - pl) s.2 := by
  have hmem := List.getElem?_mem hs
  rw [expansionScan_legal b hv pl, List.mem_map] at hmem
  obtain ⟨p, hp, rfl⟩ := hmem
  obtain ⟨hon, hl⟩ := (mem_legalDestinations b (3 - pl) p).1 hp
  have hc := legal_colour b hv (3 - pl) p hl
  exact ⟨hon, hl.1, by omega, hl⟩

/-! ## Backpropagation -/

theorem climb_zero_eq {h : Heap} {n r : Nat} (hc : climb 0 h n = some r) :
    r = n ∧ ∃ node, h[n]? = some node := by
  unfold climb at hc
  cases hn : h[n]? with
  | none => rw [hn] at hc; simp at hc
  | some node =>
    rw [hn] at hc
    simp at hc
    exact ⟨hc.symm, node, rfl⟩

theorem climb_succ_eq {h : Heap} {n r k : Nat} (hc : climb (k + 1) h n = some r) :
    ∃ node p, h[n]? = some node ∧ node.parent = some p ∧ climb k h p = some r := by
  unfold climb at hc
  cases hn : h[n]? with
  | none => rw [hn] at hc; simp at hc
  | some node =>
    rw [hn] at hc
    simp only at hc
    cases hp : node.parent with
    | none => rw [hp] at hc; simp at hc
    | some p =>
      rw [hp] at hc
      exact ⟨node, p, rfl, hp, hc⟩

theorem climb_succ_of {h : Heap} {n p k : Nat} {node : Node} (hn : h[n]? = some node)
    (hp : node.parent = some p) : climb (k + 1) h n = climb k h p := by
  conv => lhs; unfold climb
  rw [hn]
  simp only [hp]

theorem climb_add (h : Heap) : ∀ (j k n : Nat),
    climb (j + k) h n = (climb j h n).bind (climb k h) := by
  intro j
  induction j with
  | zero =>
    intro k n
    rw [Nat.zero_add]
    cases hn : h[n]? with
    | none =>
      have h0 : climb 0 h n = none := by unfold climb; rw [hn]; rfl
      rw [h0]
      cases k with
      | zero => exact h0
      | succ k => unfold climb; rw [hn]; rfl
    | some node =>
      have h0 : climb 0 h n = some n := by unfold climb; rw [hn]; rfl
      rw [h0]; rfl
  | succ j ih =>
    intro k n
    have e : j + 1 + k = (j + k) + 1 := by omega
    rw [e]
    cases hn : h[n]? with
    | none =>
      have h1 : climb (j + k + 1) h n = none := by unfold climb; rw [hn]
      have h2 : climb (j + 1) h n = none := by unfold climb; rw [hn]
      rw [h1, h2]; rfl
    | some node =>
      cases hp : node.parent with
      | none =>
        have h1 : climb (j + k + 1) h n = none := by unfold climb; rw [hn]; simp only [hp]
        have h2 : climb (j + 1) h n = none := by unfold climb; rw [hn]; simp only [hp]
        rw [h1, h2]; rfl
      | some p =>
        rw [climb_succ_of hn hp, climb_succ_of hn hp]
        exact ih k p

theorem depth_unique (h : Heap) : ∀ (d d' n : Nat), atDepth h n d → atDepth h n d' → d = d' := by
  intro d
  induction d with
  | zero =>
    intro d' n ⟨r, node, hc, hr, hp⟩ ⟨r', node', hc', _, _⟩
    obtain ⟨rfl, _⟩ := climb_zero_eq hc
    cases d' with
    | zero => rfl
    | succ d' =>
      obtain ⟨node2, p, hn2, hp2, _⟩ := climb_succ_eq hc'
      rw [hr] at hn2
      injection hn2 with hn2
      subst hn2
      rw [hp] at hp2
      simp at hp2
  | succ d ih =>
    intro d' n ⟨r, node, hc, hr, hp⟩ ⟨r', node', hc', hr', hp'⟩
    obtain ⟨node1, p, hn1, hp1, hcl⟩ := climb_succ_eq hc
    cases d' with
    | zero =>
      obtain ⟨rfl, _⟩ := climb_zero_eq hc'
      rw [hr'] at hn1
      injection hn1 with hn1
      subst hn1
      rw [hp'] at hp1
      simp at hp1
    | succ d' =>
      obtain ⟨node2, p2, hn2, hp2, hcl2⟩ := climb_succ_eq hc'
      rw [hn1] at hn2
      injection hn2 with hn2
      subst hn2
      rw [hp1] at hp2
      injection hp2 with hp2
      subst hp2
      have := ih d' p ⟨r, node, hcl, hr, hp⟩ ⟨r', node', hcl2, hr', hp'⟩
      omega

/-- Updating the statistics of one node does not change the parent links. -/
theorem climb_set_stats (h : Heap) (a : Nat) (node : Node) (ha : h[a]? = some node)
    (win : Int) : ∀ (k n : Nat), climb k (h.set a (node.addResult win)) n = climb k h n := by
  have hlt := heap_lt_of_some ha
  have hget : ∀ m, (h.set a (node.addResult win))[m]? =
      if a = m then some (node.addResult win) else h[m]? := by
    intro m
    rw [List.getElem?_set]
    simp [hlt]
  have hpar : (node.addResult win).parent = node.parent := rfl
  intro k
  induction k with
  | zero =>
    intro n
    unfold climb
    rw [hget]
    by_cases e : a = n
    · subst e; rw [if_pos rfl, ha]; rfl
    · rw [if_neg e]
  | succ k ih =>
    intro n
    unfold climb
    rw [hget]
    by_cases e : a = n
    · subst e
      rw [if_pos rfl, ha]
      simp only [ih, hpar]
    · rw [if_neg e]
      simp only [ih]

theorem wrapInt_of_range (x : Int) (h0 : -2147483648 ≤ x) (h1 : x < 2147483648) :
    wrapInt x = x := by
  unfold wrapInt ofBits toBits
  have hp : ((2 ^ 32 : Nat) : Int) = 4294967296 := by norm_num
  rw [hp]
  norm_num
  omega

theorem backPropagation_spec : ∀ (d : Nat) (h : Heap) (n : Nat) (win : Int), atDepth h n d →
    -2147483648 < win → win < 2147483648 →
    ∃ h', backPropagation (d + 2) h (some n) win = some h' ∧
      (∀ a, (∀ j, j ≤ d → climb j h n ≠ some a) → h'[a]? = h[a]?) ∧
      (∀ j, j ≤ d → ∀ a node, climb j h n = some a → h[a]? = some node →
        h'[a]? = some (node.addResult ((-1) ^ j * win))) := by
  intro d
  induction d with
  | zero =>
    intro h n win ⟨r, node, hc, hr, hp⟩ _ _
    obtain ⟨rfl, _⟩ := climb_zero_eq hc
    have hlt := heap_lt_of_some hr
    refine ⟨h.set r (node.addResult win), ?_, ?_, ?_⟩
    · unfold backPropagation
      simp only [hr, hp]
      unfold backPropagation
      rfl
    · intro a ha
      have : r ≠ a := fun e => ha 0 (le_refl _) (by rw [hc, e])
      rw [List.getElem?_set, if_neg this]
    · intro j hj a node' hca hna
      have hj0 : j = 0 := by omega
      subst hj0
      rw [hc] at hca
      injection hca with hca
      subst hca
      rw [hr] at hna
      injection hna with hna
      subst hna
      rw [List.getElem?_set, if_pos rfl, if_pos hlt]
      simp
  | succ d ih =>
    intro h n win hdep hlo hhi
    obtain ⟨r, rnode, hc, hr, hp⟩ := hdep
    obtain ⟨node, p, hn, hpar, hcl⟩ := climb_succ_eq hc
    have hlt := heap_lt_of_some hn
    have hneq : r ≠ n := by
      intro e
      subst e
      rw [hr] at hn
      injection hn with hn
      subst hn
      rw [hp] at hpar
      simp at hpar
    have hh1 : ∀ m, m ≠ n → (h.set n (node.addResult win))[m]? = h[m]? := by
      intro m hm
      rw [List.getElem?_set, if_neg (Ne.symm hm)]
    have hclimb := climb_set_stats h n node hn win
    have hdep1 : atDepth (h.set n (node.addResult win)) p d :=
      ⟨r, rnode, by rw [hclimb]; exact hcl, by rw [hh1 r hneq]; exact hr, hp⟩
    obtain ⟨h', hb, hframe, hpath⟩ := ih _ p (-win) hdep1 (by omega) (by omega)
    have hnot : ∀ j, j ≤ d → climb j h p ≠ some n := by
      intro j hj hcj
      have hsplit : climb d h p = (climb j h p).bind (climb (d - j) h) := by
        rw [← climb_add]; congr 1; omega
      rw [hcj, hcl] at hsplit
      have : atDepth h n (d - j) := ⟨r, rnode, hsplit.symm, hr, hp⟩
      have := depth_unique h _ _ n this ⟨r, rnode, hc, hr, hp⟩
      omega
    refine ⟨h', ?_, ?_, ?_⟩
    · have : backPropagation (d + 1 + 2) h (some n) win =
          backPropagation (d + 2) (h.set n (node.addResult win)) (some p) (-win) := by
        conv => lhs; unfold backPropagation
        simp only [hn, hpar]
        rw [wrapInt_of_range (-win) (by omega) (by omega)]
      rw [this]
      exact hb
    · intro a ha
      have han : a ≠ n := by
        intro e
        subst e
        have h0 : climb 0 h a = some a := by unfold climb; rw [hn]; rfl
        exact ha 0 (by omega) h0
      rw [hframe a (fun j hj => by
        rw [hclimb]
        have := ha (j + 1) (by omega)
        rw [climb_succ_of hn hpar] at this
        exact this), hh1 a han]
    · intro j hj a node' hca hna
      cases j with
      | zero =>
        have h0 : climb 0 h n = some n := by unfold climb; rw [hn]; rfl
        rw [h0] at hca
        injection hca with hca
        subst hca
        rw [hn] at hna
        injection hna with hna
        subst hna
        rw [hframe n (fun j hj => by rw [hclimb]; exact hnot j hj), List.getElem?_set,
          if_pos rfl, if_pos hlt]
        simp
      | succ j =>
        rw [climb_succ_of hn hpar] at hca
        have han : a ≠ n := by
          intro e
          subst e
          exact hnot j (by omega) hca
        have := hpath j (by omega) a node' (by rw [hclimb]; exact hca) (by rw [hh1 a han]; exact hna)
        rw [this]
        congr 2
        rw [pow_succ]
        ring

/-! ## Rollout: the inline move rules are those of expansion -/

theorem rolloutDir_eq (b : Board) (pl : Int) (i j d : Nat) :
    rolloutDir b pl i j d = expansionDir b pl i j d := by
  unfold rolloutDir expansionDir
  simp only [rolloutWalk_eq, expansionWalk_eq]

theorem rolloutAvailable_eq_pointAvailable (b : Board) (pl : Int) (i j : Nat) :
    rolloutAvailable b pl i j = pointAvailable b pl i j := by
  rw [rolloutAvailable_eq, pointAvailable_eq]
  simp only [rolloutDir_eq]

theorem rolloutSpots_eq (b : Board) (pl : Int) :
    rolloutSpots b pl =
      allCells.filter fun p =>
        getCell b p == EMPTY && pointAvailable b pl p.x.toNat p.y.toNat := by
  unfold rolloutSpots
  rw [filter_allCells]
  have inner : ∀ (i : Nat) (spots : List Point),
      (List.range SIZE).foldl (fun spots (j : Nat) =>
        if (getCell b ⟨i, j⟩ == EMPTY) = true then
          if rolloutAvailable b pl i j = true then spots ++ [Point.mk i j] else spots
        else spots) spots =
      spots ++ ((List.range SIZE).filter fun (j : Nat) =>
        getCell b ⟨i, j⟩ == EMPTY && pointAvailable b pl i j).map fun (j : Nat) =>
          Point.mk i j := by
    intro i spots
    have := foldl_push (List.range SIZE) (fun (j : Nat) => getCell b ⟨i, j⟩ == EMPTY)
      (fun j => rolloutAvailable b pl i j) (fun (j : Nat) => Point.mk i j) spots
    simp only [rolloutAvailable_eq_pointAvailable] at this ⊢
    exact this
  simp only [inner]
  rw [foldl_rows, List.nil_append]
  simp only [Int.toNat_ofNat]

/-- The list `next_spots` of `rollout` is the list of child coordinates of `expansion`. -/
theorem rolloutSpots_eq_scan (b : Board) (pl : Int) :
    rolloutSpots b pl = (expansionScan b pl).map Prod.snd := by
  rw [rolloutSpots_eq, expansionScan_eq, List.map_map]
  simp [Function.comp]

theorem ray_ray (p dir : Point) (k t : Nat) : ray (ray p dir k) dir t = ray p dir (t + k) := by
  apply point_ext <;> simp [ray] <;> ring

/-- A walk reads only the cells of its ray. -/
theorem firstStop_congr (stop : Int → Bool) (b b' : Board) (dir : Point) (hd : isStep dir) :
    ∀ (n : Nat) (p : Point), nearBoard p →
      (∀ t, onBoard (ray p dir t) → getCell b (ray p dir t) = getCell b' (ray p dir t)) →
      firstStop stop n b p dir = firstStop stop n b' p dir := by
  intro n
  induction n with
  | zero => intro p _ _; rfl
  | succ n ih =>
    intro p hp hag
    unfold firstStop
    by_cases hon : onBoard p
    · have h0 : getCell b p = getCell b' p := by
        have := hag 0 (by rw [ray_zero]; exact hon)
        rwa [ray_zero] at this
      rw [h0, ih (p + dir) (near_add hon hd) (fun t ht => by
        have := hag (t + 1) (by rw [ray_succ]; exact ht)
        rwa [ray_succ] at this)]
    · have : inBoard p = false := by
        rw [← Bool.not_eq_true, inBoard_iff p hp]; exact hon
      simp [this]

theorem flipWalk_congr (nb nb' : Board) (pl cp : Int) (dest dir : Point) (hd : isStep dir)
    (st : Board × DiscCount) (n : Nat) (p : Point) (hp : nearBoard p)
    (hag : ∀ t, onBoard (ray p dir t) → getCell nb (ray p dir t) = getCell nb' (ray p dir t)) :
    flipWalk n nb pl cp dest dir st p = flipWalk n nb' pl cp dest dir st p := by
  rw [flipWalk_eq, flipWalk_eq, firstStop_congr _ nb nb' dir hd n p hp hag]

/-- The direction loop of the flip of `rollout`, which scans the board it is mutating, computes
the same state as the direction loop of `expansion`, which scans the parent's board. -/
theorem rolloutFlip_eq (nb : Board) (hv : validBoard nb) (pl : Int) (hpl : pl = 1 ∨ pl = 2)
    (dest : Point) (hdest : onBoard dest) (dc : DiscCount) :
    ∀ d, d ≤ 8 →
      (List.range d).foldl (fun st d =>
        (rolloutFlipWalk (SIZE + 1) pl dest (dirOf d) st (dest + dirOf d)).getD st) (nb, dc) =
      (List.range d).foldl (fun st d =>
        (flipWalk (SIZE + 1) nb pl pl dest (dirOf d) st (dest + dirOf d)).getD st) (nb, dc) := by
  intro d
  induction d with
  | zero => intro _; simp only [List.range_zero, List.foldl_nil]
  | succ d ih =>
    intro hd
    rw [foldl_range_succ, foldl_range_succ, ih (by omega)]
    have hcells := (flipUpTo_spec nb hv pl hpl dest hdest dc d (by omega)).1
    generalize (List.range d).foldl (fun st d =>
      (flipWalk (SIZE + 1) nb pl pl dest (dirOf d) st (dest + dirOf d)).getD st) (nb, dc) = st
      at hcells
    rw [rolloutFlipWalk_eq]
    have hstep := dirOf_isStep d (by omega)
    rw [flipWalk_congr st.1 nb pl pl dest (dirOf d) hstep st (SIZE + 1) (dest + dirOf d)
      (near_add hdest hstep)]
    intro t hon
    rw [add_eq_ray_one, ray_ray] at hon ⊢
    rw [hcells _ hon]
    have : ¬ ∃ d' < d, CapturedDir nb (3 - pl) dest (dirOf d') (ray dest (dirOf d) (t + 1)) := by
      rintro ⟨d', hd', hcap⟩
      obtain ⟨t', ht', e⟩ := capturedDir_on_ray hcap
      exact ray_disjoint dest d d' (by omega) (by omega) (by omega) (t + 1) t' (by omega) ht' e
    rw [if_neg this]

/-- The move application of `rollout` is the move application of `expansion`. -/
theorem rolloutMove_eq (nb : Board) (hv : validBoard nb) (pl : Int) (hpl : pl = 1 ∨ pl = 2)
    (dest : Point) (hdest : onBoard dest) (dc : DiscCount) :
    rolloutMove pl dest (nb, dc) = placeDisc pl dest (flipAll nb pl pl dest (nb, dc)) := by
  unfold rolloutMove placeDisc flipAll
  simp only
  rw [rolloutFlip_eq nb hv pl hpl dest hdest dc 8 (le_refl _)]

/-! ## The sum of the disc counts -/

theorem countP_three {α : Type} (f : α → Int) : ∀ (l : List α),
    (∀ p ∈ l, f p = 0 ∨ f p = 1 ∨ f p = 2) →
    l.countP (fun p => f p == 0) + l.countP (fun p => f p == 1) + l.countP (fun p => f p == 2) =
      l.length := by
  intro l
  induction l with
  | nil => intro _; rfl
  | cons a l ih =>
    intro hl
    have := ih (fun p hp => hl p (List.mem_cons_of_mem _ hp))
    rw [List.countP_cons, List.countP_cons, List.countP_cons, List.length_cons]
    rcases hl a (List.mem_cons_self _ _) with h | h | h <;> simp [h] <;> omega

theorem allCells_length : allCells.length = 64 := by decide

theorem wellFormed_total (b : Board) (dc : DiscCount) (hwf : wellFormed b dc) :
    dc.total = 64 := by
  obtain ⟨hv, h0, h1, h2⟩ := hwf
  have := countP_three (fun p => getCell b p) allCells hv
  rw [allCells_length] at this
  unfold DiscCount.total
  unfold cellCount at h0 h1 h2
  rw [h0, h1, h2]
  exact_mod_cast this

/-- A move applied to a well-formed scratch state at a slot of the scan leaves it well formed. -/
theorem placeDisc_flipAll_wf (nb : Board) (dc : DiscCount) (pl : Int) (dest : Point)
    (hwf : wellFormed nb dc) (hpl : pl = 1 ∨ pl = 2) (hdest : onBoard dest)
    (hempty : getCell nb dest = EMPTY) :
    wellFormed (placeDisc pl dest (flipAll nb pl pl dest (nb, dc))).1
      (placeDisc pl dest (flipAll nb pl pl dest (nb, dc))).2 :=
  moveChild_wf ⟨0, 0, 0, pl, nb, dc, none, []⟩ 0 dest hwf hpl hdest hempty

theorem scan_mem (b : Board) (hv : validBoard b) (pl : Int) (s : Option Nat × Point)
    (hs : s ∈ expansionScan b pl) :
    onBoard s.2 ∧ getCell b s.2 = EMPTY ∧ (pl = 1 ∨ pl = 2) ∧ LegalDest b (3 - pl) s.2 := by
  obtain ⟨i, hi, hget⟩ := List.getElem_of_mem hs
  exact scan_slot b hv pl i s (by rw [List.getElem?_eq_getElem hi, hget])

theorem rolloutBody_wf (r : Nat) (st : RolloutState)
    (hwf : wellFormed st.curboard st.disc_count) :
    wellFormed (rolloutBody r st).curboard (rolloutBody r st).disc_count := by
  unfold rolloutBody
  simp only
  by_cases hs : (rolloutSpots st.curboard st.player).isEmpty = true
  · simp only [hs, Bool.not_true, Bool.false_eq_true, if_false]
    exact hwf
  · simp only [hs, Bool.not_false, if_true]
    have hne : rolloutSpots st.curboard st.player ≠ [] := by
      intro h0; rw [h0] at hs; simp at hs
    have hlen : 0 < (rolloutSpots st.curboard st.player).length := List.length_pos.2 hne
    have hidx : r % (rolloutSpots st.curboard st.player).length <
        (rolloutSpots st.curboard st.player).length := Nat.mod_lt _ hlen
    have hmem : (rolloutSpots st.curboard st.player).getD
        (r % (rolloutSpots st.curboard st.player).length) ⟨0, 0⟩ ∈
        rolloutSpots st.curboard st.player := by
      rw [List.getD_eq_getElem?_getD, List.getElem?_eq_getElem hidx]
      exact List.getElem_mem _
    generalize (rolloutSpots st.curboard st.player).getD
      (r % (rolloutSpots st.curboard st.player).length) ⟨0, 0⟩ = dest at hmem
    rw [rolloutSpots_eq_scan, List.mem_map] at hmem
    obtain ⟨s, hsm, rfl⟩ := hmem
    obtain ⟨hon, hemp, hpl, _⟩ := scan_mem st.curboard hwf.1 st.player s hsm
    rw [rolloutMove_eq st.curboard hwf.1 st.player hpl s.2 hon st.disc_count]
    exact placeDisc_flipAll_wf st.curboard st.disc_count st.player s.2 hwf hpl hon hemp

theorem rolloutIter_wf : ∀ (rs : List Nat) (st : RolloutState),
    wellFormed st.curboard st.disc_count →
    wellFormed (rolloutIter rs st).curboard (rolloutIter rs st).disc_count := by
  intro rs
  induction rs with
  | nil => intro st h; exact h
  | cons r rs ih =>
    intro st h
    unfold rolloutIter
    split
    · exact ih _ (rolloutBody_wf r st h)
    · exact h

/-! ## Every node reachable by expansion is well formed -/

theorem expansion_wf (h : Heap) (n : Nat)
    (hall : ∀ (a : Nat) (node : Node), h[a]? = some node →
      wellFormed node.board node.disc_count) :
    ∀ (a : Nat) (node : Node), (expansion h n)[a]? = some node →
      wellFormed node.board node.disc_count := by
  intro a nd ha
  cases hn : h[n]? with
  | none => rw [expansion_of_dangling h n hn] at ha; exact hall a nd ha
  | some node =>
    have hwf := hall n node hn
    by_cases hc : node.children = []
    swap
    · rw [expansion_of_children h n node hn hc] at ha; exact hall a nd ha
    by_cases hs : expansionScan node.board node.player = []
    · obtain ⟨p1, p2, p3, p4⟩ := expansion_pass_spec h n node hn hc hs
      have halt := heap_lt_of_some ha
      rw [p2] at halt
      by_cases han : a = n
      · subst han
        rw [p1] at ha
        injection ha with ha
        subst ha
        exact hwf
      · rcases Nat.lt_or_ge a h.length with hlt | hge
        · rw [p3 a hlt han] at ha; exact hall a nd ha
        · have : a = h.length := by omega
          subst this
          rw [p4] at ha
          injection ha with ha
          subst ha
          exact hwf
    · obtain ⟨C, h1, h2, h3, h4, h5⟩ := expansion_move_spec h n node hn hc hs
      have halt := heap_lt_of_some ha
      rw [h2] at halt
      by_cases han : a = n
      · subst han
        rw [h1] at ha
        injection ha with ha
        subst ha
        exact hwf
      · rcases Nat.lt_or_ge a h.length with hlt | hge
        · rw [h4 a hlt han] at ha; exact hall a nd ha
        · obtain ⟨i, rfl⟩ : ∃ i, a = h.length + i := ⟨a - h.length, by omega⟩
          have hi : i < (expansionScan node.board node.player).length := by omega
          obtain ⟨s, hsi⟩ : ∃ s, (expansionScan node.board node.player)[i]? = some s :=
            ⟨_, List.getElem?_eq_getElem hi⟩
          rw [(h5 i s hsi).2] at ha
          injection ha with ha
          subst ha
          obtain ⟨hon, hemp, hpl, _⟩ := scan_slot node.board hwf.1 node.player i s hsi
          exact moveChild_wf node n s.2 hwf hpl hon hemp

theorem expansions_wf : ∀ (ns : List Nat) (h : Heap),
    (∀ (a : Nat) (node : Node), h[a]? = some node → wellFormed node.board node.disc_count) →
    ∀ (a : Nat) (node : Node), (ns.foldl expansion h)[a]? = some node →
      wellFormed node.board node.disc_count := by
  intro ns
  induction ns with
  | nil => intro h hall; exact hall
  | cons n ns ih =>
    intro h hall
    rw [List.foldl_cons]
    exact ih _ (expansion_wf h n hall)

/-! ## Allocation, counters, rollout loop, selection and merge -/

/-- After `expansion` on a childless node, the node has children and every slot is allocated. -/
theorem expansion_slots (h : Heap) (n : Nat) (node : Node) (hn : h[n]? = some node)
    (hc : node.children = []) :
    ∃ node', (expansion h n)[n]? = some node' ∧ node'.children ≠ [] ∧
      ∀ slot ∈ node'.children, ∃ c child, slot.1 = some c ∧ h.length ≤ c ∧
        (expansion h n)[c]? = some child ∧ child.parent = some n ∧
        child.player = 3 - node.player ∧ child.children = [] := by
  by_cases hs : expansionScan node.board node.player = []
  · obtain ⟨p1, _, _, p4⟩ := expansion_pass_spec h n node hn hc hs
    refine ⟨_, p1, by simp, ?_⟩
    intro slot hslot
    simp only [List.mem_singleton] at hslot
    subst hslot
    exact ⟨h.length, passChild node n, rfl, le_refl _, p4, rfl, rfl, rfl⟩
  · obtain ⟨C, h1, _, h3, _, h5⟩ := expansion_move_spec h n node hn hc hs
    refine ⟨_, h1, ?_, ?_⟩
    · intro hC
      simp only at hC
      rw [hC] at h3
      exact hs (List.length_eq_zero.1 h3.symm)
    · intro slot hslot
      simp only at hslot
      obtain ⟨i, hi, hget⟩ := List.getElem_of_mem hslot
      have hi' : i < (expansionScan node.board node.player).length := by omega
      obtain ⟨s, hsi⟩ : ∃ s, (expansionScan node.board node.player)[i]? = some s :=
        ⟨_, List.getElem?_eq_getElem hi'⟩
      obtain ⟨c1, c2⟩ := h5 i s hsi
      rw [List.getElem?_eq_getElem hi, hget] at c1
      injection c1 with c1
      subst c1
      exact ⟨h.length + i, moveChild node n s.2, rfl, by omega, c2, rfl, rfl, rfl⟩

theorem expansion_length_le (h : Heap) (n : Nat) : h.length ≤ (expansion h n).length := by
  cases hn : h[n]? with
  | none => rw [expansion_of_dangling h n hn]
  | some node =>
    by_cases hc : node.children = []
    · by_cases hs : expansionScan node.board node.player = []
      · rw [(expansion_pass_spec h n node hn hc hs).2.1]; omega
      · obtain ⟨C, _, h2, _⟩ := expansion_move_spec h n node hn hc hs
        rw [h2]; omega
    · rw [expansion_of_children h n node hn hc]

/-- The nodes of the heap other than the expanded one are left as they are by `expansion`. -/
theorem expansion_old (h : Heap) (n : Nat) (a : Nat) (ha : a < h.length) (hne : a ≠ n) :
    (expansion h n)[a]? = h[a]? := by
  cases hn : h[n]? with
  | none => rw [expansion_of_dangling h n hn]
  | some node =>
    by_cases hc : node.children = []
    · by_cases hs : expansionScan node.board node.player = []
      · exact (expansion_pass_spec h n node hn hc hs).2.2.1 a ha hne
      · obtain ⟨C, _, _, _, h4, _⟩ := expansion_move_spec h n node hn hc hs
        exact h4 a ha hne
    · rw [expansion_of_children h n node hn hc]

/-- The nodes that `expansion` allocates are childless children of the expanded node. -/
theorem expansion_new (h : Heap) (n : Nat) (a : Nat) (nd : Node) (ha : h.length ≤ a)
    (hnd : (expansion h n)[a]? = some nd) :
    ∃ node, h[n]? = some node ∧ node.children = [] ∧ nd.children = [] ∧ nd.parent = some n ∧
      nd.player = 3 - node.player ∧ nd.total_games = node.total_games ∧
      nd.partial_wins = 0 ∧ nd.partial_games = 0 := by
  have halt := heap_lt_of_some hnd
  cases hn : h[n]? with
  | none => rw [expansion_of_dangling h n hn] at halt; omega
  | some node =>
    by_cases hc : node.children = []
    swap
    · rw [expansion_of_children h n node hn hc] at halt; omega
    by_cases hs : expansionScan node.board node.player = []
    · obtain ⟨_, p2, _, p4⟩ := expansion_pass_spec h n node hn hc hs
      rw [p2] at halt
      have : a = h.length := by omega
      subst this
      rw [p4] at hnd
      injection hnd with hnd
      subst hnd
      exact ⟨node, rfl, hc, rfl, rfl, rfl, rfl, rfl, rfl⟩
    · obtain ⟨C, _, h2, _, _, h5⟩ := expansion_move_spec h n node hn hc hs
      rw [h2] at halt
      obtain ⟨i, rfl⟩ : ∃ i, a = h.length + i := ⟨a - h.length, by omega⟩
      have hi : i < (expansionScan node.board node.player).length := by omega
      obtain ⟨s, hsi⟩ : ∃ s, (expansionScan node.board node.player)[i]? = some s :=
        ⟨_, List.getElem?_eq_getElem hi⟩
      rw [(h5 i s hsi).2] at hnd
      injection hnd with hnd
      subst hnd
      exact ⟨node, rfl, hc, rfl, rfl, rfl, rfl, rfl, rfl⟩

/-- The expanded node keeps every field but its children list. -/
theorem expansion_self (h : Heap) (n : Nat) (node : Node) (hn : h[n]? = some node) :
    ∃ C, (expansion h n)[n]? = some { node with children := C } ∧
      (node.children ≠ [] → C = node.children) := by
  by_cases hc : node.children = []
  · by_cases hs : expansionScan node.board node.player = []
    · exact ⟨_, (expansion_pass_spec h n node hn hc hs).1, fun h0 => absurd hc h0⟩
    · obtain ⟨C, h1, _⟩ := expansion_move_spec h n node hn hc hs
      exact ⟨C, h1, fun h0 => absurd hc h0⟩
  · rw [expansion_of_children h n node hn hc]
    exact ⟨node.children, hn, fun _ => rfl⟩

theorem expansion_slotsAllocated (h : Heap) (n : Nat) (hall : slotsAllocated h) :
    slotsAllocated (expansion h n) := by
  intro a nd ha slot hslot
  have keep : ∀ (c : Nat) (child : Node), h[c]? = some child →
      ∃ child' : Node, (expansion h n)[c]? = some child' := by
    intro c child hc
    by_cases hcn : c = n
    · subst hcn
      obtain ⟨C, hC, _⟩ := expansion_self h c child hc
      exact ⟨_, hC⟩
    · exact ⟨child, by rw [expansion_old h n c (heap_lt_of_some hc) hcn]; exact hc⟩
  rcases Nat.lt_or_ge a h.length with hlt | hge
  · by_cases han : a = n
    · subst han
      obtain ⟨node, hn⟩ : ∃ node, h[a]? = some node := ⟨_, List.getElem?_eq_getElem hlt⟩
      by_cases hc : node.children = []
      · obtain ⟨node', h1, _, h3⟩ := expansion_slots h a node hn hc
        rw [h1] at ha
        injection ha with ha
        subst ha
        obtain ⟨c, child, e1, _, e2, _⟩ := h3 slot hslot
        exact ⟨c, child, e1, e2⟩
      · rw [expansion_of_children h a node hn hc] at ha ⊢
        exact hall a nd ha slot hslot
    · rw [expansion_old h n a hlt han] at ha
      obtain ⟨c, child, e1, e2⟩ := hall a nd ha slot hslot
      obtain ⟨child', e3⟩ := keep c child e2
      exact ⟨c, child', e1, e3⟩
  · obtain ⟨_, _, _, hch, _⟩ := expansion_new h n a nd hge ha
    rw [hch] at hslot
    simp at hslot

theorem flipRun_get (cp : Int) (hcp : cp = 1 ∨ cp = 2) (dest dir : Point) :
    ∀ (k : Nat) (st : Board × DiscCount),
      (flipRun cp dest dir k st).2.get (3 - cp) = st.2.get (3 - cp) + k ∧
      (flipRun cp dest dir k st).2.get cp = st.2.get cp - k ∧
      (flipRun cp dest dir k st).2.get 0 = st.2.get 0 := by
  intro k
  induction k with
  | zero => intro st; simp [flipRun]
  | succ k ih =>
    intro st
    unfold flipRun
    obtain ⟨i1, i2, i3⟩ := ih (xorCell st.1 (ray dest dir (k + 1)),
      (st.2.add (3 - cp) 1).add cp (-1))
    rw [i1, i2, i3]
    simp only
    have hk : (3 - cp = 0 ∨ 3 - cp = 1 ∨ 3 - cp = 2) := by omega
    have hc : (cp = 0 ∨ cp = 1 ∨ cp = 2) := by omega
    rw [dc_add_get _ _ _ _ hc hk, dc_add_get _ _ _ _ hk hk,
      dc_add_get _ _ _ _ hc hc, dc_add_get _ _ _ _ hk hc,
      dc_add_get _ _ _ _ hc (Or.inl rfl), dc_add_get _ _ _ _ hk (Or.inl rfl)]
    have e1 : ¬ (3 - cp = cp) := by omega
    have e2 : ¬ (cp = 3 - cp) := by omega
    have e3 : ¬ ((0 : Int) = cp) := by omega
    have e4 : ¬ ((0 : Int) = 3 - cp) := by omega
    simp only [e1, e2, e3, e4, if_true, if_false]
    push_cast
    refine ⟨by ring, by ring, trivial⟩

/-- On a valid board a qualifying direction is one whose walk stops after at least one opponent
disc. -/
theorem qualifies_stop (b : Board) (hv : validBoard b) (pl : Int) (hpl : pl = 1 ∨ pl = 2)
    (dest : Point) (hdest : onBoard dest) (d : Nat) (hd : d < 8)
    (hq : Qualifies b (3 - pl) dest (dirOf d)) :
    ∃ m, 1 ≤ m ∧ StopAt (fun v => v == 3 - pl) b (dest + dirOf d) (dirOf d) m := by
  obtain ⟨hon1, hc1, m, hm8, hm2, honm, hcm, hrun⟩ := hq
  have hcap : CapturedDir b (3 - pl) dest (dirOf d) (ray dest (dirOf d) 1) := by
    refine ⟨m, hm8, 1, by omega, le_refl _, rfl, honm, hcm, fun s hs hs1 => ?_⟩
    have := hrun s hs hs1
    refine ⟨this.1, ?_⟩
    have hvc := valid_cell hv this.1
    have h0 := this.2.1
    have h1 := this.2.2
    unfold EMPTY at h0
    omega
  obtain ⟨m', hm', t, ht1, htm, _⟩ :=
    (capturedDir_iff b hv pl hpl dest (dirOf d) _ (dirOf_isStep d hd) hdest).1 hcap
  exact ⟨m', by omega, hm'⟩

/-- The counters after the flip over the first `d` directions: `F` discs have moved from the
opponent's count to the mover's, and `F` is at least 1 as soon as one of these directions
qualifies. -/
theorem flipUpTo_get (nb : Board) (hv : validBoard nb) (pl : Int) (hpl : pl = 1 ∨ pl = 2)
    (dest : Point) (hdest : onBoard dest) (st0 : Board × DiscCount) :
    ∀ d, d ≤ 8 → ∃ F : Nat,
      ((List.range d).foldl (fun st d =>
        (flipWalk (SIZE + 1) nb pl pl dest (dirOf d) st (dest + dirOf d)).getD st) st0).2.get
          (3 - pl) = st0.2.get (3 - pl) + F ∧
      ((List.range d).foldl (fun st d =>
        (flipWalk (SIZE + 1) nb pl pl dest (dirOf d) st (dest + dirOf d)).getD st) st0).2.get
          pl = st0.2.get pl - F ∧
      ((List.range d).foldl (fun st d =>
        (flipWalk (SIZE + 1) nb pl pl dest (dirOf d) st (dest + dirOf d)).getD st) st0).2.get
          0 = st0.2.get 0 ∧
      ((∃ d' < d, Qualifies nb (3 - pl) dest (dirOf d')) → 1 ≤ F) := by
  intro d
  induction d with
  | zero =>
    intro _
    refine ⟨0, by simp, by simp, by simp, ?_⟩
    rintro ⟨d', h, _⟩; omega
  | succ d ih =>
    intro hd
    obtain ⟨F, i1, i2, i3, i4⟩ := ih (by omega)
    rw [foldl_range_succ]
    generalize (List.range d).foldl (fun st d =>
      (flipWalk (SIZE + 1) nb pl pl dest (dirOf d) st (dest + dirOf d)).getD st) st0 = st
      at i1 i2 i3
    have hstep := dirOf_isStep d (by omega)
    by_cases hstop : ∃ m, StopAt (fun v => v == 3 - pl) nb (dest + dirOf d) (dirOf d) m
    · obtain ⟨m, hm⟩ := hstop
      rw [flipWalk_stop nb pl pl dest (dirOf d) st hstep hdest m hm]
      simp only [Option.getD_some]
      obtain ⟨g1, g2, g3⟩ := flipRun_get pl hpl dest (dirOf d) m st
      refine ⟨F + m, ?_, ?_, ?_, ?_⟩
      · rw [g1, i1]; push_cast; ring
      · rw [g2, i2]; push_cast; ring
      · rw [g3, i3]
      · rintro ⟨d', hd', hq⟩
        rcases Nat.lt_or_ge d' d with h | h
        · have := i4 ⟨d', h, hq⟩; omega
        · have : d' = d := by omega
          subst this
          obtain ⟨m2, hm2, hs2⟩ := qualifies_stop nb hv pl hpl dest hdest d' (by omega) hq
          have := stopAt_unique hm hs2
          omega
    · rw [flipWalk_nostop nb pl pl dest (dirOf d) st hstep hdest hstop]
      simp only [Option.getD_some]
      refine ⟨F, i1, i2, i3, ?_⟩
      rintro ⟨d', hd', hq⟩
      rcases Nat.lt_or_ge d' d with h | h
      · exact i4 ⟨d', h, hq⟩
      · have : d' = d := by omega
        subst this
        obtain ⟨m2, _, hs2⟩ := qualifies_stop nb hv pl hpl dest hdest d' (by omega) hq
        exact absurd ⟨m2, hs2⟩ hstop

/-- The counters of the child built for a legal destination. -/
theorem moveChild_get (node : Node) (self : Nat) (dest : Point) (hv : validBoard node.board)
    (hpl : node.player = 1 ∨ node.player = 2) (hdest : onBoard dest)
    (hl : LegalDest node.board (3 - node.player) dest) :
    ∃ F : Nat, 1 ≤ F ∧
      (moveChild node self dest).disc_count.get 0 = node.disc_count.get 0 - 1 ∧
      (moveChild node self dest).disc_count.get (3 - node.player) =
        node.disc_count.get (3 - node.player) + F + 1 ∧
      (moveChild node self dest).disc_count.get node.player =
        node.disc_count.get node.player - F := by
  obtain ⟨F, i1, i2, i3, i4⟩ := flipUpTo_get node.board hv node.player hpl dest hdest
    (node.board, node.disc_count) 8 (le_refl _)
  refine ⟨F, i4 hl.2, ?_, ?_, ?_⟩
  all_goals
    unfold moveChild placeDisc flipAll Node.copy
    simp only
    generalize (List.range 8).foldl (fun st d =>
      (flipWalk (SIZE + 1) node.board node.player node.player dest (dirOf d) st
        (dest + dirOf d)).getD st) (node.board, node.disc_count) = st at i1 i2 i3
    have hk : (3 - node.player = 0 ∨ 3 - node.player = 1 ∨ 3 - node.player = 2) := by omega
    have hc : (node.player = 0 ∨ node.player = 1 ∨ node.player = 2) := by omega
    have e3 : ¬ ((0 : Int) = 3 - node.player) := by omega
    have e5 : ¬ (3 - node.player = 0) := by omega
    have e6 : ¬ (node.player = 0) := by omega
    have e7 : ¬ (node.player = 3 - node.player) := by omega
  · rw [dc_add_get _ _ _ _ hk (Or.inl rfl), dc_add_get _ _ _ _ (Or.inl rfl) (Or.inl rfl)]
    simp only [e3, if_false, if_true, i3]
    ring
  · rw [dc_add_get _ _ _ _ hk hk, dc_add_get _ _ _ _ (Or.inl rfl) hk]
    simp only [e5, if_false, if_true, i1]
  · rw [dc_add_get _ _ _ _ hk hc, dc_add_get _ _ _ _ (Or.inl rfl) hc]
    simp only [e6, e7, if_false, i2]

theorem rolloutSpots_legal (b : Board) (hv : validBoard b) (pl : Int) :
    rolloutSpots b pl = legalDestinations b (3 - pl) := by
  rw [rolloutSpots_eq_scan, expansionScan_legal b hv pl, List.map_map]
  simp [Function.comp]

theorem rolloutBody_player (r : Nat) (st : RolloutState) :
    (rolloutBody r st).player = 3 - st.player := by
  unfold rolloutBody
  simp only
  split <;> rfl

theorem rolloutBody_pass (r : Nat) (st : RolloutState)
    (hs : rolloutSpots st.curboard st.player = []) :
    rolloutBody r st = { st with player := 3 - st.player } := by
  unfold rolloutBody
  simp [hs]

theorem rolloutBody_inv (r : Nat) (st : RolloutState) (h : rolloutInv st) :
    rolloutInv (rolloutBody r st) := by
  refine ⟨rolloutBody_wf r st h.1, ?_⟩
  rw [rolloutBody_player]
  rcases h.2 with h1 | h1 <;> rw [h1] <;> simp

/-- An iteration that finds a destination places a disc: `disc_count[0]` decreases by one. -/
theorem rolloutBody_move (r : Nat) (st : RolloutState) (h : rolloutInv st)
    (hs : rolloutSpots st.curboard st.player ≠ []) :
    (rolloutBody r st).disc_count.get 0 = st.disc_count.get 0 - 1 := by
  have hne : (rolloutSpots st.curboard st.player).isEmpty = false := by
    cases hsp : rolloutSpots st.curboard st.player with
    | nil => exact absurd hsp hs
    | cons a l => rfl
  unfold rolloutBody
  simp only [hne, Bool.not_false, if_true]
  have hlen : 0 < (rolloutSpots st.curboard st.player).length := List.length_pos.2 hs
  have hidx : r % (rolloutSpots st.curboard st.player).length <
      (rolloutSpots st.curboard st.player).length := Nat.mod_lt _ hlen
  have hmem : (rolloutSpots st.curboard st.player).getD
      (r % (rolloutSpots st.curboard st.player).length) ⟨0, 0⟩ ∈
      rolloutSpots st.curboard st.player := by
    rw [List.getD_eq_getElem?_getD, List.getElem?_eq_getElem hidx]
    exact List.getElem_mem _
  generalize (rolloutSpots st.curboard st.player).getD
    (r % (rolloutSpots st.curboard st.player).length) ⟨0, 0⟩ = dest at hmem
  rw [rolloutSpots_eq_scan, List.mem_map] at hmem
  obtain ⟨s, hsm, rfl⟩ := hmem
  obtain ⟨hon, _, hpl, hl⟩ := scan_mem st.curboard h.1.1 st.player s hsm
  rw [rolloutMove_eq st.curboard h.1.1 st.player hpl s.2 hon st.disc_count]
  obtain ⟨F, _, g0, _, _⟩ :=
    moveChild_get ⟨0, 0, 0, st.player, st.curboard, st.disc_count, none, []⟩ 0 s.2 h.1.1 hpl hon hl
  exact g0

/-- A board that `isTerminal` rejects has a legal destination for at least one colour. -/
theorem nonterminal_has_move (b : Board) (hv : validBoard b) (ht : isTerminal b = false) :
    ∃ p ∈ allCells, LegalDest b 1 p ∨ LegalDest b 2 p := by
  by_contra hcon
  have : isTerminal b = true := by
    rw [isTerminal_eq_true_iff b hv]
    intro p hp
    constructor
    · intro h1; exact hcon ⟨p, hp, Or.inl h1⟩
    · intro h2; exact hcon ⟨p, hp, Or.inr h2⟩
  rw [this] at ht
  exact Bool.noConfusion ht

theorem rolloutCond_true (st : RolloutState) (hc : rolloutCond st = true) :
    st.disc_count.get 0 ≠ 0 ∧ isTerminal st.curboard = false := by
  unfold rolloutCond at hc
  simp only [Bool.and_eq_true, bne_iff_ne, ne_eq, Bool.not_eq_true'] at hc
  exact hc

theorem rolloutCond_false (st : RolloutState) (hc : rolloutCond st = false) :
    st.disc_count.get 0 = 0 ∨ isTerminal st.curboard = true := by
  unfold rolloutCond at hc
  by_cases h0 : st.disc_count.get 0 = 0
  · exact Or.inl h0
  · right
    cases ht : isTerminal st.curboard with
    | true => rfl
    | false => simp [h0, ht] at hc

/-- After a pass on a non-terminal board the other colour has a destination. -/
theorem rolloutBody_pass_then_move (r : Nat) (st : RolloutState) (h : rolloutInv st)
    (hc : rolloutCond st = true) (hs : rolloutSpots st.curboard st.player = []) :
    rolloutCond (rolloutBody r st) = true ∧
    rolloutSpots (rolloutBody r st).curboard (rolloutBody r st).player ≠ [] := by
  rw [rolloutBody_pass r st hs]
  refine ⟨hc, ?_⟩
  simp only
  obtain ⟨_, ht⟩ := rolloutCond_true st hc
  obtain ⟨p, hp, hl⟩ := nonterminal_has_move st.curboard h.1.1 ht
  rw [rolloutSpots_legal st.curboard h.1.1] at hs ⊢
  rw [legalDestinations_eq_nil] at hs
  intro h0
  rw [legalDestinations_eq_nil] at h0
  rcases h.2 with h1 | h1
  · rw [h1] at hs h0
    rcases hl with hl | hl
    · exact h0 p hp (by simpa using hl)
    · exact hs p hp (by simpa using hl)
  · rw [h1] at hs h0
    rcases hl with hl | hl
    · exact hs p hp (by simpa using hl)
    · exact h0 p hp (by simpa using hl)

theorem wellFormed_c0_nonneg (b : Board) (dc : DiscCount) (h : wellFormed b dc) :
    0 ≤ dc.get 0 ∧ dc.get 0 = cellCount b 0 := by
  have := h.2.1
  unfold DiscCount.get
  simp only [if_true]
  omega

theorem rolloutMeasure_decreases (r : Nat) (st : RolloutState) (h : rolloutInv st)
    (hc : rolloutCond st = true) : rolloutMeasure (rolloutBody r st) < rolloutMeasure st := by
  obtain ⟨h0, _⟩ := rolloutCond_true st hc
  obtain ⟨hnn, _⟩ := wellFormed_c0_nonneg _ _ h.1
  by_cases hs : rolloutSpots st.curboard st.player = []
  · obtain ⟨_, hne⟩ := rolloutBody_pass_then_move r st h hc hs
    have hdc : (rolloutBody r st).disc_count = st.disc_count := by
      rw [rolloutBody_pass r st hs]
    have he : (rolloutSpots (rolloutBody r st).curboard (rolloutBody r st).player).isEmpty
        = false := by
      cases hsp : rolloutSpots (rolloutBody r st).curboard (rolloutBody r st).player with
      | nil => exact absurd hsp hne
      | cons a l => rfl
    unfold rolloutMeasure
    rw [he, hdc, hs]
    simp
  · have hm := rolloutBody_move r st h hs
    have he : (rolloutSpots st.curboard st.player).isEmpty = false := by
      cases hsp : rolloutSpots st.curboard st.player with
      | nil => exact absurd hsp hs
      | cons a l => rfl
    unfold rolloutMeasure
    rw [he, hm]
    simp only [Bool.false_eq_true, if_false, add_zero]
    split <;> omega

/-- The loop of `rollout` exits: with more fuel than the measure it returns a state that
satisfies the invariant, fails the loop condition, and is the state reached by iterating the
body over some list of values. -/
theorem rolloutLoop_returns (rand_r : Nat → Nat × Nat) :
    ∀ (fuel seed : Nat) (st : RolloutState), rolloutInv st → rolloutMeasure st < fuel →
      ∃ seed1 st1 rs, rolloutLoop rand_r fuel seed st = some (seed1, st1) ∧ rolloutInv st1 ∧
        rolloutCond st1 = false ∧ st1 = rolloutIter rs st ∧ rs.length ≤ rolloutMeasure st := by
  intro fuel
  induction fuel with
  | zero => intro seed st _ hm; omega
  | succ fuel ih =>
    intro seed st hinv hm
    unfold rolloutLoop
    by_cases hc : rolloutCond st = true
    · simp only [hc, if_true]
      generalize (if (!(rolloutSpots st.curboard st.player).isEmpty) = true then rand_r seed
        else (0, seed)) = rs
      have hdec := rolloutMeasure_decreases rs.1 st hinv hc
      obtain ⟨seed1, st1, l, h1, h2, h3, h4, h5⟩ :=
        ih rs.2 (rolloutBody rs.1 st) (rolloutBody_inv rs.1 st hinv) (by omega)
      refine ⟨seed1, st1, rs.1 :: l, h1, h2, h3, ?_, ?_⟩
      · rw [h4]; simp only [rolloutIter, hc, if_true]
      · simp only [List.length_cons]; omega
    · have hc' : rolloutCond st = false := by
        cases hcc : rolloutCond st with
        | true => exact absurd hcc hc
        | false => rfl
      simp only [hc', Bool.false_eq_true, if_false]
      exact ⟨seed, st, [], rfl, hinv, hc', rfl, by simp⟩

theorem rolloutIter_inv : ∀ (rs : List Nat) (st : RolloutState), rolloutInv st →
    rolloutInv (rolloutIter rs st) := by
  intro rs
  induction rs with
  | nil => intro st h; exact h
  | cons r rs ih =>
    intro st h
    unfold rolloutIter
    split
    · exact ih _ (rolloutBody_inv r st h)
    · exact h

/-- With a scratch player outside `{1, 2}` the scan of `rollout` finds no destination. -/
theorem rolloutSpots_other (b : Board) (hv : validBoard b) (pl : Int)
    (hpl : pl = 0 ∨ pl = 3) : rolloutSpots b pl = [] := by
  rw [rolloutSpots_legal b hv pl, legalDestinations_eq_nil]
  intro p _ hl
  have := legal_colour b hv (3 - pl) p hl
  omega

/-- With a scratch player outside `{1, 2}` the loop of `rollout` never exits from a state that
passes the loop condition: every iteration is a pass. -/
theorem rolloutLoop_diverges (rand_r : Nat → Nat × Nat) :
    ∀ (fuel seed : Nat) (st : RolloutState), validBoard st.curboard →
      (st.player = 0 ∨ st.player = 3) → rolloutCond st = true →
      rolloutLoop rand_r fuel seed st = none := by
  intro fuel
  induction fuel with
  | zero => intro seed st _ _ _; rfl
  | succ fuel ih =>
    intro seed st hv hpl hc
    unfold rolloutLoop
    have hs := rolloutSpots_other st.curboard hv st.player hpl
    simp only [hc, if_true, hs, List.isEmpty_nil, Bool.not_true, Bool.false_eq_true, if_false]
    rw [rolloutBody_pass 0 st hs]
    apply ih
    · exact hv
    · simp only; omega
    · exact hc

theorem rolloutIter_stuck : ∀ (rs : List Nat) (st : RolloutState), validBoard st.curboard →
    (st.player = 0 ∨ st.player = 3) → rolloutCond st = true →
    rolloutCond (rolloutIter rs st) = true ∧
    (rolloutIter rs st).curboard = st.curboard ∧
    (rolloutIter rs st).disc_count = st.disc_count := by
  intro rs
  induction rs with
  | nil => intro st _ _ hc; exact ⟨hc, rfl, rfl⟩
  | cons r rs ih =>
    intro st hv hpl hc
    have hs := rolloutSpots_other st.curboard hv st.player hpl
    simp only [rolloutIter, hc, if_true]
    rw [rolloutBody_pass r st hs]
    exact ih { st with player := 3 - st.player } hv (by simp only; omega) hc

theorem rolloutMeasure_le (st : RolloutState) (h : rolloutInv st) : rolloutMeasure st ≤ 129 := by
  obtain ⟨_, h0⟩ := wellFormed_c0_nonneg _ _ h.1
  have hle : cellCount st.curboard 0 ≤ 64 := by
    unfold cellCount
    have := List.countP_le_length (fun p => getCell st.curboard p == 0) (l := allCells)
    rw [allCells_length] at this
    exact this
  unfold rolloutMeasure
  rw [h0]
  simp only [Int.toNat_ofNat]
  split <;> omega

theorem wellFormed_get (b : Board) (dc : DiscCount) (h : wellFormed b dc) (c : Int)
    (hc : c = 1 ∨ c = 2) : dc.get c = cellCount b c := by
  obtain ⟨_, _, h1, h2⟩ := h
  rcases hc with rfl | rfl
  · unfold DiscCount.get; simp [h1]
  · unfold DiscCount.get; simp [h2]

theorem cellCount_zero (b : Board) (h : cellCount b 0 = 0) :
    ∀ p ∈ allCells, getCell b p ≠ EMPTY := by
  intro p hp he
  unfold cellCount at h
  rw [List.countP_eq_zero] at h
  have := h p hp
  rw [he] at this
  simp [EMPTY] at this

theorem slotAllocated_iff (h : Heap) (slot : Option Nat × Point) :
    slotAllocated h slot = true ↔ ∃ (c : Nat) (child : Node), slot.1 = some c ∧
      h[c]? = some child := by
  unfold slotAllocated
  cases hs : slot.1 with
  | none => simp
  | some c =>
    simp only [Option.isSome_iff_exists, Option.some.injEq, exists_and_left, exists_eq_left']

theorem gtMax_none {D : Type} [LinearOrder D] (v : D) : gtMax v none = true := rfl

theorem gtMax_some {D : Type} [LinearOrder D] (v m : D) : gtMax v (some m) = true ↔ m < v := by
  unfold gtMax
  simp

theorem gtMax_trans {D : Type} [LinearOrder D] (v w : D) (m : Option D)
    (h1 : gtMax v m = true) (h2 : v < w) : gtMax w m = true := by
  cases m with
  | none => rfl
  | some mm =>
    rw [gtMax_some] at h1 ⊢
    exact lt_trans h1 h2

theorem gtMax_false_lt {D : Type} [LinearOrder D] (v w : D) (m : Option D)
    (h1 : gtMax v m = false) (h2 : gtMax w m = true) : v < w := by
  cases m with
  | none => rw [gtMax_none] at h1; exact Bool.noConfusion h1
  | some mm =>
    rw [gtMax_some] at h2
    have : ¬ mm < v := by
      intro hlt
      rw [(gtMax_some v mm).2 hlt] at h1
      exact Bool.noConfusion h1
    exact lt_of_le_of_lt (not_lt.1 this) h2

/-- A selection loop over slots that all evaluate returns either the start (when no value beats
the start maximum) or the first slot whose value is maximal. -/
theorem pickLoop_spec {D σ α : Type} [LinearOrder D] (f : σ → Option D) (g : σ → α) :
    ∀ (l : List σ) (m : Option D) (x : α), (∀ s ∈ l, ∃ v, f s = some v) →
      ∃ (m1 : Option D) (x1 : α), pickLoop f g l (m, x) = some (m1, x1) ∧
        ((m1 = m ∧ x1 = x ∧ ∀ s ∈ l, ∀ v, f s = some v → gtMax v m = false) ∨
         (∃ (k : Nat) (s : σ) (v : D), l[k]? = some s ∧ f s = some v ∧ m1 = some v ∧ x1 = g s ∧
            gtMax v m = true ∧
            (∀ (i : Nat) (s1 : σ) (v1 : D), l[i]? = some s1 → f s1 = some v1 → v1 ≤ v) ∧
            (∀ (i : Nat) (s1 : σ) (v1 : D), i < k → l[i]? = some s1 → f s1 = some v1 →
              v1 < v))) := by
  intro l
  induction l with
  | nil =>
    intro m x _
    exact ⟨m, x, rfl, Or.inl ⟨rfl, rfl, fun s hs => by simp at hs⟩⟩
  | cons s rest ih =>
    intro m x hall
    obtain ⟨v, hv⟩ := hall s (List.mem_cons_self _ _)
    have hrest : ∀ s1 ∈ rest, ∃ v1, f s1 = some v1 :=
      fun s1 hs1 => hall s1 (List.mem_cons_of_mem _ hs1)
    unfold pickLoop
    simp only [hv]
    cases hg : gtMax v m with
    | true =>
      simp only [if_true]
      obtain ⟨m1, x1, hrun, hcase⟩ := ih (some v) (g s) hrest
      refine ⟨m1, x1, hrun, Or.inr ?_⟩
      rcases hcase with ⟨e1, e2, e3⟩ | ⟨k, s2, v2, a1, a2, a3, a4, a5, a6, a7⟩
      · refine ⟨0, s, v, List.getElem?_cons_zero, hv, e1, e2, hg, ?_, ?_⟩
        · intro i s1 v1 hi hf
          cases i with
          | zero =>
            simp only [List.getElem?_cons_zero] at hi
            injection hi with hi
            subst hi
            rw [hv] at hf
            injection hf with hf
            rw [hf]
          | succ i =>
            simp only [List.getElem?_cons_succ] at hi
            have := e3 s1 (List.getElem?_mem hi) v1 hf
            by_contra hcon
            rw [(gtMax_some v1 v).2 (not_le.1 hcon)] at this
            exact Bool.noConfusion this
        · intro i s1 v1 hi _ _
          omega
      · have hvlt : v < v2 := (gtMax_some v2 v).1 a5
        refine ⟨k + 1, s2, v2, by simpa using a1, a2, a3, a4, gtMax_trans v v2 m hg hvlt, ?_, ?_⟩
        · intro i s1 v1 hi hf
          cases i with
          | zero =>
            simp only [List.getElem?_cons_zero] at hi
            injection hi with hi
            subst hi
            rw [hv] at hf
            injection hf with hf
            rw [← hf]
            exact le_of_lt hvlt
          | succ i =>
            simp only [List.getElem?_cons_succ] at hi
            exact a6 i s1 v1 hi hf
        · intro i s1 v1 hik hi hf
          cases i with
          | zero =>
            simp only [List.getElem?_cons_zero] at hi
            injection hi with hi
            subst hi
            rw [hv] at hf
            injection hf with hf
            rw [← hf]
            exact hvlt
          | succ i =>
            simp only [List.getElem?_cons_succ] at hi
            exact a7 i s1 v1 (by omega) hi hf
    | false =>
      simp only [Bool.false_eq_true, if_false]
      obtain ⟨m1, x1, hrun, hcase⟩ := ih m x hrest
      refine ⟨m1, x1, hrun, ?_⟩
      rcases hcase with ⟨e1, e2, e3⟩ | ⟨k, s2, v2, a1, a2, a3, a4, a5, a6, a7⟩
      · left
        refine ⟨e1, e2, ?_⟩
        intro s1 hs1 v1 hf
        rcases List.mem_cons.1 hs1 with rfl | hmem
        · rw [hv] at hf
          injection hf with hf
          rw [← hf]
          exact hg
        · exact e3 s1 hmem v1 hf
      · right
        have hvlt : v < v2 := gtMax_false_lt v v2 m hg a5
        refine ⟨k + 1, s2, v2, by simpa using a1, a2, a3, a4, a5, ?_, ?_⟩
        · intro i s1 v1 hi hf
          cases i with
          | zero =>
            simp only [List.getElem?_cons_zero] at hi
            injection hi with hi
            subst hi
            rw [hv] at hf
            injection hf with hf
            rw [← hf]
            exact le_of_lt hvlt
          | succ i =>
            simp only [List.getElem?_cons_succ] at hi
            exact a6 i s1 v1 hi hf
        · intro i s1 v1 hik hi hf
          cases i with
          | zero =>
            simp only [List.getElem?_cons_zero] at hi
            injection hi with hi
            subst hi
            rw [hv] at hf
            injection hf with hf
            rw [← hf]
            exact hvlt
          | succ i =>
            simp only [List.getElem?_cons_succ] at hi
            exact a7 i s1 v1 (by omega) hi hf

/-- From the initial `-infinity` a selection loop over a non-empty list of slots that all
evaluate returns the first slot whose value is maximal. -/
theorem pickLoop_first_max {D σ α : Type} [LinearOrder D] (f : σ → Option D) (g : σ → α)
    (l : List σ) (x : α) (hne : l ≠ []) (hall : ∀ s ∈ l, ∃ v, f s = some v) :
    ∃ (k : Nat) (s : σ) (v : D), l[k]? = some s ∧ f s = some v ∧
      pickLoop f g l (none, x) = some (some v, g s) ∧
      (∀ (i : Nat) (s1 : σ) (v1 : D), l[i]? = some s1 → f s1 = some v1 → v1 ≤ v) ∧
      (∀ (i : Nat) (s1 : σ) (v1 : D), i < k → l[i]? = some s1 → f s1 = some v1 → v1 < v) := by
  obtain ⟨m1, x1, hrun, hcase⟩ := pickLoop_spec f g l none x hall
  rcases hcase with ⟨_, _, e3⟩ | ⟨k, s, v, a1, a2, a3, a4, _, a6, a7⟩
  · cases l with
    | nil => exact absurd rfl hne
    | cons s rest =>
      obtain ⟨v, hv⟩ := hall s (List.mem_cons_self _ _)
      have := e3 s (List.mem_cons_self _ _) v hv
      rw [gtMax_none] at this
      exact Bool.noConfusion this
  · subst a3
    subst a4
    exact ⟨k, s, v, a1, a2, hrun, a6, a7⟩

theorem traversalPick_eq {D : Type} [LinearOrder D] (ops : DoubleOps D) (h : Heap) :
    ∀ (l : List (Option Nat × Point)) (acc : Option D × Option Nat),
      traversalPick ops h l acc = pickLoop (traversalEval ops h) Prod.fst l acc := by
  intro l
  induction l with
  | nil => intro acc; rfl
  | cons s rest ih =>
    intro acc
    unfold traversalPick pickLoop
    cases traversalEval ops h s with
    | none => rfl
    | some v =>
      simp only
      rw [ih, ih]

theorem decisionPick_eq {D : Type} [LinearOrder D] (ops : DoubleOps D) (h : Heap) :
    ∀ (l : List (Option Nat × Point)) (acc : Option D × Point),
      decisionPick ops h l acc = pickLoop (decisionEval ops h) Prod.snd l acc := by
  intro l
  induction l with
  | nil => intro acc; rfl
  | cons s rest ih =>
    intro acc
    unfold decisionPick pickLoop
    cases decisionEval ops h s with
    | none => rfl
    | some v =>
      simp only
      rw [ih, ih]

theorem sharedCounter_ofGrid (g : Grid) (player : Int) :
    sharedCounter [Node.ofGrid 0 g player] 0 := by
  intro a node ha
  cases a with
  | zero =>
    simp only [List.getElem?_cons_zero] at ha
    injection ha with ha
    subst ha
    rfl
  | succ a => simp at ha

theorem sharedCounter_expansion (h : Heap) (root n : Nat) (hs : sharedCounter h root) :
    sharedCounter (expansion h n) root := by
  intro a nd ha
  rcases Nat.lt_or_ge a h.length with hlt | hge
  · by_cases hne : a = n
    · subst hne
      obtain ⟨node, hnode⟩ : ∃ node, h[a]? = some node := ⟨_, List.getElem?_eq_getElem hlt⟩
      obtain ⟨C, hC, _⟩ := expansion_self h a node hnode
      rw [hC] at ha
      injection ha with ha
      subst ha
      exact hs a node hnode
    · rw [expansion_old h n a hlt hne] at ha
      exact hs a nd ha
  · obtain ⟨node, hnode, _, _, _, _, htg, _⟩ := expansion_new h n a nd hge ha
    rw [htg]
    exact hs n node hnode

theorem sharedCounter_backPropagation (root : Nat) : ∀ (fuel : Nat) (h : Heap) (c : Option Nat)
    (win : Int) (h1 : Heap), sharedCounter h root → backPropagation fuel h c win = some h1 →
    sharedCounter h1 root := by
  intro fuel
  induction fuel with
  | zero => intro h c win h1 _ hb; simp [backPropagation] at hb
  | succ fuel ih =>
    intro h c win h1 hs hb
    unfold backPropagation at hb
    cases c with
    | none =>
      simp only at hb
      injection hb with hb
      subst hb
      exact hs
    | some c =>
      simp only at hb
      cases hc : h[c]? with
      | none => rw [hc] at hb; simp at hb
      | some node =>
        rw [hc] at hb
        simp only at hb
        refine ih _ _ _ h1 ?_ hb
        intro a nd ha
        rw [List.getElem?_set] at ha
        split at ha
        · split at ha
          · injection ha with ha
            subst ha
            exact hs c node hc
          · simp at ha
        · exact hs a nd ha

/-- One iteration of the `while` loop of `traversal` at a node with children whose slots all
evaluate: the loop moves to the first child whose value is maximal. -/
theorem traversal_step {D : Type} [LinearOrder D] (ops : DoubleOps D) (h : Heap) (target : Nat)
    (node : Node) (hn : h[target]? = some node) (hc : node.children ≠ [])
    (hall : ∀ slot ∈ node.children, ∃ (c : Nat) (v : D), slot.1 = some c ∧
      traversalEval ops h slot = some v) (fuel : Nat) :
    ∃ (k c : Nat) (p : Point) (v : D), node.children[k]? = some (some c, p) ∧
      traversalEval ops h (some c, p) = some v ∧
      traversal ops (fuel + 1) h target = traversal ops fuel h c ∧
      (∀ (i : Nat) (s1 : Option Nat × Point) (v1 : D), node.children[i]? = some s1 →
        traversalEval ops h s1 = some v1 → v1 ≤ v) ∧
      (∀ (i : Nat) (s1 : Option Nat × Point) (v1 : D), i < k → node.children[i]? = some s1 →
        traversalEval ops h s1 = some v1 → v1 < v) := by
  cases hch : node.children with
  | nil => exact absurd hch hc
  | cons first rest =>
    rw [hch] at hall
    obtain ⟨k, s, v, a1, a2, a3, a4, a5⟩ :=
      pickLoop_first_max (traversalEval ops h) Prod.fst (first :: rest) first.1 (by simp)
        (fun s hs => by obtain ⟨c, v, _, hv⟩ := hall s hs; exact ⟨v, hv⟩)
    obtain ⟨c, _, hsc, _⟩ := hall s (List.getElem?_mem a1)
    obtain ⟨s1, s2⟩ := s
    simp only at hsc
    subst hsc
    refine ⟨k, c, s2, v, a1, a2, ?_, a4, a5⟩
    rw [traversal]
    simp only [hn, hch]
    rw [traversalPick_eq, a3]

theorem decision_step {D : Type} [LinearOrder D] (ops : DoubleOps D) (h : Heap) (root0 : Nat)
    (root : Node) (hn : h[root0]? = some root) (hc : root.children ≠ [])
    (hall : ∀ slot ∈ root.children, ∃ v : D, decisionEval ops h slot = some v) :
    ∃ (k : Nat) (s : Option Nat × Point) (v : D), root.children[k]? = some s ∧
      decisionEval ops h s = some v ∧ decision ops h root0 = some s.2 ∧
      (∀ (i : Nat) (s1 : Option Nat × Point) (v1 : D), root.children[i]? = some s1 →
        decisionEval ops h s1 = some v1 → v1 ≤ v) ∧
      (∀ (i : Nat) (s1 : Option Nat × Point) (v1 : D), i < k → root.children[i]? = some s1 →
        decisionEval ops h s1 = some v1 → v1 < v) := by
  cases hch : root.children with
  | nil => exact absurd hch hc
  | cons first rest =>
    rw [hch] at hall
    obtain ⟨k, s, v, a1, a2, a3, a4, a5⟩ :=
      pickLoop_first_max (decisionEval ops h) Prod.snd (first :: rest) first.2 (by simp) hall
    refine ⟨k, s, v, a1, a2, ?_, a4, a5⟩
    unfold decision
    simp only [hn, hch]
    rw [decisionPick_eq, a3]
    rfl

theorem traversalEval_of {D : Type} [LinearOrder D] (ops : DoubleOps D) (h : Heap) (c : Nat)
    (p : Point) (cn counter : Node) (hcn : h[c]? = some cn)
    (hcount : h[cn.total_games]? = some counter) :
    traversalEval ops h (some c, p) =
      some (uctValue ops cn.partial_wins cn.partial_games counter.partial_games) := by
  unfold traversalEval
  simp only [hcn, hcount]

theorem decisionEval_of {D : Type} (ops : DoubleOps D) (h : Heap) (c : Nat)
    (p : Point) (cn : Node) (hcn : h[c]? = some cn) :
    decisionEval ops h (some c, p) = some (winRate ops cn.partial_wins cn.partial_games) := by
  unfold decisionEval
  simp only [hcn]

theorem treeBelow_node (h : Heap) (k n : Nat) (ht : treeBelow h k n = true) :
    ∃ node counter, h[n]? = some node ∧ h[node.total_games]? = some counter ∧
      (k = 0 → node.children = []) ∧
      ∀ slot ∈ node.children, ∃ c, slot.1 = some c ∧ treeBelow h (k - 1) c = true := by
  cases k with
  | zero =>
    unfold treeBelow at ht
    cases hn : h[n]? with
    | none => rw [hn] at ht; exact Bool.noConfusion ht
    | some node =>
      rw [hn] at ht
      simp only [Bool.and_eq_true, List.isEmpty_iff, Option.isSome_iff_exists] at ht
      obtain ⟨h1, counter, h2⟩ := ht
      refine ⟨node, counter, rfl, h2, fun _ => h1, ?_⟩
      intro slot hs
      rw [h1] at hs
      simp at hs
  | succ k =>
    unfold treeBelow at ht
    cases hn : h[n]? with
    | none => rw [hn] at ht; exact Bool.noConfusion ht
    | some node =>
      rw [hn] at ht
      simp only [Bool.and_eq_true, List.all_eq_true, Option.isSome_iff_exists] at ht
      obtain ⟨⟨counter, h2⟩, h1⟩ := ht
      refine ⟨node, counter, rfl, h2, fun h0 => by omega, ?_⟩
      intro slot hs
      have := h1 slot hs
      cases hs1 : slot.1 with
      | none => rw [hs1] at this; exact Bool.noConfusion this
      | some c =>
        rw [hs1] at this
        exact ⟨c, rfl, this⟩

theorem traversal_leaf {D : Type} [LinearOrder D] (ops : DoubleOps D) (h : Heap) (n : Nat)
    (node : Node) (hn : h[n]? = some node) (hc : node.children = []) (fuel : Nat) :
    traversal ops (fuel + 1) h n = some n := by
  unfold traversal
  simp only [hn, hc]

theorem traversal_descends {D : Type} [LinearOrder D] (ops : DoubleOps D) (h : Heap) :
    ∀ (k root : Nat), treeBelow h k root = true → ∀ (fuel : Nat), k + 1 ≤ fuel →
      ∃ (target : Nat) (leaf : Node), traversal ops fuel h root = some target ∧
        h[target]? = some leaf ∧ leaf.children = [] ∧ Descends h root target := by
  intro k
  induction k with
  | zero =>
    intro root ht fuel hf
    obtain ⟨node, _, hn, _, hc, _⟩ := treeBelow_node h 0 root ht
    obtain ⟨f, rfl⟩ : ∃ f, fuel = f + 1 := ⟨fuel - 1, by omega⟩
    exact ⟨root, node, traversal_leaf ops h root node hn (hc rfl) f, hn, hc rfl,
      Descends.here root⟩
  | succ k ih =>
    intro root ht fuel hf
    obtain ⟨node, _, hn, _, _, hslots⟩ := treeBelow_node h (k + 1) root ht
    obtain ⟨f, rfl⟩ : ∃ f, fuel = f + 1 := ⟨fuel - 1, by omega⟩
    by_cases hc : node.children = []
    · exact ⟨root, node, traversal_leaf ops h root node hn hc f, hn, hc, Descends.here root⟩
    · have hall : ∀ slot ∈ node.children, ∃ (c : Nat) (v : D), slot.1 = some c ∧
          traversalEval ops h slot = some v := by
        intro slot hs
        obtain ⟨c, hc1, hc2⟩ := hslots slot hs
        obtain ⟨cn, counter, hcn, hcount, _, _⟩ := treeBelow_node h _ c hc2
        obtain ⟨s1, s2⟩ := slot
        simp only at hc1
        subst hc1
        exact ⟨c, _, rfl, traversalEval_of ops h c s2 cn counter hcn hcount⟩
      obtain ⟨i, c, p, v, a1, _, a3, _, _⟩ := traversal_step ops h root node hn hc hall f
      have hmem := List.getElem?_mem a1
      obtain ⟨c1, hc1, hc2⟩ := hslots _ hmem
      simp only at hc1
      injection hc1 with hc1
      subst hc1
      simp only [Nat.add_sub_cancel] at hc2
      obtain ⟨target, leaf, b1, b2, b3, b4⟩ := ih c hc2 f (by omega)
      exact ⟨target, leaf, by rw [a3, b1], b2, b3,
        Descends.child root c target node (some c, p) hn hmem rfl b4⟩

theorem mergeChild_spec (h : Heap) (r0 rt i : Nat) (root0 roott : Node) (c0 ct : Nat)
    (p0 pt : Point) (n0 nt : Node) (h0 : h[r0]? = some root0) (ht : h[rt]? = some roott)
    (hs0 : root0.children[i]? = some (some c0, p0))
    (hst : roott.children[i]? = some (some ct, pt))
    (hn0 : h[c0]? = some n0) (hnt : h[ct]? = some nt) (hne : c0 ≠ ct) :
    mergeChild h r0 rt i =
      some (h.set c0 { n0 with partial_wins := n0.partial_wins + nt.partial_wins,
                               partial_games := n0.partial_games + nt.partial_games }) := by
  have hlt := heap_lt_of_some hn0
  unfold mergeChild
  simp only [h0, ht, hs0, hst, hn0, hnt]
  simp only [List.getElem?_set, hlt, hne, if_true, if_false, hnt, List.set_set]

theorem mergeInv_zero (e : Heap) (A B : List (Option Nat)) : mergeInv e A B 0 e :=
  ⟨rfl, fun _ node ha => ⟨node, ha, rfl⟩, fun _ _ => rfl,
    fun k _ _ _ _ hk => absurd hk (Nat.not_lt_zero k)⟩

theorem slot_of_map {slots : List (Option Nat × Point)} {k : Nat} {oa : Option Nat}
    (hk : (slots.map Prod.fst)[k]? = some oa) :
    ∃ p : Point, slots[k]? = some (oa, p) := by
  rw [List.getElem?_map] at hk
  cases hs : slots[k]? with
  | none => rw [hs] at hk; simp at hk
  | some slot =>
    rw [hs] at hk
    simp only [Option.map_some', Option.some.injEq] at hk
    subst hk
    exact ⟨slot.2, rfl⟩

theorem map_of_slot {slots : List (Option Nat × Point)} {k : Nat} {slot : Option Nat × Point}
    (hk : slots[k]? = some slot) : (slots.map Prod.fst)[k]? = some slot.1 := by
  rw [List.getElem?_map, hk]
  rfl

/-- The inner loop of the merge returns and adds the statistics of child `k` of the thread root
to child `k` of `root[0]`, for every `k` from the start index on. -/
theorem mergeThread_spec (e : Heap) (r0 rt : Nat) (R0 Rt : Node)
    (he0 : e[r0]? = some R0) (het : e[rt]? = some Rt)
    (hlen : Rt.children.length = R0.children.length)
    (hnodup : (R0.children.map Prod.fst).Nodup)
    (h0 : ∀ slot ∈ R0.children, slotAllocated e slot = true)
    (h1 : ∀ slot ∈ Rt.children, slotAllocated e slot = true ∧
      slot.1 ∉ R0.children.map Prod.fst) :
    ∀ (d i : Nat) (hc : Heap), i + d = R0.children.length →
      mergeInv e (R0.children.map Prod.fst) (Rt.children.map Prod.fst) i hc →
      ∀ fuel : Nat, d + 1 ≤ fuel →
        ∃ e1 : Heap, mergeThread r0 rt fuel i hc = some e1 ∧
          mergeInv e (R0.children.map Prod.fst) (Rt.children.map Prod.fst)
            R0.children.length e1 := by
  intro d
  induction d with
  | zero =>
    intro i hc hi hinv fuel hf
    obtain ⟨f, rfl⟩ : ∃ f, fuel = f + 1 := ⟨fuel - 1, by omega⟩
    obtain ⟨Rt1, hRt1, hch1⟩ := hinv.2.1 rt Rt het
    refine ⟨hc, ?_, ?_⟩
    · unfold mergeThread
      simp only [hRt1, hch1]
      rw [if_neg (by omega)]
    · have : i = R0.children.length := by omega
      rw [← this]
      exact hinv
  | succ d ih =>
    intro i hc hi hinv fuel hf
    obtain ⟨f, rfl⟩ : ∃ f, fuel = f + 1 := ⟨fuel - 1, by omega⟩
    obtain ⟨k1, k2, k3, k4⟩ := hinv
    obtain ⟨R01, hR01, hch0⟩ := k2 r0 R0 he0
    obtain ⟨Rt1, hRt1, hch1⟩ := k2 rt Rt het
    have hi0 : i < R0.children.length := by omega
    have hit : i < Rt.children.length := by omega
    obtain ⟨slot0, hslot0⟩ : ∃ slot0, R0.children[i]? = some slot0 :=
      ⟨_, List.getElem?_eq_getElem hi0⟩
    obtain ⟨slott, hslott⟩ : ∃ slott, Rt.children[i]? = some slott :=
      ⟨_, List.getElem?_eq_getElem hit⟩
    obtain ⟨a, n0, hsa, hn0⟩ := (slotAllocated_iff e slot0).1 (h0 slot0 (List.getElem?_mem hslot0))
    obtain ⟨hbal, hbnot⟩ := h1 slott (List.getElem?_mem hslott)
    obtain ⟨b, nt, hsb, hnt⟩ := (slotAllocated_iff e slott).1 hbal
    obtain ⟨oa, p0⟩ := slot0
    obtain ⟨ob, pt⟩ := slott
    simp only at hsa hsb hbnot
    subst hsa
    subst hsb
    have hAi : (R0.children.map Prod.fst)[i]? = some (some a) := map_of_slot hslot0
    have hBi : (Rt.children.map Prod.fst)[i]? = some (some b) := map_of_slot hslott
    have hAlen : i < (R0.children.map Prod.fst).length := by
      rw [List.length_map]; exact hi0
    have hca : hc[a]? = some n0 := by
      rw [k3 a, hn0]
      intro k hk hAk
      have := List.getElem?_inj hAlen hnodup (hAi.trans hAk.symm)
      omega
    have hcb : hc[b]? = some nt := by
      rw [k3 b, hnt]
      intro k _ hAk
      exact hbnot (List.getElem?_mem hAk)
    have hab : a ≠ b := by
      intro hab
      subst hab
      exact hbnot (List.getElem?_mem hAi)
    have hstep := mergeChild_spec hc r0 rt i R01 Rt1 a b p0 pt n0 nt hR01 hRt1
      (by rw [hch0]; exact hslot0) (by rw [hch1]; exact hslott) hca hcb hab
    have halt := heap_lt_of_some hca
    have hnext : mergeInv e (R0.children.map Prod.fst) (Rt.children.map Prod.fst) (i + 1)
        (hc.set a (n0.addStats nt)) := by
      refine ⟨by rw [List.length_set]; exact k1, ?_, ?_, ?_⟩
      · intro a1 node ha1
        by_cases haa : a = a1
        · subst haa
          rw [hn0] at ha1
          injection ha1 with ha1
          subst ha1
          refine ⟨n0.addStats nt, ?_, rfl⟩
          simp only [List.getElem?_set, halt, if_true]
        · obtain ⟨node1, hnode1, hch⟩ := k2 a1 node ha1
          refine ⟨node1, ?_, hch⟩
          simp only [List.getElem?_set, haa, if_false]
          exact hnode1
      · intro a1 hfar
        have haa : a ≠ a1 := by
          intro haa
          subst haa
          exact hfar i (by omega) hAi
        simp only [List.getElem?_set, haa, if_false]
        exact k3 a1 (fun k hk => hfar k (by omega))
      · intro k a1 b1 n01 nt1 hk hAk hBk hn01 hnt1
        by_cases hki : k = i
        · subst hki
          rw [hAi] at hAk
          rw [hBi] at hBk
          simp only [Option.some.injEq] at hAk hBk
          subst hAk
          subst hBk
          rw [hn0] at hn01
          rw [hnt] at hnt1
          injection hn01 with hn01
          injection hnt1 with hnt1
          subst hn01
          subst hnt1
          simp only [List.getElem?_set, halt, if_true]
        · have haa : a ≠ a1 := by
            intro haa
            subst haa
            have := List.getElem?_inj hAlen hnodup (hAi.trans hAk.symm)
            omega
          simp only [List.getElem?_set, haa, if_false]
          exact k4 k a1 b1 n01 nt1 (by omega) hAk hBk hn01 hnt1
    obtain ⟨e1, he1, hinv1⟩ := ih (i + 1) (hc.set a (n0.addStats nt)) (by omega) hnext f
      (by omega)
    refine ⟨e1, ?_, hinv1⟩
    rw [mergeThread]
    simp only [hRt1, hch1, if_pos hit, hstep]
    exact he1

theorem threadReady_spec (h : Heap) (root0 : Node) (rt : Nat)
    (hr : threadReady h root0 rt = true) :
    ∃ roott : Node, h[rt]? = some roott ∧ roott.children.length = root0.children.length ∧
      ∀ slot ∈ roott.children, slotAllocated h slot = true ∧
        slot.1 ∉ root0.children.map Prod.fst := by
  unfold threadReady at hr
  cases hrt : h[rt]? with
  | none => rw [hrt] at hr; exact Bool.noConfusion hr
  | some roott =>
    rw [hrt] at hr
    simp only [Bool.and_eq_true, decide_eq_true_eq, List.all_eq_true] at hr
    exact ⟨roott, rfl, hr.1, hr.2⟩

/-- The outer loop of the merge returns; child `k` of `root[0]` receives the statistics of child
`k` of every thread root, and nothing else changes. -/
theorem mergeThreads_spec (h : Heap) (r0 : Nat) (R0 : Node) (h0 : h[r0]? = some R0)
    (hnodup : (R0.children.map Prod.fst).Nodup)
    (halloc : ∀ slot ∈ R0.children, slotAllocated h slot = true)
    (fuel : Nat) (hf : R0.children.length + 1 ≤ fuel) :
    ∀ (rest : List Nat) (hc : Heap), (∀ rt ∈ rest, threadReady h R0 rt = true) →
      hc.length = h.length →
      (∀ (a : Nat) (node : Node), h[a]? = some node →
        ∃ node1 : Node, hc[a]? = some node1 ∧ node1.children = node.children) →
      (∀ a : Nat, some a ∉ R0.children.map Prod.fst → hc[a]? = h[a]?) →
      ∃ h1 : Heap, mergeThreads fuel r0 rest hc = some h1 ∧ h1.length = h.length ∧
        (∀ (a : Nat) (node : Node), h[a]? = some node →
          ∃ node1 : Node, h1[a]? = some node1 ∧ node1.children = node.children) ∧
        (∀ a : Nat, some a ∉ R0.children.map Prod.fst → h1[a]? = h[a]?) ∧
        (∀ (k a : Nat) (nc : Node), (R0.children.map Prod.fst)[k]? = some (some a) →
          hc[a]? = some nc →
          h1[a]? = some { nc with
            partial_wins := nc.partial_wins + sumStat Node.partial_wins h rest k,
            partial_games := nc.partial_games + sumStat Node.partial_games h rest k }) := by
  intro rest
  induction rest with
  | nil =>
    intro hc _ hl hshape hfar
    refine ⟨hc, rfl, hl, hshape, hfar, ?_⟩
    intro k a nc _ hnc
    rw [hnc]
    simp [sumStat]
  | cons rt rest ih =>
    intro hc hready hl hshape hfar
    obtain ⟨Rt, hRt, hlen, hslots⟩ := threadReady_spec h R0 rt (hready rt (List.mem_cons_self _ _))
    obtain ⟨R0c, hR0c, hch0⟩ := hshape r0 R0 h0
    obtain ⟨Rtc, hRtc, hcht⟩ := hshape rt Rt hRt
    have hallocc : ∀ slot, slotAllocated h slot = true → slotAllocated hc slot = true := by
      intro slot hs
      obtain ⟨c, child, hc1, hc2⟩ := (slotAllocated_iff h slot).1 hs
      obtain ⟨child1, hchild1, _⟩ := hshape c child hc2
      exact (slotAllocated_iff hc slot).2 ⟨c, child1, hc1, hchild1⟩
    obtain ⟨e1, he1, i1, i2, i3, i4⟩ := mergeThread_spec hc r0 rt R0c Rtc hR0c hRtc
      (by rw [hch0, hcht]; exact hlen) (by rw [hch0]; exact hnodup)
      (by rw [hch0]; exact fun slot hs => hallocc slot (halloc slot hs))
      (by rw [hch0, hcht]; exact fun slot hs => ⟨hallocc slot (hslots slot hs).1, (hslots slot hs).2⟩)
      R0c.children.length 0 hc (by omega) (mergeInv_zero _ _ _) fuel (by rw [hch0]; exact hf)
    rw [hch0] at i3 i4
    rw [hcht] at i4
    have hfar1 : ∀ a : Nat, some a ∉ R0.children.map Prod.fst → e1[a]? = h[a]? := by
      intro a ha
      rw [i3 a (fun k _ hk => ha (List.getElem?_mem hk))]
      exact hfar a ha
    have hshape1 : ∀ (a : Nat) (node : Node), h[a]? = some node →
        ∃ node1 : Node, e1[a]? = some node1 ∧ node1.children = node.children := by
      intro a node ha
      obtain ⟨nodec, hnodec, hchc⟩ := hshape a node ha
      obtain ⟨node1, hnode1, hch1⟩ := i2 a nodec hnodec
      exact ⟨node1, hnode1, by rw [hch1, hchc]⟩
    obtain ⟨h1, hrun, hl1, hs1, hf1, hsum⟩ :=
      ih e1 (fun rt1 hrt1 => hready rt1 (List.mem_cons_of_mem _ hrt1)) (by rw [i1]; exact hl)
        hshape1 hfar1
    refine ⟨h1, ?_, hl1, hs1, hf1, ?_⟩
    · unfold mergeThreads
      simp only [he1]
      exact hrun
    · intro k a nc hAk hnc
      have hk : k < R0.children.length := by
        have := (List.getElem?_eq_some_iff.1 hAk).1
        rw [List.length_map] at this
        exact this
      obtain ⟨slott, hslott⟩ : ∃ slott, Rt.children[k]? = some slott :=
        ⟨_, List.getElem?_eq_getElem (by omega)⟩
      obtain ⟨hbal, hbnot⟩ := hslots slott (List.getElem?_mem hslott)
      obtain ⟨b, nt, hsb, hnt⟩ := (slotAllocated_iff h slott).1 hbal
      have hBk : (Rt.children.map Prod.fst)[k]? = some (some b) := by
        rw [map_of_slot hslott, hsb]
      have hcb : hc[b]? = some nt := by
        rw [hfar b (by rw [← hsb]; exact hbnot), hnt]
      have he1a := i4 k a b nc nt hk hAk hBk hnc hcb
      have hstat : ∀ stat : Node → Int,
          sumStat stat h (rt :: rest) k = stat nt + sumStat stat h rest k := by
        intro stat
        unfold sumStat childAt
        simp only [List.map_cons, List.sum_cons, hRt, hslott, hsb, hnt, Option.map_some',
          Option.getD_some]
      rw [hsum k a (nc.addStats nt) hAk he1a, hstat, hstat]
      unfold Node.addStats
      simp only [add_assoc]

/-! ## Terminal test -/

/-- C1: on a board whose 64 cells all hold 0, 1 or 2, `isTerminal` returns true if and only if
neither colour has a legal destination; and the legal destinations of colour `c` (empty cell, a
direction whose adjacent cell holds the other colour and in which a cell of colour `c` is reached
before an empty cell or the edge) are exactly the cells that the scan of `expansion` lists when it
runs with `player = 3 - c`. -/
theorem isTerminal_iff_no_legal_destination (b : Board) (hv : validBoard b) :
    (isTerminal b = true ↔ legalDestinations b 1 = [] ∧ legalDestinations b 2 = []) ∧
    (∀ c : Int, (expansionScan b (3 - c)).map Prod.snd = legalDestinations b c) := by
  refine ⟨?_, fun c => ?_⟩
  · rw [isTerminal_eq_true_iff b hv, legalDestinations_eq_nil, legalDestinations_eq_nil]
    constructor
    · intro h; exact ⟨fun p hp => (h p hp).1, fun p hp => (h p hp).2⟩
    · intro h p hp; exact ⟨h.1 p hp, h.2 p hp⟩
  · rw [expansionScan_legal b hv, List.map_map]
    have : (3 : Int) - (3 - c) = c := by ring
    rw [this]
    simp [Function.comp]

set_option maxRecDepth 100000 in
theorem isTerminal_iff_no_legal_destination_witness :
    validBoard openingBoard ∧
    ((isTerminal openingBoard = true ↔
        legalDestinations openingBoard 1 = [] ∧ legalDestinations openingBoard 2 = []) ∧
      (∀ c : Int, (expansionScan openingBoard (3 - c)).map Prod.snd =
        legalDestinations openingBoard c)) :=
  ⟨by decide, isTerminal_iff_no_legal_destination openingBoard (by decide)⟩

/-- C10: every board with no empty cell (each of the 64 cells holds 1 or 2) is terminal for
`isTerminal(board)`, and every node whose `disc_count[0]` is 0 is terminal for
`isTerminal(node)`, whatever the distribution of the two colours. -/
theorem isTerminal_of_full :
    (∀ b : Board, (∀ p ∈ allCells, getCell b p = 1 ∨ getCell b p = 2) → isTerminal b = true) ∧
    (∀ node : Node, node.disc_count.get 0 = 0 → isTerminalNode node = true) := by
  constructor
  · intro b hb
    unfold isTerminal
    simp only [Bool.not_eq_true', List.any_eq_false, List.mem_range, Bool.and_eq_true, beq_iff_eq,
      List.any_eq_true, not_and, not_exists, SIZE]
    intro i hi j hj he
    have := hb _ ((mem_allCells ⟨i, j⟩).2 (onBoard_mk i j hi hj))
    unfold EMPTY at he
    omega
  · intro node hn
    unfold isTerminalNode
    rw [if_pos hn]

set_option maxRecDepth 100000 in
theorem isTerminal_of_full_witness :
    (∀ p ∈ allCells, getCell fullBoard p = 1 ∨ getCell fullBoard p = 2) ∧
    fullNode.disc_count.get 0 = 0 ∧
    isTerminal fullBoard = true ∧ isTerminalNode fullNode = true :=
  ⟨by decide, by decide, isTerminal_of_full.1 fullBoard (by decide),
    isTerminal_of_full.2 fullNode (by decide)⟩

/-! ## Board codec -/

/-- C5: round trip of the board encoding.  For every 8x8 grid with values in `{0, 1, 2}`, decoding
cell `(i, j)` of the board packed by the constructor with the expression
`(board[i >> 2] >> ((((i & 3) << 3) + j) << 1)) & 3` gives `g[i][j]`, for every `i, j` in `[0, 8)`.
This includes the two cells at bit offset 62, `(3, 7)` and `(7, 7)`: when they hold 2 the word is
negative (the sign bit is set) and the cell still decodes to 2. -/
theorem encode_decode_roundtrip (self : Nat) (g : Grid) (player : Int) (hg : validGrid g) :
    (∀ i < SIZE, ∀ j < SIZE, getCell (Node.ofGrid self g player).board ⟨i, j⟩ = g i j) ∧
    (g 3 7 = 2 → (Node.ofGrid self g player).board.w0 < 0 ∧
      getCell (Node.ofGrid self g player).board ⟨3, 7⟩ = 2) ∧
    (g 7 7 = 2 → (Node.ofGrid self g player).board.w1 < 0 ∧
      getCell (Node.ofGrid self g player).board ⟨7, 7⟩ = 2) := by
  have hall : ∀ i < SIZE, ∀ j < SIZE,
      getCell (Node.ofGrid self g player).board ⟨i, j⟩ = g i j := by
    intro i hi j hj
    have := getCell_encodeGrid g hg ⟨i, j⟩ (onBoard_mk i j hi hj)
    simpa [Node.ofGrid] using this
  have hr := encodeGrid_range g
  refine ⟨hall, fun h => ?_, fun h => ?_⟩
  · have hc := hall 3 (by decide) 7 (by decide)
    rw [h] at hc
    refine ⟨?_, hc⟩
    have e : getCell (Node.ofGrid self g player).board ⟨3, 7⟩ = cellOf (encodeGrid g).1.w0 31 := by
      rw [getCell_eq _ (by decide : onBoard ⟨3, 7⟩)]
      rfl
    have hc' : getCell (Node.ofGrid self g player).board ⟨3, 7⟩ = 2 := hc
    rw [e] at hc'
    exact top_field_sign _ hr.1.1 hr.1.2 hc'
  · have hc := hall 7 (by decide) 7 (by decide)
    rw [h] at hc
    refine ⟨?_, hc⟩
    have e : getCell (Node.ofGrid self g player).board ⟨7, 7⟩ = cellOf (encodeGrid g).1.w1 31 := by
      rw [getCell_eq _ (by decide : onBoard ⟨7, 7⟩)]
      rfl
    have hc' : getCell (Node.ofGrid self g player).board ⟨7, 7⟩ = 2 := hc
    rw [e] at hc'
    exact top_field_sign _ hr.2.1 hr.2.2 hc'

set_option maxRecDepth 100000 in
theorem encode_decode_roundtrip_witness :
    validGrid (fun _ _ => 2) ∧
    ((∀ i < SIZE, ∀ j < SIZE, getCell (Node.ofGrid 0 (fun _ _ => 2) 1).board ⟨i, j⟩ = 2) ∧
     (((fun _ _ => 2) : Grid) 3 7 = 2 → (Node.ofGrid 0 (fun _ _ => 2) 1).board.w0 < 0 ∧
        getCell (Node.ofGrid 0 (fun _ _ => 2) 1).board ⟨3, 7⟩ = 2) ∧
     (((fun _ _ => 2) : Grid) 7 7 = 2 → (Node.ofGrid 0 (fun _ _ => 2) 1).board.w1 < 0 ∧
        getCell (Node.ofGrid 0 (fun _ _ => 2) 1).board ⟨7, 7⟩ = 2)) :=
  ⟨by decide, encode_decode_roundtrip 0 (fun _ _ => 2) 1 (by decide)⟩

/-! ## Expansion -/

set_option maxRecDepth 100000 in
theorem allCells_sorted : allCells.Pairwise fun p q => cellIndex p < cellIndex q := by
  decide

set_option maxRecDepth 100000 in
/-- C6: for a childless node on a board with cells in `{0, 1, 2}` whose mover (colour
`3 - node.player`) has a legal destination, the coordinates of the children left by `expansion`
are exactly the legal destinations of the mover (empty cells with a qualifying direction), each
listed once, in increasing row-major order `i * 8 + j`.  On the standard opening with
`node.player = 2` they are `(2,3), (3,2), (4,5), (5,4)` in that order. -/
theorem expansion_children_are_legal_destinations (h : Heap) (n : Nat) (node : Node)
    (hn : h[n]? = some node) (hc : node.children = []) (hv : validBoard node.board)
    (hl : legalDestinations node.board (3 - node.player) ≠ []) :
    (∃ node', (expansion h n)[n]? = some node' ∧
      node'.children.map Prod.snd = legalDestinations node.board (3 - node.player)) ∧
    (∀ p, p ∈ legalDestinations node.board (3 - node.player) ↔
      onBoard p ∧ LegalDest node.board (3 - node.player) p) ∧
    (legalDestinations node.board (3 - node.player)).Nodup ∧
    (legalDestinations node.board (3 - node.player)).Pairwise
      (fun p q => cellIndex p < cellIndex q) ∧
    ((expansion [Node.ofGrid 0 openingGrid 2] 0)[0]?.map fun nd => nd.children.map Prod.snd) =
      some [⟨2, 3⟩, ⟨3, 2⟩, ⟨4, 5⟩, ⟨5, 4⟩] := by
  have hscan := expansionScan_legal node.board hv node.player
  have hs : expansionScan node.board node.player ≠ [] := by
    rw [hscan]
    intro h0
    exact hl (List.map_eq_nil_iff.1 h0)
  obtain ⟨C, h1, _, h3, _, h5⟩ := expansion_move_spec h n node hn hc hs
  refine ⟨⟨_, h1, ?_⟩, mem_legalDestinations _ _, ?_, ?_, by decide⟩
  · simp only
    have hmap : (expansionScan node.board node.player).map Prod.snd =
        legalDestinations node.board (3 - node.player) := by
      rw [hscan, List.map_map]; simp [Function.comp]
    rw [← hmap]
    apply List.ext_getElem?
    intro i
    rw [List.getElem?_map, List.getElem?_map]
    cases hsi : (expansionScan node.board node.player)[i]? with
    | none =>
      have : C[i]? = none := by
        rw [List.getElem?_eq_none_iff] at hsi ⊢
        omega
      rw [this]
    | some s =>
      rw [(h5 i s hsi).1]; rfl
  · exact allCells_nodup.filter _
  · exact allCells_sorted.filter _

set_option maxRecDepth 100000 in
theorem expansion_children_are_legal_destinations_witness :
    [Node.ofGrid 0 openingGrid 2][0]? = some (Node.ofGrid 0 openingGrid 2) ∧
    (Node.ofGrid 0 openingGrid 2).children = [] ∧
    validBoard (Node.ofGrid 0 openingGrid 2).board ∧
    legalDestinations (Node.ofGrid 0 openingGrid 2).board (3 - 2) ≠ [] ∧
    (∃ node', (expansion [Node.ofGrid 0 openingGrid 2] 0)[0]? = some node' ∧
      node'.children.map Prod.snd = legalDestinations (Node.ofGrid 0 openingGrid 2).board (3 - 2)) :=
  ⟨rfl, rfl, by decide, by decide,
    (expansion_children_are_legal_destinations [Node.ofGrid 0 openingGrid 2] 0
      (Node.ofGrid 0 openingGrid 2) rfl rfl (by decide) (by decide)).1⟩

/-- C2: for a childless node on a board with cells in `{0, 1, 2}` whose mover (colour
`3 - node.player`) has a legal destination, every child slot left by `expansion` holds an
allocated child, its coordinate `dest` is a cell of the board, and the child's board differs from
the parent's only at `dest`, which holds the mover's colour, and at the captured cells (those
strictly between `dest` and the first mover-coloured cell reached in a direction through a
contiguous run of opponent discs), each of which held the opponent's colour `node.player` and
holds the mover's colour in the child; every other cell is unchanged. -/
theorem expansion_child_board (h : Heap) (n : Nat) (node : Node)
    (hn : h[n]? = some node) (hc : node.children = []) (hv : validBoard node.board)
    (hl : legalDestinations node.board (3 - node.player) ≠ [])
    (node' : Node) (hn' : (expansion h n)[n]? = some node')
    (idx : Nat) (slot : Option Nat × Point) (hslot : node'.children[idx]? = some slot) :
    ∃ addr child, slot.1 = some addr ∧ (expansion h n)[addr]? = some child ∧
      onBoard slot.2 ∧
      (∀ q, onBoard q →
        getCell child.board q =
          if q = slot.2 then 3 - node.player
          else if Captured node.board (3 - node.player) slot.2 q then 3 - node.player
          else getCell node.board q) ∧
      (∀ q, Captured node.board (3 - node.player) slot.2 q →
        onBoard q ∧ q ≠ slot.2 ∧ getCell node.board q = node.player) := by
  have hscan := expansionScan_legal node.board hv node.player
  have hs : expansionScan node.board node.player ≠ [] := by
    rw [hscan]
    intro h0
    exact hl (List.map_eq_nil_iff.1 h0)
  obtain ⟨C, h1, _, h3, _, h5⟩ := expansion_move_spec h n node hn hc hs
  rw [h1] at hn'
  injection hn' with hn'
  subst hn'
  simp only at hslot
  have hidx : idx < (expansionScan node.board node.player).length := by
    rw [← h3]
    rcases Nat.lt_or_ge idx C.length with hlt | hge
    · exact hlt
    · rw [List.getElem?_eq_none hge] at hslot; simp at hslot
  obtain ⟨s, hsi⟩ : ∃ s, (expansionScan node.board node.player)[idx]? = some s :=
    ⟨_, List.getElem?_eq_getElem hidx⟩
  obtain ⟨c1, c2⟩ := h5 idx s hsi
  rw [c1] at hslot
  injection hslot with hslot
  subst hslot
  obtain ⟨hon, _, hpl, _⟩ := scan_slot node.board hv node.player idx s hsi
  refine ⟨h.length + idx, moveChild node n s.2, rfl, c2, hon,
    fun q hq => moveChild_cells node n s.2 hv hpl hon q hq, ?_⟩
  rintro q ⟨d, hd, m, _, t, htm, ht1, rfl, _, _, hrun⟩
  have := hrun t htm ht1
  refine ⟨this.1, ray_ne_start (dirOf_isStep d hd) t ht1, ?_⟩
  rw [this.2]; ring

set_option maxRecDepth 100000 in
theorem expansion_child_board_witness :
    [Node.ofGrid 0 openingGrid 2][0]? = some (Node.ofGrid 0 openingGrid 2) ∧
    (Node.ofGrid 0 openingGrid 2).children = [] ∧
    validBoard (Node.ofGrid 0 openingGrid 2).board ∧
    legalDestinations (Node.ofGrid 0 openingGrid 2).board (3 - 2) ≠ [] ∧
    ∃ addr child, (some 1, Point.mk 2 3).1 = some addr ∧
      (expansion [Node.ofGrid 0 openingGrid 2] 0)[addr]? = some child ∧
      onBoard (some 1, Point.mk 2 3).2 ∧
      (∀ q, onBoard q →
        getCell child.board q =
          if q = (some 1, Point.mk 2 3).2 then 3 - (Node.ofGrid 0 openingGrid 2).player
          else if Captured (Node.ofGrid 0 openingGrid 2).board
              (3 - (Node.ofGrid 0 openingGrid 2).player) (some 1, Point.mk 2 3).2 q
            then 3 - (Node.ofGrid 0 openingGrid 2).player
          else getCell (Node.ofGrid 0 openingGrid 2).board q) ∧
      (∀ q, Captured (Node.ofGrid 0 openingGrid 2).board
          (3 - (Node.ofGrid 0 openingGrid 2).player) (some 1, Point.mk 2 3).2 q →
        onBoard q ∧ q ≠ (some 1, Point.mk 2 3).2 ∧
          getCell (Node.ofGrid 0 openingGrid 2).board q = (Node.ofGrid 0 openingGrid 2).player) :=
  ⟨rfl, rfl, by decide, by decide,
    expansion_child_board [Node.ofGrid 0 openingGrid 2] 0 (Node.ofGrid 0 openingGrid 2) rfl rfl
      (by decide) (by decide)
      { Node.ofGrid 0 openingGrid 2 with
        children := [(some 1, ⟨2, 3⟩), (some 2, ⟨3, 2⟩), (some 3, ⟨4, 5⟩), (some 4, ⟨5, 4⟩)] }
      (by decide) 0 (some 1, ⟨2, 3⟩) rfl⟩

/-- C4: well-formedness (every cell decodes to a value of `{0, 1, 2}`, and `disc_count[v]` is the
number of cells that decode to `v`) holds for the root built by the constructor from a grid of
values in `{0, 1, 2}`, and every child that `expansion` builds for a childless well-formed node,
move child or pass child, is allocated and well formed. -/
theorem wellFormed_root_and_children :
    (∀ (self : Nat) (g : Grid) (player : Int), validGrid g →
      wellFormed (Node.ofGrid self g player).board (Node.ofGrid self g player).disc_count) ∧
    (∀ (h : Heap) (n : Nat) (node : Node), h[n]? = some node → node.children = [] →
      wellFormed node.board node.disc_count →
      ∀ (node' : Node), (expansion h n)[n]? = some node' →
        node'.children ≠ [] ∧
        ∀ (idx : Nat) (slot : Option Nat × Point), node'.children[idx]? = some slot →
          ∃ addr child, slot.1 = some addr ∧ (expansion h n)[addr]? = some child ∧
            wellFormed child.board child.disc_count) := by
  refine ⟨fun self g player hg => wellFormed_encodeGrid g hg, ?_⟩
  intro h n node hn hc hwf node' hn'
  have hv := hwf.1
  by_cases hs : expansionScan node.board node.player = []
  · obtain ⟨p1, _, _, p4⟩ := expansion_pass_spec h n node hn hc hs
    rw [p1] at hn'
    injection hn' with hn'
    subst hn'
    refine ⟨by simp, fun idx slot hslot => ?_⟩
    simp only at hslot
    cases idx with
    | zero =>
      simp only [List.getElem?_cons_zero] at hslot
      injection hslot with hslot
      subst hslot
      exact ⟨h.length, passChild node n, rfl, p4, hwf⟩
    | succ idx => simp at hslot
  · obtain ⟨C, h1, _, h3, _, h5⟩ := expansion_move_spec h n node hn hc hs
    rw [h1] at hn'
    injection hn' with hn'
    subst hn'
    simp only
    refine ⟨?_, fun idx slot hslot => ?_⟩
    · intro hC
      rw [hC] at h3
      exact hs (List.length_eq_zero.1 h3.symm)
    have hidx : idx < (expansionScan node.board node.player).length := by
      rw [← h3]
      rcases Nat.lt_or_ge idx C.length with hlt | hge
      · exact hlt
      · rw [List.getElem?_eq_none hge] at hslot; simp at hslot
    obtain ⟨s, hsi⟩ : ∃ s, (expansionScan node.board node.player)[idx]? = some s :=
      ⟨_, List.getElem?_eq_getElem hidx⟩
    obtain ⟨c1, c2⟩ := h5 idx s hsi
    rw [c1] at hslot
    injection hslot with hslot
    subst hslot
    obtain ⟨hon, hemp, hpl, _⟩ := scan_slot node.board hv node.player idx s hsi
    exact ⟨h.length + idx, moveChild node n s.2, rfl, c2,
      moveChild_wf node n s.2 hwf hpl hon hemp⟩

set_option maxRecDepth 100000 in
theorem wellFormed_root_and_children_witness :
    validGrid openingGrid ∧
    wellFormed (Node.ofGrid 0 openingGrid 2).board (Node.ofGrid 0 openingGrid 2).disc_count ∧
    [Node.ofGrid 0 openingGrid 2][0]? = some (Node.ofGrid 0 openingGrid 2) ∧
    ∃ addr child, (some 1, Point.mk 2 3).1 = some addr ∧
      (expansion [Node.ofGrid 0 openingGrid 2] 0)[addr]? = some child ∧
      wellFormed child.board child.disc_count :=
  ⟨by decide, wellFormed_root_and_children.1 0 openingGrid 2 (by decide), rfl,
    (wellFormed_root_and_children.2 [Node.ofGrid 0 openingGrid 2] 0 (Node.ofGrid 0 openingGrid 2)
      rfl rfl (wellFormed_root_and_children.1 0 openingGrid 2 (by decide))
      { Node.ofGrid 0 openingGrid 2 with
        children := [(some 1, ⟨2, 3⟩), (some 2, ⟨3, 2⟩), (some 3, ⟨4, 5⟩), (some 4, ⟨5, 4⟩)] }
      (by decide)).2 0 (some 1, ⟨2, 3⟩) rfl⟩

/-- C9: for a childless node whose mover (colour `3 - node.player`) has no legal destination, i.e.
the legality scan of `expansion` finds no cell, `expansion` produces exactly one child: its
coordinate is `(-1, -1)`, its board words and its three disc counts equal the parent's, its
player is `3 - parent.player`, and its parent link is the expanded node. -/
theorem expansion_pass_child (h : Heap) (n : Nat) (node : Node) (hn : h[n]? = some node)
    (hc : node.children = []) (hs : expansionScan node.board node.player = []) :
    ∃ node' child addr, (expansion h n)[n]? = some node' ∧
      node'.children = [(some addr, ⟨-1, -1⟩)] ∧
      (expansion h n)[addr]? = some child ∧
      child.board.w0 = node.board.w0 ∧ child.board.w1 = node.board.w1 ∧
      child.disc_count.get 0 = node.disc_count.get 0 ∧
      child.disc_count.get 1 = node.disc_count.get 1 ∧
      child.disc_count.get 2 = node.disc_count.get 2 ∧
      child.player = 3 - node.player ∧ child.parent = some n := by
  obtain ⟨p1, _, _, p4⟩ := expansion_pass_spec h n node hn hc hs
  exact ⟨_, passChild node n, h.length, p1, rfl, p4, rfl, rfl, rfl, rfl, rfl, rfl, rfl⟩

set_option maxRecDepth 100000 in
theorem expansion_pass_child_witness :
    [passNode][0]? = some passNode ∧ passNode.children = [] ∧
    expansionScan passNode.board passNode.player = [] ∧
    legalDestinations passNode.board 2 = [] ∧ legalDestinations passNode.board 1 ≠ [] ∧
    passNode.disc_count.get 0 ≠ 0 ∧
    ∃ node' child addr, (expansion [passNode] 0)[0]? = some node' ∧
      node'.children = [(some addr, ⟨-1, -1⟩)] ∧
      (expansion [passNode] 0)[addr]? = some child ∧
      child.board.w0 = passNode.board.w0 ∧ child.board.w1 = passNode.board.w1 ∧
      child.disc_count.get 0 = passNode.disc_count.get 0 ∧
      child.disc_count.get 1 = passNode.disc_count.get 1 ∧
      child.disc_count.get 2 = passNode.disc_count.get 2 ∧
      child.player = 3 - passNode.player ∧ child.parent = some 0 :=
  ⟨rfl, rfl, by decide, by decide, by decide, by decide,
    expansion_pass_child [passNode] 0 passNode rfl rfl (by decide)⟩

set_option maxRecDepth 100000 in
/-- C8, counterexample: `expansion` has no terminal test.  Called on the childless node of a full
board (`disc_count[0] == 0`, so `isTerminal(node)` is true), it appends the pass child
`(-1, -1)`: the node does not stay childless. -/
theorem expansion_terminal_leaf_not_childless :
    isTerminalNode fullNode = true ∧ fullNode.disc_count.get 0 = 0 ∧
    isTerminal fullNode.board = true ∧ fullNode.children = [] ∧
    ((expansion [fullNode] 0)[0]?.map fun nd => nd.children) = some [(some 1, ⟨-1, -1⟩)] := by
  decide

/-- C8, amended: the terminal test is in the callers.  For a node that is terminal
(`disc_count[0] == 0`, or `isTerminal(board)` is true), the guarded call of `main`
(`if (!isTerminal(node)) expansion(node)`) and the guarded call of `monte_carlo_tree_search`
(`if (!isTerminal(curnode) && curnode->partial_games != 0) expansion(curnode)`) leave the heap
unchanged, so a childless terminal node stays childless; `expansion` itself, called on a
childless node, always leaves it with at least one child. -/
theorem guarded_expansion_terminal_leaf (h : Heap) (n : Nat) (node : Node)
    (hn : h[n]? = some node) (hc : node.children = []) (ht : isTerminalNode node = true) :
    expandIfLive h n = h ∧ expandIfVisited h n = (h, some n) ∧
    (∃ node', (expandIfLive h n)[n]? = some node' ∧ node'.children = []) ∧
    (∃ node', (expansion h n)[n]? = some node' ∧ node'.children ≠ []) := by
  have e1 : expandIfLive h n = h := by
    unfold expandIfLive
    rw [hn]
    simp [ht]
  have e2 : expandIfVisited h n = (h, some n) := by
    unfold expandIfVisited
    rw [hn]
    simp [ht]
  refine ⟨e1, e2, ⟨node, by rw [e1]; exact hn, hc⟩, ?_⟩
  by_cases hs : expansionScan node.board node.player = []
  · obtain ⟨p1, _⟩ := expansion_pass_spec h n node hn hc hs
    exact ⟨_, p1, by simp⟩
  · obtain ⟨C, h1, _, h3, _⟩ := expansion_move_spec h n node hn hc hs
    refine ⟨_, h1, ?_⟩
    intro hC
    simp only at hC
    rw [hC] at h3
    exact hs (List.length_eq_zero.1 h3.symm)

set_option maxRecDepth 100000 in
theorem guarded_expansion_terminal_leaf_witness :
    [fullNode][0]? = some fullNode ∧ fullNode.children = [] ∧ isTerminalNode fullNode = true ∧
    (expandIfLive [fullNode] 0 = [fullNode] ∧
      expandIfVisited [fullNode] 0 = ([fullNode], some 0) ∧
      (∃ node', (expandIfLive [fullNode] 0)[0]? = some node' ∧ node'.children = []) ∧
      (∃ node', (expansion [fullNode] 0)[0]? = some node' ∧ node'.children ≠ [])) :=
  ⟨rfl, rfl, by decide, guarded_expansion_terminal_leaf [fullNode] 0 fullNode rfl rfl (by decide)⟩

/-! ## Backpropagation -/

theorem backPropagation_fuel_mono : ∀ (fuel : Nat) (h : Heap) (c : Option Nat) (win : Int)
    (h' : Heap), backPropagation fuel h c win = some h' →
    backPropagation (fuel + 1) h c win = some h' := by
  intro fuel
  induction fuel with
  | zero => intro h c win h' hb; unfold backPropagation at hb; simp at hb
  | succ fuel ih =>
    intro h c win h' hb
    unfold backPropagation at hb ⊢
    cases c with
    | none => exact hb
    | some a =>
      simp only at hb ⊢
      cases hn : h[a]? with
      | none => rw [hn] at hb; simp at hb
      | some node =>
        rw [hn] at hb
        simp only at hb ⊢
        exact ih _ _ _ _ hb

theorem backPropagation_fuel_le (fuel fuel' : Nat) (hle : fuel ≤ fuel') (h : Heap)
    (c : Option Nat) (win : Int) (h' : Heap) (hb : backPropagation fuel h c win = some h') :
    backPropagation fuel' h c win = some h' := by
  induction hle with
  | refl => exact hb
  | step _ ih => exact backPropagation_fuel_mono _ _ _ _ _ ih

set_option maxRecDepth 100000 in
/-- C7, counterexample: at the result `r = -2147483648` (`INT_MIN`) the statement `win = -win`
overflows and leaves `-2147483648` in `win`.  Propagated from the node at address 1 of the opening
heap, which is at depth 1, this result leaves `-2147483648` in the `partial_wins` of the root,
not `0 + (-1)^1 * r = 2147483648`. -/
theorem backPropagation_int_min_not_negated :
    atDepth openingHeap 1 1 ∧
    ((backPropagation 3 openingHeap (some 1) (-2147483648)).bind fun h1 =>
      h1[0]?.map fun nd => nd.partial_wins) = some (-2147483648) ∧
    (openingHeap[0]?.map fun nd => nd.partial_wins + (-1) ^ 1 * (-2147483648)) =
      some 2147483648 :=
  ⟨⟨0, openingHeap.get ⟨0, by decide⟩, by decide, by decide, by decide⟩, by decide, by decide⟩

/-- C7, amended: in a tree, for a node `n` at depth `d` (the root is at depth 0; depth follows the
parent links) and every `int` result `r` other than `INT_MIN` (`-2^31 < r < 2^31`),
`backPropagation(n, r)` returns (any fuel of at least `d + 2` is enough) and, in the heap it
leaves, the ancestor of `n` at depth `k` (`0 ≤ k ≤ d`) holds in `partial_wins` the 32-bit value
of its old `partial_wins` plus `(-1)^(d-k) * r`, and in `partial_games` the 32-bit value of its
old `partial_games` plus 1: as long as these sums fit in an `int`, `partial_wins` changes by
`(-1)^(d-k) * r` and `partial_games` increases by exactly 1; in particular the root's
`partial_wins` changes by `(-1)^d * r`. -/
theorem backPropagation_alternates (h : Heap) (n d : Nat) (r : Int) (hd : atDepth h n d)
    (hr : -2147483648 < r ∧ r < 2147483648) (fuel : Nat) (hfuel : d + 2 ≤ fuel) :
    ∃ h', backPropagation fuel h (some n) r = some h' ∧
      (∀ k, k ≤ d → ∀ a node, climb (d - k) h n = some a → h[a]? = some node →
        ∃ node', h'[a]? = some node' ∧
          node'.partial_wins = wrapInt (node.partial_wins + (-1) ^ (d - k) * r) ∧
          node'.partial_games = wrapInt (node.partial_games + 1) ∧
          (-2147483648 ≤ node.partial_wins + (-1) ^ (d - k) * r →
            node.partial_wins + (-1) ^ (d - k) * r < 2147483648 →
            node'.partial_wins = node.partial_wins + (-1) ^ (d - k) * r) ∧
          (-2147483648 ≤ node.partial_games + 1 → node.partial_games + 1 < 2147483648 →
            node'.partial_games = node.partial_games + 1)) ∧
      (∀ root node, climb d h n = some root → h[root]? = some node →
        ∃ node', h'[root]? = some node' ∧
          node'.partial_wins = wrapInt (node.partial_wins + (-1) ^ d * r) ∧
          node'.partial_games = wrapInt (node.partial_games + 1) ∧
          (-2147483648 ≤ node.partial_wins + (-1) ^ d * r →
            node.partial_wins + (-1) ^ d * r < 2147483648 →
            node'.partial_wins = node.partial_wins + (-1) ^ d * r) ∧
          (-2147483648 ≤ node.partial_games + 1 → node.partial_games + 1 < 2147483648 →
            node'.partial_games = node.partial_games + 1)) := by
  obtain ⟨h', hb, _, hpath⟩ := backPropagation_spec d h n r hd hr.1 hr.2
  refine ⟨h', backPropagation_fuel_le _ _ hfuel _ _ _ _ hb, ?_, ?_⟩
  · intro k hk a node hca hna
    exact ⟨_, hpath (d - k) (by omega) a node hca hna, rfl, rfl,
      fun h0 h1 => wrapInt_of_range _ h0 h1, fun h0 h1 => wrapInt_of_range _ h0 h1⟩
  · intro root node hca hna
    exact ⟨_, hpath d (le_refl _) root node hca hna, rfl, rfl,
      fun h0 h1 => wrapInt_of_range _ h0 h1, fun h0 h1 => wrapInt_of_range _ h0 h1⟩

set_option maxRecDepth 100000 in
theorem backPropagation_alternates_witness :
    atDepth openingHeap 1 1 ∧ (-2147483648 < (-1 : Int) ∧ (-1 : Int) < 2147483648) ∧ 1 + 2 ≤ 3 ∧
    ∃ h', backPropagation 3 openingHeap (some 1) (-1) = some h' ∧
      (∀ root node, climb 1 openingHeap 1 = some root → openingHeap[root]? = some node →
        ∃ node', h'[root]? = some node' ∧
          node'.partial_wins = wrapInt (node.partial_wins + (-1) ^ 1 * (-1)) ∧
          node'.partial_games = wrapInt (node.partial_games + 1) ∧
          (-2147483648 ≤ node.partial_wins + (-1) ^ 1 * (-1) →
            node.partial_wins + (-1) ^ 1 * (-1) < 2147483648 →
            node'.partial_wins = node.partial_wins + (-1) ^ 1 * (-1)) ∧
          (-2147483648 ≤ node.partial_games + 1 → node.partial_games + 1 < 2147483648 →
            node'.partial_games = node.partial_games + 1)) :=
  ⟨⟨0, openingHeap.get ⟨0, by decide⟩, by decide, by decide, by decide⟩, by decide, by decide,
    (backPropagation_alternates openingHeap 1 1 (-1)
      ⟨0, openingHeap.get ⟨0, by decide⟩, by decide, by decide, by decide⟩ (by decide) 3
      (by decide)).imp fun _ hx => ⟨hx.1, hx.2.2⟩⟩

/-! ## The sum of the disc counts -/

/-- C3: for every node reachable by `expansion` (any sequence of calls, at any addresses) from a
root that the constructor `Node(board, player)` built out of an 8x8 grid with values in
`{0, 1, 2}`, `disc_count[0] + disc_count[1] + disc_count[2] == 64`; and the scratch counters of
`rollout` started at such a node have the same sum after any number of loop iterations, whatever
values the random generator returns. -/
theorem disc_count_total_invariant (g : Grid) (player : Int) (hg : validGrid g)
    (ns : List Nat) (a : Nat) (node : Node)
    (ha : (ns.foldl expansion [Node.ofGrid 0 g player])[a]? = some node) :
    (Node.ofGrid 0 g player).disc_count.total = 64 ∧
    node.disc_count.total = 64 ∧
    ∀ rs : List Nat, (rolloutIter rs (rolloutInit node)).disc_count.total = 64 := by
  have hroot : ∀ (a : Nat) (nd : Node), [Node.ofGrid 0 g player][a]? = some nd →
      wellFormed nd.board nd.disc_count := by
    intro a nd h
    cases a with
    | zero =>
      simp only [List.getElem?_cons_zero] at h
      injection h with h
      subst h
      exact wellFormed_encodeGrid g hg
    | succ a => simp at h
  have hwf := expansions_wf ns _ hroot a node ha
  refine ⟨wellFormed_total _ _ (wellFormed_encodeGrid g hg), wellFormed_total _ _ hwf,
    fun rs => ?_⟩
  exact wellFormed_total _ _ (rolloutIter_wf rs (rolloutInit node) hwf)

set_option maxRecDepth 100000 in
theorem disc_count_total_invariant_witness :
    validGrid openingGrid ∧
    ([0].foldl expansion [Node.ofGrid 0 openingGrid 2])[1]? =
      some (openingHeap.get ⟨1, by decide⟩) ∧
    ((Node.ofGrid 0 openingGrid 2).disc_count.total = 64 ∧
      (openingHeap.get ⟨1, by decide⟩).disc_count.total = 64 ∧
      ∀ rs : List Nat,
        (rolloutIter rs (rolloutInit (openingHeap.get ⟨1, by decide⟩))).disc_count.total = 64) :=
  ⟨by decide, by decide,
    disc_count_total_invariant openingGrid 2 (by decide) [0] 1 (openingHeap.get ⟨1, by decide⟩)
      (by decide)⟩

/-! ## Idempotence, allocation, counts, rollout, selection and merge -/

/-- C11: `expansion` is idempotent.  For every heap and every address, calling `expansion` a
second time on the same node gives the heap of the first call; and on any node that already has
at least one child `expansion` returns the heap unchanged, so the children list, the child nodes,
the board, the counts and the statistics are all unchanged. -/
theorem expansion_idempotent (h : Heap) (n : Nat) :
    expansion (expansion h n) n = expansion h n ∧
    (∀ node, h[n]? = some node → node.children ≠ [] → expansion h n = h) := by
  refine ⟨?_, fun node hn hc => expansion_of_children h n node hn hc⟩
  cases hn : h[n]? with
  | none => rw [expansion_of_dangling h n hn, expansion_of_dangling h n hn]
  | some node =>
    by_cases hc : node.children = []
    · obtain ⟨node', h1, h2, _⟩ := expansion_slots h n node hn hc
      exact expansion_of_children _ n node' h1 h2
    · rw [expansion_of_children h n node hn hc, expansion_of_children h n node hn hc]

set_option maxRecDepth 100000 in
theorem expansion_idempotent_witness :
    openingHeap[0]? = some (openingHeap.get ⟨0, by decide⟩) ∧
    (openingHeap.get ⟨0, by decide⟩).children ≠ [] ∧
    expansion openingHeap 0 = openingHeap ∧
    expansion (expansion [Node.ofGrid 0 openingGrid 2] 0) 0 =
      expansion [Node.ofGrid 0 openingGrid 2] 0 :=
  ⟨by decide, by decide,
    (expansion_idempotent openingHeap 0).2 (openingHeap.get ⟨0, by decide⟩) (by decide)
      (by decide),
    (expansion_idempotent [Node.ofGrid 0 openingGrid 2] 0).1⟩

/-- C19: after `expansion` returns from a call made on a childless node, the children list of
the node is not empty and every child slot holds the address of an allocated node (no null
pointer) whose parent link is the expanded node and whose player is `3 - node.player`.  Hence the
access `children[0].first` of `monte_carlo_tree_search` yields an allocated node, and in a heap
where every child slot is allocated `expansion` leaves every child slot allocated, so the
dereference `child.first->partial_wins` of `traversal` never meets a missing child. -/
theorem expansion_children_allocated (h : Heap) (n : Nat) (node : Node)
    (hn : h[n]? = some node) (hc : node.children = []) :
    (∃ node', (expansion h n)[n]? = some node' ∧ node'.children ≠ [] ∧
      ∀ slot ∈ node'.children, ∃ c child, slot.1 = some c ∧
        (expansion h n)[c]? = some child ∧ child.parent = some n ∧
        child.player = 3 - node.player) ∧
    (isTerminalNode node = false → node.partial_games ≠ 0 →
      ∃ c child, expandIfVisited h n = (expansion h n, some c) ∧
        (expansion h n)[c]? = some child) ∧
    (slotsAllocated h → slotsAllocated (expansion h n)) := by
  obtain ⟨node', h1, h2, h3⟩ := expansion_slots h n node hn hc
  refine ⟨⟨node', h1, h2, fun slot hslot => ?_⟩, ?_, expansion_slotsAllocated h n⟩
  · obtain ⟨c, child, e1, _, e2, e3, e4, _⟩ := h3 slot hslot
    exact ⟨c, child, e1, e2, e3, e4⟩
  · intro ht hg
    cases hch : node'.children with
    | nil => exact absurd hch h2
    | cons slot rest =>
      obtain ⟨c, child, e1, _, e2, _⟩ := h3 slot (by rw [hch]; exact List.mem_cons_self _ _)
      refine ⟨c, child, ?_, e2⟩
      unfold expandIfVisited
      rw [hn]
      simp only [ht, Bool.not_false, Bool.true_and, bne_iff_ne, ne_eq, hg, not_false_eq_true,
        if_true, h1, hch, List.getElem?_cons_zero, e1]

set_option maxRecDepth 100000 in
theorem expansion_children_allocated_witness :
    [Node.ofGrid 0 openingGrid 2][0]? = some (Node.ofGrid 0 openingGrid 2) ∧
    (Node.ofGrid 0 openingGrid 2).children = [] ∧
    ∃ node', (expansion [Node.ofGrid 0 openingGrid 2] 0)[0]? = some node' ∧
      node'.children ≠ [] ∧
      ∀ slot ∈ node'.children, ∃ c child, slot.1 = some c ∧
        (expansion [Node.ofGrid 0 openingGrid 2] 0)[c]? = some child ∧ child.parent = some 0 ∧
        child.player = 3 - (Node.ofGrid 0 openingGrid 2).player :=
  ⟨rfl, rfl,
    (expansion_children_allocated [Node.ofGrid 0 openingGrid 2] 0 (Node.ofGrid 0 openingGrid 2)
      rfl rfl).1⟩

/-- C20: every legal move captures.  For a childless node on a board with cells in `{0, 1, 2}`
(in particular for every well-formed node) and every move child built by `expansion` (coordinate
other than `(-1, -1)`): the child is allocated, its `disc_count[0]` is the parent's minus exactly
1, the count of the colour that moved (`3 - parent.player`) is at least the parent's plus 2, the
count of the other colour is at most the parent's minus 1, and the gain of the moving colour
equals the loss of the other colour plus 1. -/
theorem move_child_counts (h : Heap) (n : Nat) (node : Node) (hn : h[n]? = some node)
    (hc : node.children = []) (hv : validBoard node.board)
    (node' : Node) (hn' : (expansion h n)[n]? = some node')
    (idx : Nat) (slot : Option Nat × Point) (hslot : node'.children[idx]? = some slot)
    (hmove : slot.2 ≠ ⟨-1, -1⟩) :
    ∃ c child, slot.1 = some c ∧ (expansion h n)[c]? = some child ∧
      child.disc_count.get 0 = node.disc_count.get 0 - 1 ∧
      node.disc_count.get (3 - node.player) + 2 ≤ child.disc_count.get (3 - node.player) ∧
      child.disc_count.get node.player ≤ node.disc_count.get node.player - 1 ∧
      child.disc_count.get (3 - node.player) - node.disc_count.get (3 - node.player) =
        (node.disc_count.get node.player - child.disc_count.get node.player) + 1 := by
  by_cases hs : expansionScan node.board node.player = []
  · obtain ⟨p1, _⟩ := expansion_pass_spec h n node hn hc hs
    rw [p1] at hn'
    injection hn' with hn'
    subst hn'
    simp only at hslot
    cases idx with
    | zero =>
      simp only [List.getElem?_cons_zero] at hslot
      injection hslot with hslot
      subst hslot
      exact absurd rfl hmove
    | succ idx => simp at hslot
  · obtain ⟨C, h1, _, h3, _, h5⟩ := expansion_move_spec h n node hn hc hs
    rw [h1] at hn'
    injection hn' with hn'
    subst hn'
    simp only at hslot
    have hidx : idx < (expansionScan node.board node.player).length := by
      rw [← h3]
      rcases Nat.lt_or_ge idx C.length with hlt | hge
      · exact hlt
      · rw [List.getElem?_eq_none hge] at hslot; simp at hslot
    obtain ⟨s, hsi⟩ : ∃ s, (expansionScan node.board node.player)[idx]? = some s :=
      ⟨_, List.getElem?_eq_getElem hidx⟩
    obtain ⟨c1, c2⟩ := h5 idx s hsi
    rw [c1] at hslot
    injection hslot with hslot
    subst hslot
    obtain ⟨hon, _, hpl, hl⟩ := scan_slot node.board hv node.player idx s hsi
    obtain ⟨F, hF, g0, g1, g2⟩ := moveChild_get node n s.2 hv hpl hon hl
    refine ⟨h.length + idx, moveChild node n s.2, rfl, c2, g0, ?_, ?_, ?_⟩
    · rw [g1]; omega
    · rw [g2]; omega
    · rw [g1, g2]; ring

set_option maxRecDepth 100000 in
theorem move_child_counts_witness :
    [Node.ofGrid 0 openingGrid 2][0]? = some (Node.ofGrid 0 openingGrid 2) ∧
    (Node.ofGrid 0 openingGrid 2).children = [] ∧
    validBoard (Node.ofGrid 0 openingGrid 2).board ∧
    (expansion [Node.ofGrid 0 openingGrid 2] 0)[0]? = some (openingHeap.get ⟨0, by decide⟩) ∧
    (openingHeap.get ⟨0, by decide⟩).children[1]? = some (some 2, Point.mk 3 2) ∧
    (some 2, Point.mk 3 2).2 ≠ Point.mk (-1) (-1) ∧
    ∃ c child, (some 2, Point.mk 3 2).1 = some c ∧
      (expansion [Node.ofGrid 0 openingGrid 2] 0)[c]? = some child ∧
      child.disc_count.get 0 = (Node.ofGrid 0 openingGrid 2).disc_count.get 0 - 1 ∧
      (Node.ofGrid 0 openingGrid 2).disc_count.get (3 - (Node.ofGrid 0 openingGrid 2).player) + 2
        ≤ child.disc_count.get (3 - (Node.ofGrid 0 openingGrid 2).player) ∧
      child.disc_count.get (Node.ofGrid 0 openingGrid 2).player ≤
        (Node.ofGrid 0 openingGrid 2).disc_count.get (Node.ofGrid 0 openingGrid 2).player - 1 ∧
      child.disc_count.get (3 - (Node.ofGrid 0 openingGrid 2).player) -
          (Node.ofGrid 0 openingGrid 2).disc_count.get (3 - (Node.ofGrid 0 openingGrid 2).player) =
        ((Node.ofGrid 0 openingGrid 2).disc_count.get (Node.ofGrid 0 openingGrid 2).player -
          child.disc_count.get (Node.ofGrid 0 openingGrid 2).player) + 1 :=
  ⟨rfl, rfl, by decide, by decide, by decide, by decide,
    move_child_counts [Node.ofGrid 0 openingGrid 2] 0 (Node.ofGrid 0 openingGrid 2) rfl rfl
      (by decide) (openingHeap.get ⟨0, by decide⟩) (by decide) 1 (some 2, ⟨3, 2⟩) (by decide)
      (by decide)⟩

set_option maxRecDepth 100000 in
/-- C16, counterexample: on the position `passGrid` with `player = 1` (cells in `{0, 1, 2}`) the
mover has no destination: the list `next_spots` of `rollout` is empty, while `expansion` leaves
one child, the pass child, whose coordinate is `(-1, -1)`.  The two lists differ. -/
theorem rollout_spots_not_children_on_pass :
    validBoard passNode.board ∧ passNode.player = 1 ∧ passNode.children = [] ∧
    rolloutSpots passNode.board passNode.player = [] ∧
    ((expansion [passNode] 0)[0]?.map fun nd => nd.children.map Prod.snd) =
      some [⟨-1, -1⟩] := by
  decide

/-- C16, amended: the move rules coded inline in `rollout` and those coded in `expansion` are the
same function.  For every childless node on a board with cells in `{0, 1, 2}`, with any
disc-count triple and a player in `{1, 2}`: the list `next_spots` of `rollout` (direction loop
stopping at the first qualifying direction) is the list of destinations collected by the scan
of `expansion`; when it is not empty it is the list of child coordinates that `expansion`
leaves, and when it is empty `expansion` leaves the single pass child `(-1, -1)` with the
parent's board and disc counts and the other player, which is what the iteration of `rollout`
does to its scratch state; and for every index `idx` of that list, the scratch board and disc
counts that the flip-and-place of `rollout` computes (scanning the board it is mutating) are
the board and disc counts of child `idx` built by `expansion` (which scans the parent's
unmodified board). -/
theorem rollout_rules_are_expansion_rules (h : Heap) (n : Nat) (node : Node)
    (hn : h[n]? = some node) (hc : node.children = []) (hv : validBoard node.board)
    (hpl : node.player = 1 ∨ node.player = 2) :
    rolloutSpots node.board node.player =
      (expansionScan node.board node.player).map Prod.snd ∧
    (rolloutSpots node.board node.player ≠ [] →
      ∃ node' : Node, (expansion h n)[n]? = some node' ∧
        node'.children.map Prod.snd = rolloutSpots node.board node.player) ∧
    (rolloutSpots node.board node.player = [] →
      (∃ (node' : Node) (c : Nat) (child : Node), (expansion h n)[n]? = some node' ∧
        node'.children = [(some c, ⟨-1, -1⟩)] ∧ (expansion h n)[c]? = some child ∧
        child.board = node.board ∧ child.disc_count = node.disc_count ∧
        child.player = 3 - node.player) ∧
      ∀ r : Nat, rolloutBody r (rolloutInit node) =
        { player := 3 - node.player, curboard := node.board, disc_count := node.disc_count }) ∧
    (∀ (idx : Nat) (dest : Point), (rolloutSpots node.board node.player)[idx]? = some dest →
      ∃ (node' : Node) (c : Nat) (child : Node), (expansion h n)[n]? = some node' ∧
        node'.children[idx]? = some (some c, dest) ∧ (expansion h n)[c]? = some child ∧
        (rolloutMove node.player dest (node.board, node.disc_count)).1 = child.board ∧
        (rolloutMove node.player dest (node.board, node.disc_count)).2 = child.disc_count) := by
  have hspots := rolloutSpots_eq_scan node.board node.player
  refine ⟨hspots, ?_, ?_, ?_⟩
  · intro hne
    have hs : expansionScan node.board node.player ≠ [] := by
      intro h0; rw [hspots, h0] at hne; exact hne rfl
    obtain ⟨C, h1, _, h3, _, h5⟩ := expansion_move_spec h n node hn hc hs
    refine ⟨_, h1, ?_⟩
    simp only
    rw [hspots]
    apply List.ext_getElem?
    intro i
    rw [List.getElem?_map, List.getElem?_map]
    cases hsi : (expansionScan node.board node.player)[i]? with
    | none =>
      have : C[i]? = none := by
        rw [List.getElem?_eq_none_iff] at hsi ⊢
        omega
      rw [this]
    | some s =>
      rw [(h5 i s hsi).1]; rfl
  · intro hnil
    have hs : expansionScan node.board node.player = [] := by
      rw [hspots] at hnil
      exact List.map_eq_nil_iff.1 hnil
    obtain ⟨p1, _, _, p4⟩ := expansion_pass_spec h n node hn hc hs
    refine ⟨⟨_, h.length, passChild node n, p1, rfl, p4, rfl, rfl, rfl⟩, fun r => ?_⟩
    exact rolloutBody_pass r (rolloutInit node) hnil
  · intro idx dest hidx
    rw [hspots, List.getElem?_map] at hidx
    cases hsi : (expansionScan node.board node.player)[idx]? with
    | none => rw [hsi] at hidx; simp at hidx
    | some s =>
      rw [hsi] at hidx
      simp only [Option.map_some'] at hidx
      injection hidx with hidx
      subst hidx
      have hs : expansionScan node.board node.player ≠ [] := by
        intro h0; rw [h0] at hsi; simp at hsi
      obtain ⟨C, h1, _, _, _, h5⟩ := expansion_move_spec h n node hn hc hs
      obtain ⟨c1, c2⟩ := h5 idx s hsi
      obtain ⟨hon, _, _, _⟩ := scan_slot node.board hv node.player idx s hsi
      refine ⟨_, h.length + idx, moveChild node n s.2, h1, c1, c2, ?_, ?_⟩
      · rw [rolloutMove_eq node.board hv node.player hpl s.2 hon node.disc_count]; rfl
      · rw [rolloutMove_eq node.board hv node.player hpl s.2 hon node.disc_count]; rfl

set_option maxRecDepth 100000 in
theorem rollout_rules_are_expansion_rules_witness :
    [Node.ofGrid 0 openingGrid 2][0]? = some (Node.ofGrid 0 openingGrid 2) ∧
    (Node.ofGrid 0 openingGrid 2).children = [] ∧
    validBoard (Node.ofGrid 0 openingGrid 2).board ∧
    ((Node.ofGrid 0 openingGrid 2).player = 1 ∨ (Node.ofGrid 0 openingGrid 2).player = 2) ∧
    rolloutSpots (Node.ofGrid 0 openingGrid 2).board (Node.ofGrid 0 openingGrid 2).player =
      (expansionScan (Node.ofGrid 0 openingGrid 2).board
        (Node.ofGrid 0 openingGrid 2).player).map Prod.snd :=
  ⟨rfl, rfl, by decide, by decide,
    (rollout_rules_are_expansion_rules [Node.ofGrid 0 openingGrid 2] 0
      (Node.ofGrid 0 openingGrid 2) rfl rfl (by decide) (by decide)).1⟩

set_option maxRecDepth 100000 in
/-- C12, counterexample: the node that the constructor builds from the standard opening with
`player = 0` is well formed (cells in `{0, 1, 2}`, disc counts matching the board), but with a
player outside `{1, 2}` the scan of `rollout` never finds a destination while the board is not
terminal: for every generator, seed and number of loop iterations allowed, `rollout` does not
return, so it returns no value in `{-1, 0, +1}`. -/
theorem rollout_no_result_player_zero :
    wellFormed (Node.ofGrid 0 openingGrid 0).board (Node.ofGrid 0 openingGrid 0).disc_count ∧
    ∀ (rand_r : Nat → Nat × Nat) (seed fuel : Nat),
      rollout rand_r fuel seed (Node.ofGrid 0 openingGrid 0) 0 = none := by
  refine ⟨by decide, ?_⟩
  intro rand_r seed fuel
  unfold rollout
  rw [rolloutLoop_diverges rand_r fuel seed (rolloutInit (Node.ofGrid 0 openingGrid 0))
    (by decide) (Or.inl rfl) (by decide)]

/-- C12, amended: for every well-formed node (cells in `{0, 1, 2}`, disc counts matching the
board) whose player is 1 or 2, every generator and seed, and `win` initially 0, `rollout`
returns (any fuel of at least 130 loop iterations is enough) a value in `{-1, 0, +1}`: the final
scratch state is the one in which the `while` loop of this run, with this generator and this
seed, exits; it is well formed and terminal (no empty cell, or no legal destination for either
colour), and the value is `+1` if colour `node.player` has strictly more discs on the final
scratch board than colour `3 - node.player`, `-1` if strictly fewer, `0` if equal.  On an already terminal node the result is the sign of
`disc_count[player] - disc_count[3 - player]` and the seed is untouched. -/
theorem rollout_result (rand_r : Nat → Nat × Nat) (seed : Nat) (node : Node)
    (hwf : wellFormed node.board node.disc_count) (hpl : node.player = 1 ∨ node.player = 2)
    (fuel : Nat) (hf : 130 ≤ fuel) :
    (∃ (seed1 : Nat) (win : Int) (st : RolloutState) (rs : List Nat),
      rollout rand_r fuel seed node 0 = some (seed1, win) ∧
      rolloutLoop rand_r fuel seed (rolloutInit node) = some (seed1, st) ∧
      rolloutCond st = false ∧
      (win = -1 ∨ win = 0 ∨ win = 1) ∧
      st = rolloutIter rs (rolloutInit node) ∧
      wellFormed st.curboard st.disc_count ∧
      (cellCount st.curboard 0 = 0 ∨
        ∀ p ∈ allCells, ¬ LegalDest st.curboard 1 p ∧ ¬ LegalDest st.curboard 2 p) ∧
      (cellCount st.curboard (3 - node.player) < cellCount st.curboard node.player → win = 1) ∧
      (cellCount st.curboard node.player < cellCount st.curboard (3 - node.player) → win = -1) ∧
      (cellCount st.curboard node.player = cellCount st.curboard (3 - node.player) → win = 0)) ∧
    (isTerminalNode node = true →
      rollout rand_r fuel seed node 0 = some (seed,
        if node.disc_count.get node.player - node.disc_count.get (3 - node.player) > 0 then 1
        else if node.disc_count.get node.player - node.disc_count.get (3 - node.player) < 0
        then -1 else 0)) := by
  have hinv : rolloutInv (rolloutInit node) := ⟨hwf, hpl⟩
  have hm := rolloutMeasure_le (rolloutInit node) hinv
  constructor
  · obtain ⟨seed1, st, rs, h1, h2, h3, h4, _⟩ :=
      rolloutLoop_returns rand_r fuel seed (rolloutInit node) hinv (by omega)
    have hp1 := wellFormed_get st.curboard st.disc_count h2.1 node.player hpl
    have hp2 := wellFormed_get st.curboard st.disc_count h2.1 (3 - node.player) (by omega)
    have hro : rollout rand_r fuel seed node 0 = some (seed1,
        if ((cellCount st.curboard node.player : Nat) : Int) -
            ((cellCount st.curboard (3 - node.player) : Nat) : Int) > 0 then 1
        else if ((cellCount st.curboard node.player : Nat) : Int) -
            ((cellCount st.curboard (3 - node.player) : Nat) : Int) < 0 then -1 else 0) := by
      unfold rollout
      rw [h1]
      simp only [zero_add, zero_sub, hp1, hp2]
    refine ⟨seed1, _, st, rs, hro, h1, h3, ?_, h4, h2.1, ?_, ?_, ?_, ?_⟩
    · split
      · right; right; rfl
      · split
        · left; rfl
        · right; left; rfl
    · rcases rolloutCond_false st h3 with h0 | ht
      · left
        have := (wellFormed_c0_nonneg _ _ h2.1).2
        omega
      · right
        exact (isTerminal_eq_true_iff st.curboard h2.1.1).1 ht
    · intro hlt
      rw [if_pos (by omega)]
    · intro hlt
      rw [if_neg (by omega), if_pos (by omega)]
    · intro heq
      rw [if_neg (by omega), if_neg (by omega)]
  · intro ht
    have hc : rolloutCond (rolloutInit node) = false := by
      unfold isTerminalNode at ht
      unfold rolloutCond rolloutInit
      simp only
      by_cases h0 : node.disc_count.get 0 = 0
      · simp [h0]
      · simp only [h0, if_false] at ht
        simp [ht]
    obtain ⟨k, rfl⟩ : ∃ k, fuel = k + 1 := ⟨fuel - 1, by omega⟩
    unfold rollout rolloutLoop
    simp only [hc, Bool.false_eq_true, if_false, zero_add, zero_sub]
    rfl

set_option maxRecDepth 100000 in
theorem rollout_result_witness :
    wellFormed (Node.ofGrid 0 passGrid 1).board (Node.ofGrid 0 passGrid 1).disc_count ∧
    ((Node.ofGrid 0 passGrid 1).player = 1 ∨ (Node.ofGrid 0 passGrid 1).player = 2) ∧
    130 ≤ 130 ∧
    ∃ (seed1 : Nat) (win : Int) (st : RolloutState) (rs : List Nat),
      rollout (fun s => (s, s + 1)) 130 0 (Node.ofGrid 0 passGrid 1) 0 = some (seed1, win) ∧
      rolloutLoop (fun s => (s, s + 1)) 130 0 (rolloutInit (Node.ofGrid 0 passGrid 1)) =
        some (seed1, st) ∧
      rolloutCond st = false ∧
      (win = -1 ∨ win = 0 ∨ win = 1) ∧
      st = rolloutIter rs (rolloutInit (Node.ofGrid 0 passGrid 1)) ∧
      wellFormed st.curboard st.disc_count ∧
      (cellCount st.curboard 0 = 0 ∨
        ∀ p ∈ allCells, ¬ LegalDest st.curboard 1 p ∧ ¬ LegalDest st.curboard 2 p) ∧
      (cellCount st.curboard (3 - (Node.ofGrid 0 passGrid 1).player) <
        cellCount st.curboard (Node.ofGrid 0 passGrid 1).player → win = 1) ∧
      (cellCount st.curboard (Node.ofGrid 0 passGrid 1).player <
        cellCount st.curboard (3 - (Node.ofGrid 0 passGrid 1).player) → win = -1) ∧
      (cellCount st.curboard (Node.ofGrid 0 passGrid 1).player =
        cellCount st.curboard (3 - (Node.ofGrid 0 passGrid 1).player) → win = 0) :=
  ⟨by decide, by decide, by decide,
    (rollout_result (fun s => (s, s + 1)) 0 (Node.ofGrid 0 passGrid 1) (by decide) (by decide)
      130 (by decide)).1⟩

set_option maxRecDepth 100000 in
/-- C18, counterexample: the root that `main` builds from the standard opening when the input
player is 0 has `player = 3`; it is well formed (cells in `{0, 1, 2}`, `disc_count[0]` equal to
the number of empty cells, here 60), yet the loop of `rollout` never exits: after any number of
iterations the loop condition still holds and `disc_count[0]` is still 60 (no disc is ever
placed), and the loop returns within no fuel. -/
theorem rollout_loop_never_exits_player_three :
    wellFormed (Node.ofGrid 0 openingGrid 3).board (Node.ofGrid 0 openingGrid 3).disc_count ∧
    (Node.ofGrid 0 openingGrid 3).disc_count.get 0 = 60 ∧
    (∀ rs : List Nat,
      rolloutCond (rolloutIter rs (rolloutInit (Node.ofGrid 0 openingGrid 3))) = true ∧
      (rolloutIter rs (rolloutInit (Node.ofGrid 0 openingGrid 3))).disc_count.get 0 = 60) ∧
    ∀ (rand_r : Nat → Nat × Nat) (seed fuel : Nat),
      rolloutLoop rand_r fuel seed (rolloutInit (Node.ofGrid 0 openingGrid 3)) = none := by
  refine ⟨by decide, by decide, ?_, ?_⟩
  · intro rs
    obtain ⟨h1, _, h3⟩ := rolloutIter_stuck rs (rolloutInit (Node.ofGrid 0 openingGrid 3))
      (by decide) (Or.inr rfl) (by decide)
    refine ⟨h1, ?_⟩
    rw [h3]
    decide
  · intro rand_r seed fuel
    exact rolloutLoop_diverges rand_r fuel seed (rolloutInit (Node.ofGrid 0 openingGrid 3))
      (by decide) (Or.inr rfl) (by decide)

/-- C18, amended: rollout terminates.  For every well-formed node (cells in `{0, 1, 2}`, disc
counts matching the board) whose player is 1 or 2, every generator and every seed, the `while`
loop of `rollout` exits after at most 129 iterations (any fuel of at least 130 is enough), in a
state that fails the loop condition.  Whenever the loop body runs, after any number of earlier
iterations, the board has a legal destination for at least one colour, and within at most two
consecutive iterations a disc is placed and `disc_count[0]` decreases by one: either this
iteration places it, or this iteration is a pass that leaves `disc_count[0]` unchanged and the
loop condition true, and the next iteration places it. -/
theorem rollout_terminates (node : Node) (hwf : wellFormed node.board node.disc_count)
    (hpl : node.player = 1 ∨ node.player = 2) :
    (∀ (rand_r : Nat → Nat × Nat) (seed fuel : Nat), 130 ≤ fuel →
      ∃ (seed1 : Nat) (st : RolloutState) (rs : List Nat),
        rolloutLoop rand_r fuel seed (rolloutInit node) = some (seed1, st) ∧
        st = rolloutIter rs (rolloutInit node) ∧ rs.length ≤ 129 ∧ rolloutCond st = false) ∧
    (∀ (rs : List Nat) (r1 r2 : Nat),
      rolloutCond (rolloutIter rs (rolloutInit node)) = true →
      (∃ p ∈ allCells, LegalDest (rolloutIter rs (rolloutInit node)).curboard 1 p ∨
        LegalDest (rolloutIter rs (rolloutInit node)).curboard 2 p) ∧
      ((rolloutBody r1 (rolloutIter rs (rolloutInit node))).disc_count.get 0 =
          (rolloutIter rs (rolloutInit node)).disc_count.get 0 - 1 ∨
       (rolloutCond (rolloutBody r1 (rolloutIter rs (rolloutInit node))) = true ∧
        (rolloutBody r1 (rolloutIter rs (rolloutInit node))).disc_count.get 0 =
          (rolloutIter rs (rolloutInit node)).disc_count.get 0 ∧
        (rolloutBody r2 (rolloutBody r1 (rolloutIter rs (rolloutInit node)))).disc_count.get 0 =
          (rolloutIter rs (rolloutInit node)).disc_count.get 0 - 1))) := by
  have hinv : rolloutInv (rolloutInit node) := ⟨hwf, hpl⟩
  have hm := rolloutMeasure_le (rolloutInit node) hinv
  constructor
  · intro rand_r seed fuel hf
    obtain ⟨seed1, st, rs, h1, _, h3, h4, h5⟩ :=
      rolloutLoop_returns rand_r fuel seed (rolloutInit node) hinv (by omega)
    exact ⟨seed1, st, rs, h1, h4, by omega, h3⟩
  · intro rs r1 r2 hc
    have hst := rolloutIter_inv rs (rolloutInit node) hinv
    generalize rolloutIter rs (rolloutInit node) = st at hc hst
    obtain ⟨_, ht⟩ := rolloutCond_true st hc
    refine ⟨nonterminal_has_move st.curboard hst.1.1 ht, ?_⟩
    by_cases hs : rolloutSpots st.curboard st.player = []
    · right
      obtain ⟨hc1, hne⟩ := rolloutBody_pass_then_move r1 st hst hc hs
      have hdc : (rolloutBody r1 st).disc_count = st.disc_count := by
        rw [rolloutBody_pass r1 st hs]
      refine ⟨hc1, by rw [hdc], ?_⟩
      rw [rolloutBody_move r2 (rolloutBody r1 st) (rolloutBody_inv r1 st hst) hne, hdc]
    · left
      exact rolloutBody_move r1 st hst hs

set_option maxRecDepth 100000 in
theorem rollout_terminates_witness :
    wellFormed passNode.board passNode.disc_count ∧
    (passNode.player = 1 ∨ passNode.player = 2) ∧
    ∃ (seed1 : Nat) (st : RolloutState) (rs : List Nat),
        rolloutLoop (fun s => (s, s)) 130 7 (rolloutInit passNode) = some (seed1, st) ∧
        st = rolloutIter rs (rolloutInit passNode) ∧ rs.length ≤ 129 ∧ rolloutCond st = false :=
  ⟨by decide, by decide,
    (rollout_terminates passNode (by decide) (by decide)).1 (fun s => (s, s)) 7 130 (by decide)⟩

/-- C17: for every finite tree in which every child slot of every node holds an allocated node
(here: the subtree below `root` has height at most `k`, its nodes are allocated and their
`total_games` pointers are valid), `traversal(root)` terminates (any fuel of at least `k + 1`
iterations is enough) and its target is a node with an empty children list that is the root or
is reached from the root by following child edges only; when the root has no children the
target is the root. -/
theorem traversal_reaches_leaf {D : Type} [LinearOrder D] (ops : DoubleOps D) (h : Heap)
    (k root : Nat) (ht : treeBelow h k root = true) (fuel : Nat) (hf : k + 1 ≤ fuel) :
    (∃ (target : Nat) (leaf : Node), traversal ops fuel h root = some target ∧
      h[target]? = some leaf ∧ leaf.children = [] ∧ Descends h root target) ∧
    (∀ rootNode : Node, h[root]? = some rootNode → rootNode.children = [] →
      traversal ops fuel h root = some root) := by
  refine ⟨traversal_descends ops h k root ht fuel hf, ?_⟩
  intro rootNode hn hc
  obtain ⟨f, rfl⟩ : ∃ f, fuel = f + 1 := ⟨fuel - 1, by omega⟩
  exact traversal_leaf ops h root rootNode hn hc f

set_option maxRecDepth 100000 in
theorem traversal_reaches_leaf_witness :
    treeBelow playedHeap 1 0 = true ∧ 1 + 1 ≤ 2 ∧
    traversal sampleOps 2 playedHeap 0 = some 2 ∧
    ∃ (target : Nat) (leaf : Node), traversal sampleOps 2 playedHeap 0 = some target ∧
      playedHeap[target]? = some leaf ∧ leaf.children = [] ∧ Descends playedHeap 0 target :=
  ⟨by decide, by decide, by decide,
    (traversal_reaches_leaf sampleOps playedHeap 1 0 (by decide) 2 (by decide)).1⟩

/-- C14: for every root 0 with a non-empty children list whose slots hold allocated nodes, the
move written is the coordinate of the lowest-index child whose win rate
`partial_wins / (partial_games + 1e-9)` is maximal among the children of root 0: no child has
a strictly greater win rate, and every child of lower index has a strictly smaller one.  The
win rate is written out with the operations on `double`: the quotient of `(double)partial_wins`
by the sum of `partial_games` and `DIV_DELTA`. -/
theorem decision_first_max_rate {D : Type} [LinearOrder D] (ops : DoubleOps D) (h : Heap)
    (root0 : Nat) (root : Node) (hroot : h[root0]? = some root) (hc : root.children ≠ [])
    (hslots : ∀ slot ∈ root.children, slotAllocated h slot = true) :
    ∃ (k c : Nat) (p : Point) (child : Node), root.children[k]? = some (some c, p) ∧
      h[c]? = some child ∧ decision ops h root0 = some p ∧
      (∀ (i ci : Nat) (pi : Point) (ni : Node), root.children[i]? = some (some ci, pi) →
        h[ci]? = some ni →
        ¬ ops.div (ops.ofInt child.partial_wins)
            (ops.add (ops.ofInt child.partial_games) ops.DIV_DELTA) <
          ops.div (ops.ofInt ni.partial_wins)
            (ops.add (ops.ofInt ni.partial_games) ops.DIV_DELTA)) ∧
      (∀ (i ci : Nat) (pi : Point) (ni : Node), i < k →
        root.children[i]? = some (some ci, pi) → h[ci]? = some ni →
        ops.div (ops.ofInt ni.partial_wins)
            (ops.add (ops.ofInt ni.partial_games) ops.DIV_DELTA) <
          ops.div (ops.ofInt child.partial_wins)
            (ops.add (ops.ofInt child.partial_games) ops.DIV_DELTA)) := by
  have halloc : ∀ slot ∈ root.children, ∃ (c : Nat) (child : Node), slot.1 = some c ∧
      h[c]? = some child := fun slot hs => (slotAllocated_iff h slot).1 (hslots slot hs)
  have hall : ∀ slot ∈ root.children, ∃ v : D, decisionEval ops h slot = some v := by
    intro slot hs
    obtain ⟨c, cn, hc1, hcn⟩ := halloc slot hs
    obtain ⟨s1, s2⟩ := slot
    simp only at hc1
    subst hc1
    exact ⟨_, decisionEval_of ops h c s2 cn hcn⟩
  obtain ⟨k, s, v, a1, a2, a3, a4, a5⟩ := decision_step ops h root0 root hroot hc hall
  obtain ⟨c, child, hc1, hchild⟩ := halloc _ (List.getElem?_mem a1)
  obtain ⟨s1, p⟩ := s
  simp only at hc1
  subst hc1
  rw [decisionEval_of ops h c p child hchild] at a2
  injection a2 with a2
  subst a2
  refine ⟨k, c, p, child, a1, hchild, a3, ?_, ?_⟩
  · intro i ci pi ni hi hni
    exact not_lt.2 (a4 i (some ci, pi) _ hi (decisionEval_of ops h ci pi ni hni))
  · intro i ci pi ni hik hi hni
    exact a5 i (some ci, pi) _ hik hi (decisionEval_of ops h ci pi ni hni)

set_option maxRecDepth 100000 in
theorem decision_first_max_rate_witness :
    playedHeap[0]? = some (playedHeap.get ⟨0, by decide⟩) ∧
    (playedHeap.get ⟨0, by decide⟩).children ≠ [] ∧
    (∀ slot ∈ (playedHeap.get ⟨0, by decide⟩).children, slotAllocated playedHeap slot = true) ∧
    decision sampleOps playedHeap 0 = some (Point.mk 3 2) ∧
    ∃ (k c : Nat) (p : Point) (child : Node),
      (playedHeap.get ⟨0, by decide⟩).children[k]? = some (some c, p) ∧
      playedHeap[c]? = some child ∧ decision sampleOps playedHeap 0 = some p ∧
      (∀ (i ci : Nat) (pi : Point) (ni : Node),
        (playedHeap.get ⟨0, by decide⟩).children[i]? = some (some ci, pi) →
        playedHeap[ci]? = some ni →
        ¬ sampleOps.div (sampleOps.ofInt child.partial_wins)
            (sampleOps.add (sampleOps.ofInt child.partial_games) sampleOps.DIV_DELTA) <
          sampleOps.div (sampleOps.ofInt ni.partial_wins)
            (sampleOps.add (sampleOps.ofInt ni.partial_games) sampleOps.DIV_DELTA)) ∧
      (∀ (i ci : Nat) (pi : Point) (ni : Node), i < k →
        (playedHeap.get ⟨0, by decide⟩).children[i]? = some (some ci, pi) →
        playedHeap[ci]? = some ni →
        sampleOps.div (sampleOps.ofInt ni.partial_wins)
            (sampleOps.add (sampleOps.ofInt ni.partial_games) sampleOps.DIV_DELTA) <
          sampleOps.div (sampleOps.ofInt child.partial_wins)
            (sampleOps.add (sampleOps.ofInt child.partial_games) sampleOps.DIV_DELTA)) :=
  ⟨by decide, by decide, by decide, by decide,
    decision_first_max_rate sampleOps playedHeap 0 (playedHeap.get ⟨0, by decide⟩)
      (by decide) (by decide) (by decide)⟩

end Othello
